import Mathlib

set_option maxHeartbeats 1600000
set_option maxRecDepth 4000

/-! Verification development for the HeartOfMagic SpellTreeBuilder core
(tree builder orchestrator, branching-energy controller, spacing engine,
plugin registry), shallowly embedded from the Python sources.
Machine integers are modelled as `Int`/`Nat`; Python floats are modelled
as exact rationals `ℚ`; Python dicts keyed by opaque id strings are
modelled as insertion-ordered association lists keyed by `Nat`
(dict-with-default `.get(k, 0)` maps become total functions with default
0); the process-global random stream seeded once per run is modelled as
an abstract draw stream indexed by a counter that every probabilistic
primitive advances. -/

/-- Tier progression order, tree_builder.py `TIER_ORDER`. -/
def TIER_ORDER : List String := ["Novice", "Apprentice", "Adept", "Expert", "Master"]

/-- tree_builder.py `SpellTreeBuilder._tier_to_depth`: index of the tier in
`TIER_ORDER`, and 0 when the tier is unknown (the `except ValueError` path). -/
def tierToDepth (tier : String) : Nat := (TIER_ORDER.findIdx? (· = tier)).getD 0

/-- Modelled from the spec: the mutable node record of `core/node.py`
(that file is not under src/; only its callers are). Identity is the
table key; the record carries tier, theme, depth (distance from root),
root flag, outgoing `children` ids and incoming `prerequisites` ids. -/
structure TreeNode where
  tier : String
  theme : String
  depth : Int
  isRoot : Bool := false
  children : List Nat := []
  prerequisites : List Nat := []
  position : ℚ × ℚ := (0, 0)
deriving Repr, DecidableEq

/-- The builder's node table `nodes: Dict[str, TreeNode]`, as an
insertion-ordered association list. -/
abbrev NodeTable := List (Nat × TreeNode)

/-- Dict lookup `nodes[fid]` / `nodes.get(fid)`. -/
def lookupNode (t : NodeTable) (i : Nat) : Option TreeNode :=
  match t with
  | [] => none
  | (j, n) :: rest => if j = i then some n else lookupNode rest i

/-- The keys of the node table, in insertion order (`nodes.keys()`). -/
def tableIds (t : NodeTable) : List Nat := t.map (·.1)

/-- `nodes[i].children`, empty when the id is absent. -/
def childrenOf (t : NodeTable) (i : Nat) : List Nat :=
  match lookupNode t i with
  | some n => n.children
  | none => []

/-- `nodes[i].prerequisites`, empty when the id is absent. -/
def prereqsOf (t : NodeTable) (i : Nat) : List Nat :=
  match lookupNode t i with
  | some n => n.prerequisites
  | none => []

/-- In-place mutation of the node object stored at key `i`
(Python mutates the shared `TreeNode` object; the dict keeps its order). -/
def updateNode (t : NodeTable) (i : Nat) (f : TreeNode → TreeNode) : NodeTable :=
  t.map (fun p => if p.1 = i then (p.1, f p.2) else p)

theorem lookupNode_updateNode (t : NodeTable) (i j : Nat) (f : TreeNode → TreeNode) :
    lookupNode (updateNode t i f) j =
      if j = i then (lookupNode t j).map f else lookupNode t j := by
  induction t with
  | nil => simp [lookupNode, updateNode]
  | cons p rest ih =>
    obtain ⟨k, n⟩ := p
    have hrest : updateNode ((k, n) :: rest) i f =
        (if k = i then (k, f n) else (k, n)) :: updateNode rest i f := rfl
    rw [hrest]
    by_cases hk : k = i
    · subst hk
      rw [if_pos rfl]
      by_cases hj : k = j
      · subst hj
        simp [lookupNode]
      · simp only [lookupNode, if_neg hj, ih]
    · rw [if_neg hk]
      by_cases hj : k = j
      · subst hj
        have hji : ¬ (k = i) := hk
        simp [lookupNode, hji]
      · simp only [lookupNode, if_neg hj, ih]

theorem tableIds_updateNode (t : NodeTable) (i : Nat) (f : TreeNode → TreeNode) :
    tableIds (updateNode t i f) = tableIds t := by
  induction t with
  | nil => rfl
  | cons p rest ih =>
    obtain ⟨k, n⟩ := p
    have hrest : updateNode ((k, n) :: rest) i f =
        (if k = i then (k, f n) else (k, n)) :: updateNode rest i f := rfl
    rw [hrest]
    by_cases hk : k = i <;> simp [tableIds, hk] at * <;> exact ih

/-- Abstract model of the process-global random stream
(`random.seed(seed)` once per run): a fixed stream of float draws and of
integer draws, consumed at an advancing counter position. Two runs with
the same seed see the same stream. -/
structure Rng where
  rfloat : Nat → ℚ
  rnat : Nat → Nat

/-- Floor of a rational, written out computably (`Int.fdiv` is floor
division and the denominator is positive). -/
def ratFloor (q : ℚ) : Int := Int.fdiv q.num (q.den : Int)

/-- Python `int(x)` on a float/rational: truncation toward zero. -/
def pyTrunc (q : ℚ) : Int := if q < 0 then -(ratFloor (-q)) else ratFloor q

/-- Python `random.randint(a, b)`: a uniformly drawn integer in `[a, b]`
(both ends inclusive), modelled as the draw reduced into the range; the
`a > b` case raises in Python and is given the junk value `a` here. -/
def pyRandint (a b : Int) (draw : Nat) : Int :=
  if a ≤ b then a + ((draw : Int) % (b - a + 1)) else a

theorem pyRandint_mem (a b : Int) (draw : Nat) (hab : a ≤ b) :
    a ≤ pyRandint a b draw ∧ pyRandint a b draw ≤ b := by
  unfold pyRandint
  rw [if_pos hab]
  have hpos : (0 : Int) < b - a + 1 := by omega
  have h0 : 0 ≤ (draw : Int) % (b - a + 1) := Int.emod_nonneg _ (by omega)
  have h1 : (draw : Int) % (b - a + 1) < b - a + 1 := Int.emod_lt_of_pos _ hpos
  omega

/-- Python `random.choice(seq)`: a uniformly chosen element, modelled by
reducing an integer draw into the index range. -/
def pyChoice (l : List Nat) (draw : Nat) : Nat := l.getD (draw % l.length) 0

theorem pyChoice_mem (l : List Nat) (draw : Nat) (h : l ≠ []) : pyChoice l draw ∈ l := by
  have hlen : 0 < l.length := List.length_pos.mpr h
  have hlt : draw % l.length < l.length := Nat.mod_lt _ hlen
  unfold pyChoice
  rw [List.getD_eq_getElem l 0 hlt]
  exact l.getElem_mem hlt

/-- growth/branching_energy.py `BranchingEnergyConfig`. -/
structure BranchingEnergyConfig where
  enabled : Bool := true
  minStraight : Int := 2
  maxStraight : Int := 5
  energyPerNode : ℚ := 3/10
  energyToBranch : ℚ := 1
  randomness : ℚ := 3/10
deriving Repr, DecidableEq

/-- growth/branching_energy.py `BranchingEnergy`: the controller's two
dicts (consecutive-straight counts and accumulated energy keyed by node
id) are modelled as total functions with default 0, matching every read
in the source being `.get(node_id, 0)` / `.get(node_id, 0.0)`. -/
structure BranchingEnergy where
  config : BranchingEnergyConfig
  straightCounts : Nat → Int
  energy : Nat → ℚ

/-- `BranchingEnergy.__init__` / `reset`: empty dicts, i.e. default 0
under every `.get`. -/
def BranchingEnergy.init (cfg : BranchingEnergyConfig) : BranchingEnergy :=
  { config := cfg, straightCounts := fun _ => 0, energy := fun _ => 0 }

/-- `BranchingEnergy.start_path(root_id)`. -/
def BranchingEnergy.startPath (be : BranchingEnergy) (rootId : Nat) : BranchingEnergy :=
  { be with
    straightCounts := fun x => if x = rootId then 0 else be.straightCounts x,
    energy := fun x => if x = rootId then 0 else be.energy x }

/-- `BranchingEnergy.record_connection(parent_id, child_id, is_branch)`. -/
def BranchingEnergy.recordConnection (be : BranchingEnergy)
    (parentId childId : Nat) (isBranch : Bool) : BranchingEnergy :=
  if ¬ be.config.enabled then be
  else
    let parentStraight := be.straightCounts parentId
    let parentEnergy := be.energy parentId
    if isBranch then
      let remainingEnergy := max 0 (parentEnergy - be.config.energyToBranch)
      { be with
        straightCounts := fun x => if x = childId then 0 else be.straightCounts x,
        energy := fun x => if x = childId then remainingEnergy * (1/2) else be.energy x }
    else
      { be with
        straightCounts := fun x => if x = childId then parentStraight + 1 else be.straightCounts x,
        energy := fun x => if x = childId then parentEnergy + be.config.energyPerNode else be.energy x }

/-- `BranchingEnergy.can_branch(node_id)`. -/
def BranchingEnergy.canBranch (be : BranchingEnergy) (nodeId : Nat) : Bool :=
  if ¬ be.config.enabled then true
  else if be.straightCounts nodeId < be.config.minStraight then false
  else if be.config.maxStraight ≤ be.straightCounts nodeId then true
  else decide (be.config.energyToBranch ≤ be.energy nodeId)

/-- `BranchingEnergy.must_branch(node_id)`. -/
def BranchingEnergy.mustBranch (be : BranchingEnergy) (nodeId : Nat) : Bool :=
  if ¬ be.config.enabled then false
  else decide (be.config.maxStraight ≤ be.straightCounts nodeId)

/-- `BranchingEnergy.should_branch(node_id, base_probability)`; returns the
decision together with the advanced draw counter. -/
def BranchingEnergy.shouldBranch (be : BranchingEnergy) (nodeId : Nat)
    (baseProbability : ℚ) (rng : Rng) (σ : Nat) : Bool × Nat :=
  if ¬ be.config.enabled then (decide (rng.rfloat σ < baseProbability), σ + 1)
  else if ¬ be.canBranch nodeId then (false, σ)
  else if be.mustBranch nodeId then (true, σ)
  else
    let straightCount := be.straightCounts nodeId
    let energy := be.energy nodeId
    let energyFactor := min 1 (energy / be.config.energyToBranch)
    let progress := ((straightCount - be.config.minStraight : Int) : ℚ) /
        ((max 1 (be.config.maxStraight - be.config.minStraight) : Int) : ℚ)
    let straightFactor := progress
    let deterministicProb := (energyFactor * (6/10) + straightFactor * (4/10)) * baseProbability
    if 0 < be.config.randomness then
      let randomOffset := (rng.rfloat σ - (1/2)) * 2 * be.config.randomness
      let finalProb := max 0 (min 1 (deterministicProb + randomOffset * (1/2)))
      (decide (rng.rfloat (σ + 1) < finalProb), σ + 2)
    else
      (decide (rng.rfloat σ < deterministicProb), σ + 1)

/-- `BranchingEnergy.calculate_children_count(node_id, max_children,
base_probability)`; returns the count with the advanced draw counter. -/
def BranchingEnergy.calculateChildrenCount (be : BranchingEnergy) (nodeId : Nat)
    (maxChildren : Int) (baseProbability : ℚ) (rng : Rng) (σ : Nat) : Int × Nat :=
  if maxChildren ≤ 1 then (maxChildren, σ)
  else
    let sb := be.shouldBranch nodeId baseProbability rng σ
    if ¬ sb.1 then (1, sb.2)
    else if ¬ be.config.enabled ∨ (8/10 : ℚ) ≤ be.config.randomness then
      (pyRandint 2 maxChildren (rng.rnat sb.2), sb.2 + 1)
    else
      let energy := be.energy nodeId
      let energyExcess := max 0 (energy - be.config.energyToBranch)
      let baseCount : Int := 2
      let energyBonus := pyTrunc (energyExcess / be.config.energyPerNode)
      if 0 < be.config.randomness then
        let randomBonus := pyRandint 0 (max 0 (maxChildren - baseCount - energyBonus)) (rng.rnat sb.2)
        let finalCount := baseCount + energyBonus + pyTrunc ((randomBonus : ℚ) * be.config.randomness)
        (min maxChildren (max 2 finalCount), sb.2 + 1)
      else
        (min maxChildren (max 2 (baseCount + energyBonus)), sb.2)

/-- Claim C6: `record_connection(parent_id, child_id, is_branch)` updates
exactly the child's entries — on a branch the child's straight-count
becomes 0 and its energy `max(0, parent_energy - energy_to_branch) * 0.5`,
otherwise straight-count `parent_straight + 1` and energy
`parent_energy + energy_per_node`; every other node's entries and the
configuration are untouched. Parent entries never written read as 0
(the `.get(parent_id, 0)` default, built into the total-function model).
Stated for an enabled controller (the disabled early return is claim C10). -/
theorem claim_c6_record_connection (be : BranchingEnergy) (parentId childId : Nat)
    (isBranch : Bool) (henabled : be.config.enabled = true) :
    ((be.recordConnection parentId childId isBranch).straightCounts childId =
        if isBranch then 0 else be.straightCounts parentId + 1) ∧
    ((be.recordConnection parentId childId isBranch).energy childId =
        if isBranch then max 0 (be.energy parentId - be.config.energyToBranch) * (1/2)
        else be.energy parentId + be.config.energyPerNode) ∧
    (∀ x, x ≠ childId →
        (be.recordConnection parentId childId isBranch).straightCounts x = be.straightCounts x ∧
        (be.recordConnection parentId childId isBranch).energy x = be.energy x) ∧
    (be.recordConnection parentId childId isBranch).config = be.config := by
  cases isBranch <;>
    exact ⟨by simp [BranchingEnergy.recordConnection, henabled],
      by simp [BranchingEnergy.recordConnection, henabled],
      fun x hx => by simp [BranchingEnergy.recordConnection, henabled, hx],
      by simp [BranchingEnergy.recordConnection, henabled]⟩

theorem claim_c6_record_connection_witness :
    ((BranchingEnergy.init {}).recordConnection 1 2 true).straightCounts 2 = 0 ∧
    ((BranchingEnergy.init {}).recordConnection 1 2 true).energy 2 =
      max 0 ((0 : ℚ) - 1) * (1/2) ∧
    ((BranchingEnergy.init {}).recordConnection 1 2 true).straightCounts 7 = 0 := by
  have h := claim_c6_record_connection (BranchingEnergy.init {}) 1 2 true rfl
  refine ⟨by simpa using h.1, ?_, ?_⟩
  · simpa [BranchingEnergy.init] using h.2.1
  · have h7 := (h.2.2.1 7 (by decide)).1
    simpa [BranchingEnergy.init] using h7

/-- Claim C10: with `BranchingEnergyConfig.enabled` false,
`record_connection` returns without touching any controller state, and
for every node id `can_branch` is true and `must_branch` is false
regardless of recorded state. -/
theorem claim_c10_disabled_controller (be : BranchingEnergy) (parentId childId x : Nat)
    (isBranch : Bool) (hdis : be.config.enabled = false) :
    be.recordConnection parentId childId isBranch = be ∧
    be.canBranch x = true ∧ be.mustBranch x = false := by
  refine ⟨?_, ?_, ?_⟩ <;>
    simp [BranchingEnergy.recordConnection, BranchingEnergy.canBranch,
      BranchingEnergy.mustBranch, hdis]

theorem claim_c10_disabled_controller_witness :
    (BranchingEnergy.init { enabled := false }).recordConnection 1 2 true =
      BranchingEnergy.init { enabled := false } ∧
    (BranchingEnergy.init { enabled := false }).canBranch 9 = true ∧
    (BranchingEnergy.init { enabled := false }).mustBranch 9 = false :=
  claim_c10_disabled_controller (BranchingEnergy.init { enabled := false }) 1 2 9 true rfl

/-- Claim C7 counterexample: with the default configuration (enabled,
`min_straight = 2`) and fresh state, `should_branch` is false (the
straight count 0 is below the minimum), yet
`calculate_children_count(node, 0, 0.5)` returns `max_children = 0`,
not 1 as the claim requires for every `max_children` value: the
`max_children <= 1` early return bypasses the claimed case analysis. -/
theorem claim_c7_counterexample :
    ((BranchingEnergy.init {}).shouldBranch 0 (1/2) ⟨fun _ => 0, fun _ => 0⟩ 0).1 = false ∧
    ((BranchingEnergy.init {}).calculateChildrenCount 0 0 (1/2) ⟨fun _ => 0, fun _ => 0⟩ 0).1 ≠ 1 := by
  constructor
  · simp [BranchingEnergy.shouldBranch, BranchingEnergy.canBranch, BranchingEnergy.init]
  · simp [BranchingEnergy.calculateChildrenCount]

/-- Claim C7 (amended): for `max_children ≥ 2` (and a nonzero
`energy_per_node`, without which the Python raises `ZeroDivisionError`),
`calculate_children_count` returns 1 exactly when the internal
`should_branch` decision is false, and otherwise an integer between 2 and
`max_children` inclusive; for `max_children ≤ 1` the function returns
`max_children` itself without consulting `should_branch`. -/
theorem claim_c7_children_count_range (be : BranchingEnergy) (nodeId : Nat)
    (maxChildren : Int) (baseProbability : ℚ) (rng : Rng) (σ : Nat)
    (hmax : 2 ≤ maxChildren) (hepn : be.config.energyPerNode ≠ 0) :
    (((be.shouldBranch nodeId baseProbability rng σ).1 = false) →
      (be.calculateChildrenCount nodeId maxChildren baseProbability rng σ).1 = 1) ∧
    (((be.shouldBranch nodeId baseProbability rng σ).1 = true) →
      2 ≤ (be.calculateChildrenCount nodeId maxChildren baseProbability rng σ).1 ∧
      (be.calculateChildrenCount nodeId maxChildren baseProbability rng σ).1 ≤ maxChildren) := by
  have hnle : ¬ maxChildren ≤ 1 := by omega
  unfold BranchingEnergy.calculateChildrenCount
  rw [if_neg hnle]
  constructor
  · intro hsb
    simp [hsb]
  · intro hsb
    simp only [hsb, Bool.not_true, if_neg (by simp : ¬ (false = true))]
    by_cases hrand : ¬ be.config.enabled ∨ (8/10 : ℚ) ≤ be.config.randomness
    · rw [if_pos hrand]
      exact pyRandint_mem 2 maxChildren _ hmax
    · rw [if_neg hrand]
      by_cases hr0 : 0 < be.config.randomness
      · rw [if_pos hr0]
        exact ⟨le_min hmax (le_max_left _ _), min_le_left _ _⟩
      · rw [if_neg hr0]
        exact ⟨le_min hmax (le_max_left _ _), min_le_left _ _⟩

theorem claim_c7_children_count_range_witness :
    ((BranchingEnergy.init {}).calculateChildrenCount 0 3 (1/2) ⟨fun _ => 0, fun _ => 0⟩ 0).1 = 1 := by
  have h := claim_c7_children_count_range (BranchingEnergy.init {}) 0 3 (1/2)
    ⟨fun _ => 0, fun _ => 0⟩ 0 (by norm_num) (by norm_num [BranchingEnergy.init])
  exact h.1 (by simp [BranchingEnergy.shouldBranch, BranchingEnergy.canBranch, BranchingEnergy.init])

/-- Python `str.lower()` (ASCII plugin names), kept kernel-computable. -/
def strLower (s : String) : String := ⟨s.data.map Char.toLower⟩

/-- An opaque stand-in for a registered plugin implementation class
(core/registry.py stores class objects; only identity matters here). -/
structure PluginClass where
  tag : Nat
deriving Repr, DecidableEq

/-- core/registry.py `PluginRegistry`: the `_plugins` dict (insertion
ordered) and the `_plugin_type` label used in error messages. -/
structure PluginRegistry where
  pluginType : String
  plugins : List (String × PluginClass)
deriving Repr, DecidableEq

/-- Python dict assignment `d[k] = v`: overwrite in place when the key
exists (keeping its position), else append. -/
def dictSet (d : List (String × PluginClass)) (k : String) (v : PluginClass) :
    List (String × PluginClass) :=
  if d.any (·.1 = k) then d.map (fun p => if p.1 = k then (k, v) else p) else d ++ [(k, v)]

/-- Python dict lookup `d.get(k)`. -/
def lookupStr (d : List (String × PluginClass)) (k : String) : Option PluginClass :=
  match d with
  | [] => none
  | (j, c) :: rest => if j = k then some c else lookupStr rest k

/-- `PluginRegistry.register(name)` applied to a class: stores under the
lowercased name (`cls._plugins[name.lower()] = plugin_class`). -/
def PluginRegistry.registerPlugin (r : PluginRegistry) (name : String) (c : PluginClass) :
    PluginRegistry :=
  { r with plugins := dictSet r.plugins (strLower name) c }

/-- `PluginRegistry.get(name)`: lookup under the lowercased name. -/
def PluginRegistry.getPlugin (r : PluginRegistry) (name : String) : Option PluginClass :=
  lookupStr r.plugins (strLower name)

/-- `PluginRegistry.list_names()`. -/
def PluginRegistry.listNames (r : PluginRegistry) : List String := r.plugins.map (·.1)

/-- The ASCII apostrophe used in the f-string error message. -/
def squote : String := String.singleton (Char.ofNat 39)

/-- `PluginRegistry.create(name)`: the found class (instantiation is the
class applied to its arguments; only which class is chosen matters), or
the `KeyError` message `f"Unknown {type} '{name}'. Available: {names}"`. -/
def PluginRegistry.create (r : PluginRegistry) (name : String) : Except String PluginClass :=
  match r.getPlugin name with
  | some c => Except.ok c
  | none => Except.error ("Unknown " ++ r.pluginType ++ " " ++ squote ++ name ++ squote ++
      ". Available: " ++ String.intercalate ", " r.listNames)

/-- A registry populated by a sequence of `register` declarations at
process start, from an empty table. -/
def mkRegistry (ty : String) (entries : List (String × PluginClass)) : PluginRegistry :=
  entries.foldl (fun r e => r.registerPlugin e.1 e.2) ⟨ty, []⟩

theorem lookupStr_cons (j : String) (c : PluginClass) (rest : List (String × PluginClass))
    (k : String) :
    lookupStr ((j, c) :: rest) k = if j = k then some c else lookupStr rest k := rfl

theorem lookupStr_map_overwrite (d : List (String × PluginClass)) (k k' : String)
    (v : PluginClass) :
    lookupStr (d.map (fun p => if p.1 = k then (k, v) else p)) k' =
      if k' = k then (if (lookupStr d k).isSome then some v else none)
      else lookupStr d k' := by
  induction d with
  | nil => by_cases h : k' = k <;> simp [lookupStr, h]
  | cons p rest ih =>
    obtain ⟨j, c⟩ := p
    have hd : (if (j, c).1 = k then (k, v) else (j, c)) =
        (if j = k then (k, v) else (j, c)) := rfl
    rw [List.map_cons, hd]
    by_cases hj : j = k
    · subst hj
      rw [if_pos rfl]
      by_cases hk' : k' = j
      · subst hk'
        simp [lookupStr_cons]
      · have h1 : ¬ (j = k') := fun h => hk' h.symm
        simp [lookupStr_cons, h1, hk', ih]
    · rw [if_neg hj]
      by_cases hk' : k' = j
      · subst hk'
        simp [lookupStr_cons, hj]
      · have h1 : ¬ (j = k') := fun h => hk' h.symm
        simp [lookupStr_cons, h1, hj, ih]

theorem lookupStr_append_single (d : List (String × PluginClass)) (k k' : String)
    (v : PluginClass) :
    lookupStr (d ++ [(k, v)]) k' =
      match lookupStr d k' with
      | some c => some c
      | none => if k = k' then some v else none := by
  induction d with
  | nil => simp [lookupStr]
  | cons p rest ih =>
    obtain ⟨j, c⟩ := p
    rw [List.cons_append, lookupStr_cons, lookupStr_cons]
    by_cases hj : j = k' <;> simp [hj, ih]

theorem any_key_iff_lookupStr (d : List (String × PluginClass)) (k : String) :
    (d.any (·.1 = k)) = (lookupStr d k).isSome := by
  induction d with
  | nil => simp [lookupStr]
  | cons p rest ih =>
    obtain ⟨j, c⟩ := p
    rw [lookupStr_cons]
    by_cases hj : j = k <;> simp [hj, ih]

theorem lookupStr_dictSet (d : List (String × PluginClass)) (k k' : String) (v : PluginClass) :
    lookupStr (dictSet d k v) k' = if k' = k then some v else lookupStr d k' := by
  unfold dictSet
  by_cases hany : d.any (·.1 = k)
  · rw [if_pos hany, lookupStr_map_overwrite]
    have hsome : (lookupStr d k).isSome := by rw [← any_key_iff_lookupStr]; exact hany
    by_cases hk : k' = k <;> simp [hk, hsome]
  · rw [if_neg hany, lookupStr_append_single]
    have hnone : lookupStr d k = none := by
      have h := any_key_iff_lookupStr d k
      rcases hopt : lookupStr d k with _ | c
      · rfl
      · rw [hopt] at h
        simp at h
        exact absurd h (by simpa using hany)
    by_cases hk : k' = k
    · subst hk
      simp [hnone]
    · have hk2 : ¬ (k = k') := fun h => hk h.symm
      rcases hopt : lookupStr d k' with _ | c <;> simp [hopt, hk, hk2]

theorem mkRegistry_pluginType (ty : String) (es : List (String × PluginClass)) :
    (mkRegistry ty es).pluginType = ty := by
  suffices h : ∀ r : PluginRegistry,
      (es.foldl (fun r e => r.registerPlugin e.1 e.2) r).pluginType = r.pluginType by
    exact h ⟨ty, []⟩
  induction es with
  | nil => intro r; rfl
  | cons e rest ih => intro r; exact ih _

theorem foldl_register_lookup_frame (es : List (String × PluginClass)) (k : String)
    (h : ∀ e ∈ es, ¬ (strLower e.1) = k) :
    ∀ r : PluginRegistry,
      lookupStr ((es.foldl (fun r e => r.registerPlugin e.1 e.2) r).plugins) k =
        lookupStr r.plugins k := by
  induction es with
  | nil => intro r; rfl
  | cons e rest ih =>
    intro r
    rw [List.foldl_cons, ih (fun x hx => h x (List.mem_cons_of_mem _ hx))]
    show lookupStr (dictSet r.plugins (strLower e.1) e.2) k = _
    rw [lookupStr_dictSet]
    have hne : ¬ (k = (strLower e.1)) := fun hk => h e (List.mem_cons_self _ _) hk.symm
    rw [if_neg hne]

theorem foldl_register_lookup_mem (es : List (String × PluginClass)) (k : String) :
    ∀ r : PluginRegistry, (∃ e ∈ es, (strLower e.1) = k) →
      ∃ e ∈ es, (strLower e.1) = k ∧
        lookupStr ((es.foldl (fun r e => r.registerPlugin e.1 e.2) r).plugins) k = some e.2 := by
  induction es with
  | nil =>
    intro r h
    exact absurd h (by simp)
  | cons e rest ih =>
    intro r h
    by_cases hrest : ∃ x ∈ rest, (strLower x.1) = k
    · obtain ⟨x, hx, hxl, hlook⟩ := ih (r.registerPlugin e.1 e.2) hrest
      exact ⟨x, List.mem_cons_of_mem _ hx, hxl, by rw [List.foldl_cons]; exact hlook⟩
    · have he : (strLower e.1) = k := by
        obtain ⟨x, hx, hxl⟩ := h
        rcases List.mem_cons.mp hx with h1 | h1
        · subst h1; exact hxl
        · exact absurd ⟨x, h1, hxl⟩ hrest
      refine ⟨e, List.mem_cons_self _ _, he, ?_⟩
      rw [List.foldl_cons]
      have hframe := foldl_register_lookup_frame rest k
        (fun x hx hxl => hrest ⟨x, hx, hxl⟩) (r.registerPlugin e.1 e.2)
      rw [hframe]
      show lookupStr (dictSet r.plugins (strLower e.1) e.2) k = some e.2
      rw [lookupStr_dictSet, he, if_pos rfl]

/-- Claim C9: `PluginRegistry.create(name)` on a registry built by a
sequence of `register` declarations fails exactly when no registration
matches `name` case-insensitively, and then with the message
`Unknown <type> <name>. Available: <all registered names>`; on a match it
returns the class actually registered under the matching name (the last
such registration), never a silent default. -/
theorem claim_c9_registry_create (ty name : String) (es : List (String × PluginClass)) :
    ((∃ e ∈ es, (strLower e.1) = (strLower name)) →
      ∃ e ∈ es, (strLower e.1) = (strLower name) ∧
        (mkRegistry ty es).create name = Except.ok e.2) ∧
    ((¬ ∃ e ∈ es, (strLower e.1) = (strLower name)) →
      (mkRegistry ty es).create name =
        Except.error ("Unknown " ++ ty ++ " " ++ squote ++ name ++ squote ++
          ". Available: " ++ String.intercalate ", " (mkRegistry ty es).listNames)) := by
  constructor
  · intro h
    obtain ⟨e, he, hel, hlook⟩ := foldl_register_lookup_mem es (strLower name) ⟨ty, []⟩ h
    refine ⟨e, he, hel, ?_⟩
    unfold PluginRegistry.create PluginRegistry.getPlugin
    have hlook2 : lookupStr (mkRegistry ty es).plugins (strLower name) = some e.2 := hlook
    show (match lookupStr (mkRegistry ty es).plugins (strLower name) with
      | some c => Except.ok c
      | none => _) = _
    rw [hlook2]
  · intro h
    have hnone : lookupStr (mkRegistry ty es).plugins (strLower name) = none := by
      have := foldl_register_lookup_frame es (strLower name)
        (fun e he hel => h ⟨e, he, hel⟩) ⟨ty, []⟩
      exact this
    unfold PluginRegistry.create PluginRegistry.getPlugin
    show (match lookupStr (mkRegistry ty es).plugins (strLower name) with
      | some c => Except.ok c
      | none => Except.error ("Unknown " ++ (mkRegistry ty es).pluginType ++ " " ++ squote ++
          name ++ squote ++ ". Available: " ++
          String.intercalate ", " (mkRegistry ty es).listNames)) = _
    rw [hnone, mkRegistry_pluginType]

theorem claim_c9_registry_create_witness :
    (∃ e ∈ [("Organic", (⟨1⟩ : PluginClass)), ("Grid", (⟨2⟩ : PluginClass))],
      (strLower e.1) = (strLower "ORGANIC") ∧
      (mkRegistry "shape" [("Organic", ⟨1⟩), ("Grid", ⟨2⟩)]).create "ORGANIC" = Except.ok e.2) ∧
    (mkRegistry "shape" [("Organic", (⟨1⟩ : PluginClass)), ("Grid", (⟨2⟩ : PluginClass))]).create "cloud" =
      Except.error ("Unknown " ++ "shape" ++ " " ++ squote ++ "cloud" ++ squote ++
        ". Available: " ++ String.intercalate ", "
          (mkRegistry "shape" [("Organic", (⟨1⟩ : PluginClass)), ("Grid", (⟨2⟩ : PluginClass))]).listNames) :=
  ⟨(claim_c9_registry_create "shape" "ORGANIC" [("Organic", ⟨1⟩), ("Grid", ⟨2⟩)]).1
      ⟨("Organic", ⟨1⟩), by decide, by decide⟩,
    (claim_c9_registry_create "shape" "cloud" [("Organic", ⟨1⟩), ("Grid", ⟨2⟩)]).2
      (by decide)⟩

/-- core/math_utils.py `Vector2D`, with exact rational coordinates. -/
structure Vector2D where
  x : ℚ := 0
  y : ℚ := 0
deriving Repr, DecidableEq

def Vector2D.add (a b : Vector2D) : Vector2D := ⟨a.x + b.x, a.y + b.y⟩

def Vector2D.sub (a b : Vector2D) : Vector2D := ⟨a.x - b.x, a.y - b.y⟩

def Vector2D.smul (a : Vector2D) (s : ℚ) : Vector2D := ⟨a.x * s, a.y * s⟩

/-- `Vector2D.__truediv__`: componentwise division, zero vector when the
scalar is zero (the source's explicit guard). -/
def Vector2D.divScalar (a : Vector2D) (s : ℚ) : Vector2D :=
  if s = 0 then ⟨0, 0⟩ else ⟨a.x / s, a.y / s⟩

def Vector2D.magSq (a : Vector2D) : ℚ := a.x * a.x + a.y * a.y

/-- `Vector2D.magnitude = sqrt(x*x + y*y)`: `math.sqrt` is a real-number
operation, so the square root is a parameter `sq` of the embedding;
concrete runs instantiate it with `ratSqrt`, exact on perfect squares. -/
def Vector2D.magnitude (sq : ℚ → ℚ) (a : Vector2D) : ℚ := sq a.magSq

/-- `Vector2D.normalized`: zero vector for zero magnitude, else `self / mag`. -/
def Vector2D.normalized (sq : ℚ → ℚ) (a : Vector2D) : Vector2D :=
  let m := a.magnitude sq
  if m = 0 then ⟨0, 0⟩ else a.divScalar m

def Vector2D.distanceTo (sq : ℚ → ℚ) (a b : Vector2D) : ℚ := (a.sub b).magnitude sq

/-- A computable square root on ℚ, exact whenever the argument is the
square of a rational with square-numerator-times-denominator (and in
particular `ratSqrt 0 = 0`, `ratSqrt 1 = 1`); the scenarios evaluated
below only ever take square roots of 0. -/
def ratSqrt (q : ℚ) : ℚ :=
  if q ≤ 0 then 0 else ((Nat.sqrt (q.num.toNat * q.den) : ℚ) / (q.den : ℚ))

/-- core/spacing.py `SpacingConfig`. -/
structure SpacingConfig where
  minSpacing : ℚ := 1
  gridCellSize : ℚ := 2
  repulsionStrength : ℚ := 1/2
  repulsionIterations : Nat := 3
deriving Repr, DecidableEq

/-- core/spacing.py `SpacingEngine`: the cell → id-set spatial index and
the id → position dict, both as insertion-ordered association lists. -/
structure SpacingEngine where
  config : SpacingConfig
  minSpacing : ℚ
  cellSize : ℚ
  spatialIndex : List ((Int × Int) × List Nat)
  positions : List (Nat × Vector2D)
deriving Repr, DecidableEq

def freshSpacingEngine (cfg : SpacingConfig) : SpacingEngine :=
  { config := cfg, minSpacing := cfg.minSpacing, cellSize := cfg.gridCellSize,
    spatialIndex := [], positions := [] }

def cellGet (idx : List ((Int × Int) × List Nat)) (c : Int × Int) : Option (List Nat) :=
  match idx with
  | [] => none
  | (c', s) :: rest => if c' = c then some s else cellGet rest c

/-- Python dict assignment on the spatial index. -/
def cellSet (idx : List ((Int × Int) × List Nat)) (c : Int × Int) (v : List Nat) :
    List ((Int × Int) × List Nat) :=
  if (cellGet idx c).isSome then idx.map (fun p => if p.1 = c then (c, v) else p)
  else idx ++ [(c, v)]

def posGet (ps : List (Nat × Vector2D)) (i : Nat) : Option Vector2D :=
  match ps with
  | [] => none
  | (j, v) :: rest => if j = i then some v else posGet rest i

def posSet (ps : List (Nat × Vector2D)) (i : Nat) (v : Vector2D) :
    List (Nat × Vector2D) :=
  if (posGet ps i).isSome then ps.map (fun p => if p.1 = i then (i, v) else p)
  else ps ++ [(i, v)]

/-- `SpacingEngine._get_cell`: `int(x // cell_size)` is the floor. -/
def SpacingEngine.getCell (e : SpacingEngine) (pos : Vector2D) : Int × Int :=
  (ratFloor (pos.x / e.cellSize), ratFloor (pos.y / e.cellSize))

def intRange (a b : Int) : List Int := (List.range (b - a).toNat).map (fun i => a + (i : Int))

/-- `SpacingEngine._get_nearby_cells`. -/
def SpacingEngine.getNearbyCells (e : SpacingEngine) (pos : Vector2D) (radius : ℚ) :
    List (Int × Int) :=
  let centerCell := e.getCell pos
  let cellsRadius := pyTrunc (radius / e.cellSize) + 1
  (intRange (-cellsRadius) (cellsRadius + 1)).flatMap (fun dx =>
    (intRange (-cellsRadius) (cellsRadius + 1)).map (fun dy =>
      (centerCell.1 + dx, centerCell.2 + dy)))

/-- `SpacingEngine.register_node(node_id, position)`. -/
def SpacingEngine.registerNode (e : SpacingEngine) (nid : Nat) (pos : Vector2D) :
    SpacingEngine :=
  let e :=
    match posGet e.positions nid with
    | some old =>
      let oldCell := e.getCell old
      match cellGet e.spatialIndex oldCell with
      | some s => { e with spatialIndex := cellSet e.spatialIndex oldCell (s.erase nid) }
      | none => e
    | none => e
  let e := { e with positions := posSet e.positions nid pos }
  let cell := e.getCell pos
  match cellGet e.spatialIndex cell with
  | some s =>
    { e with spatialIndex := cellSet e.spatialIndex cell (if nid ∈ s then s else s ++ [nid]) }
  | none => { e with spatialIndex := cellSet e.spatialIndex cell [nid] }

/-- `SpacingEngine.get_nearby_nodes(position, radius)`; a `None` or zero
radius argument falls back to `min_spacing * 2` (Python's `radius or
default` treats 0.0 as falsy). Ids present in the index are always in the
positions dict in the source; missing ids are skipped defensively. -/
def SpacingEngine.getNearbyNodes (sq : ℚ → ℚ) (e : SpacingEngine) (pos : Vector2D)
    (radiusArg : Option ℚ) : List Nat :=
  let radius := match radiusArg with
    | some r => if r = 0 then e.minSpacing * 2 else r
    | none => e.minSpacing * 2
  (e.getNearbyCells pos radius).flatMap (fun c =>
    match cellGet e.spatialIndex c with
    | some s => s.filter (fun nid =>
        match posGet e.positions nid with
        | some p => decide (p.distanceTo sq pos ≤ radius)
        | none => false)
    | none => [])

/-- One neighbour's contribution to a node's repulsion force
(`repel_nearby_nodes`, force-computation inner loop body). -/
def repelForceStep (sq : ℚ → ℚ) (e : SpacingEngine) (nid : Nat) (pos : Vector2D)
    (acc : Vector2D) (otherId : Nat) : Vector2D :=
  if otherId = nid then acc
  else
    match posGet e.positions otherId with
    | some otherPos =>
      let diff := pos.sub otherPos
      let dist := diff.magnitude sq
      if dist < e.minSpacing ∧ 0 < dist then
        let forceMag := (e.minSpacing - dist) * e.config.repulsionStrength
        acc.add ((diff.normalized sq).smul forceMag)
      else acc
    | none => acc

/-- A node's total repulsion force from its nearby nodes. -/
def repelForce (sq : ℚ → ℚ) (e : SpacingEngine) (nid : Nat) (pos : Vector2D) : Vector2D :=
  (e.getNearbyNodes sq pos none).foldl (repelForceStep sq e nid pos) ⟨0, 0⟩

/-- Application of one computed force (`repel_nearby_nodes`, apply loop
body): nonzero forces move the node, re-registering it in the index and
writing the position back into the node table entry when present. -/
def repelApplyStep (sq : ℚ → ℚ) (st : SpacingEngine × NodeTable) (p : Nat × Vector2D) :
    SpacingEngine × NodeTable :=
  if 0 < p.2.magnitude sq then
    match posGet st.1.positions p.1 with
    | some pcur =>
      let newPos := pcur.add p.2
      (st.1.registerNode p.1 newPos,
        if (lookupNode st.2 p.1).isSome then
          updateNode st.2 p.1 (fun n => { n with position := (newPos.x, newPos.y) })
        else st.2)
    | none => st
  else st

/-- One iteration of `SpacingEngine.repel_nearby_nodes`: compute all
pairwise repulsion forces from a snapshot of the positions dict, then
apply them. -/
def SpacingEngine.repelOnce (sq : ℚ → ℚ) (e : SpacingEngine) (nodes : NodeTable) :
    SpacingEngine × NodeTable :=
  let forces := e.positions.map (fun p => (p.1, repelForce sq e p.1 p.2))
  forces.foldl (repelApplyStep sq) (e, nodes)

/-- The bounded iteration of repulsion passes. -/
def repelIter (sq : ℚ → ℚ) : Nat → SpacingEngine × NodeTable → SpacingEngine × NodeTable
  | 0, st => st
  | n + 1, st => repelIter sq n (SpacingEngine.repelOnce sq st.1 st.2)

/-- `SpacingEngine.repel_nearby_nodes(nodes, iterations)`; a `None` or 0
iterations argument falls back to the configured count. -/
def SpacingEngine.repelNearbyNodes (sq : ℚ → ℚ) (e : SpacingEngine) (nodes : NodeTable)
    (iterationsArg : Option Nat) : SpacingEngine × NodeTable :=
  let iterations := match iterationsArg with
    | some n => if n = 0 then e.config.repulsionIterations else n
    | none => e.config.repulsionIterations
  repelIter sq iterations (e, nodes)

/-- Number of unordered node pairs closer than `minSpacing` (the quantity
the spec's spacing scenario tracks). -/
def closePairCount (sq : ℚ → ℚ) (minSpacing : ℚ) : List Vector2D → Nat
  | [] => 0
  | p :: rest =>
    (rest.filter (fun q => decide (p.distanceTo sq q < minSpacing))).length +
      closePairCount sq minSpacing rest

def SpacingEngine.closePairs (sq : ℚ → ℚ) (e : SpacingEngine) : Nat :=
  closePairCount sq e.minSpacing (e.positions.map Prod.snd)

/-- The spec's scenario: 40 items registered at the same position with
`min_spacing = 1.0`. -/
def eng40 : SpacingEngine :=
  (List.range 40).foldl (fun e i => e.registerNode i ⟨0, 0⟩) (freshSpacingEngine {})

theorem posGet_mem (ps : List (Nat × Vector2D)) (i : Nat) (v : Vector2D)
    (h : posGet ps i = some v) : (i, v) ∈ ps := by
  induction ps with
  | nil => simp [posGet] at h
  | cons p rest ih =>
    obtain ⟨j, w⟩ := p
    rw [posGet] at h
    by_cases hj : j = i
    · rw [if_pos hj] at h
      injection h with h'
      subst hj
      subst h'
      exact List.mem_cons_self _ _
    · rw [if_neg hj] at h
      exact List.mem_cons_of_mem _ (ih h)

theorem repelForceStep_coincident (sq : ℚ → ℚ) (e : SpacingEngine) (nid : Nat)
    (p0 : Vector2D) (hsq : sq 0 = 0) (hall : ∀ p ∈ e.positions, p.2 = p0)
    (acc : Vector2D) (otherId : Nat) :
    repelForceStep sq e nid p0 acc otherId = acc := by
  unfold repelForceStep
  by_cases hn : otherId = nid
  · rw [if_pos hn]
  · rw [if_neg hn]
    rcases hopt : posGet e.positions otherId with _ | otherPos
    · rfl
    · have hmem := posGet_mem _ _ _ hopt
      have hp0 : otherPos = p0 := hall _ hmem
      rw [hp0]
      have hdiff : p0.sub p0 = (⟨0, 0⟩ : Vector2D) := by
        simp [Vector2D.sub]
      have hdist : (p0.sub p0).magnitude sq = 0 := by
        rw [hdiff]
        show sq ((0 : ℚ) * 0 + 0 * 0) = 0
        simpa using hsq
      simp only [hdist]
      rw [if_neg (by simp)]

theorem repelForce_coincident (sq : ℚ → ℚ) (e : SpacingEngine) (nid : Nat)
    (p0 : Vector2D) (hsq : sq 0 = 0) (hall : ∀ p ∈ e.positions, p.2 = p0) :
    repelForce sq e nid p0 = (⟨0, 0⟩ : Vector2D) := by
  unfold repelForce
  generalize (e.getNearbyNodes sq p0 none) = l
  induction l with
  | nil => rfl
  | cons x rest ih =>
    rw [List.foldl_cons, repelForceStep_coincident sq e nid p0 hsq hall]
    exact ih

theorem repelApplyStep_zero (sq : ℚ → ℚ) (st : SpacingEngine × NodeTable) (nid : Nat)
    (hsq : sq 0 = 0) :
    repelApplyStep sq st (nid, ⟨0, 0⟩) = st := by
  unfold repelApplyStep
  have hmag : (⟨0, 0⟩ : Vector2D).magnitude sq = 0 := by
    show sq ((0 : ℚ) * 0 + 0 * 0) = 0
    simpa using hsq
  simp only [hmag]
  rw [if_neg (by simp)]

theorem foldl_applyStep_zero (sq : ℚ → ℚ) (hsq : sq 0 = 0)
    (ps : List (Nat × Vector2D)) :
    ∀ st : SpacingEngine × NodeTable,
      (ps.map (fun p => (p.1, (⟨0, 0⟩ : Vector2D)))).foldl (repelApplyStep sq) st = st := by
  induction ps with
  | nil => intro st; rfl
  | cons q rest ih =>
    intro st
    rw [List.map_cons, List.foldl_cons, repelApplyStep_zero sq st q.1 hsq]
    exact ih st

/-- A cluster of nodes all registered at exactly the same position is a
fixed point of one repulsion iteration: every pairwise distance is 0, the
`dist > 0` guard (the zero-length-vector case of §7) suppresses every
force, and nothing moves. -/
theorem repelOnce_coincident (sq : ℚ → ℚ) (e : SpacingEngine) (nodes : NodeTable)
    (p0 : Vector2D) (hsq : sq 0 = 0) (hall : ∀ p ∈ e.positions, p.2 = p0) :
    SpacingEngine.repelOnce sq e nodes = (e, nodes) := by
  unfold SpacingEngine.repelOnce
  have hforces : e.positions.map (fun p => (p.1, repelForce sq e p.1 p.2)) =
      e.positions.map (fun p => (p.1, (⟨0, 0⟩ : Vector2D))) := by
    apply List.map_congr_left
    intro p hp
    have hp0 : p.2 = p0 := hall p hp
    rw [hp0, repelForce_coincident sq e p.1 p0 hsq hall]
  rw [hforces]
  exact foldl_applyStep_zero sq hsq e.positions (e, nodes)

theorem repelIter_coincident (sq : ℚ → ℚ) (e : SpacingEngine) (nodes : NodeTable)
    (p0 : Vector2D) (hsq : sq 0 = 0) (hall : ∀ p ∈ e.positions, p.2 = p0) :
    ∀ n : Nat, repelIter sq n (e, nodes) = (e, nodes) := by
  intro n
  induction n with
  | zero => rfl
  | succ k ih =>
    show repelIter sq k (SpacingEngine.repelOnce sq e nodes) = (e, nodes)
    rw [repelOnce_coincident sq e nodes p0 hsq hall]
    exact ih

/-- Claim C8 (amended): a cluster of nodes all registered at exactly the
same position is a fixed point of `repel_nearby_nodes` — every pairwise
distance is 0, the `dist > 0` guard yields zero force for every pair, so
no node moves and the count of pairs closer than `min_spacing` stays
constant instead of strictly decreasing to zero. -/
theorem claim_c8_repel_same_position (sq : ℚ → ℚ) (e : SpacingEngine)
    (nodes : NodeTable) (iterationsArg : Option Nat) (p0 : Vector2D)
    (hsq : sq 0 = 0) (hall : ∀ p ∈ e.positions, p.2 = p0) :
    SpacingEngine.repelNearbyNodes sq e nodes iterationsArg = (e, nodes) ∧
    SpacingEngine.closePairs sq
        (SpacingEngine.repelNearbyNodes sq e nodes iterationsArg).1 =
      SpacingEngine.closePairs sq e := by
  have hiter := repelIter_coincident sq e nodes p0 hsq hall
  have hmain : SpacingEngine.repelNearbyNodes sq e nodes iterationsArg = (e, nodes) := by
    unfold SpacingEngine.repelNearbyNodes
    exact hiter _
  exact ⟨hmain, by rw [hmain]⟩

theorem ratSqrt_zero : ratSqrt 0 = 0 := by
  rw [ratSqrt, if_pos le_rfl]

theorem registerNode_positions (e : SpacingEngine) (nid : Nat) (pos : Vector2D) :
    (e.registerNode nid pos).positions = posSet e.positions nid pos := by
  unfold SpacingEngine.registerNode
  cases hopt : posGet e.positions nid with
  | none =>
    simp only [hopt]
    cases hc : cellGet e.spatialIndex
        (SpacingEngine.getCell { e with positions := posSet e.positions nid pos } pos) <;>
      simp [hc]
  | some old =>
    simp only [hopt]
    cases hc1 : cellGet e.spatialIndex (e.getCell old) <;> simp only [hc1] <;>
    · cases hc : cellGet _ _ <;> simp [hc]

theorem registerNode_minSpacing (e : SpacingEngine) (nid : Nat) (pos : Vector2D) :
    (e.registerNode nid pos).minSpacing = e.minSpacing := by
  unfold SpacingEngine.registerNode
  cases hopt : posGet e.positions nid with
  | none =>
    simp only [hopt]
    cases hc : cellGet _ _ <;> simp [hc]
  | some old =>
    simp only [hopt]
    cases hc1 : cellGet e.spatialIndex (e.getCell old) <;> simp only [hc1] <;>
    · cases hc : cellGet _ _ <;> simp [hc]

theorem posGet_eq_none_of_keys (ps : List (Nat × Vector2D)) (i : Nat)
    (h : ∀ p ∈ ps, p.1 ≠ i) : posGet ps i = none := by
  induction ps with
  | nil => rfl
  | cons p rest ih =>
    obtain ⟨j, v⟩ := p
    rw [posGet, if_neg (h (j, v) (List.mem_cons_self _ _))]
    exact ih (fun q hq => h q (List.mem_cons_of_mem _ hq))

theorem engCluster_positions : ∀ n : Nat,
    ((List.range n).foldl (fun e i => e.registerNode i ⟨0, 0⟩)
        (freshSpacingEngine {})).positions =
      (List.range n).map (fun i => (i, (⟨0, 0⟩ : Vector2D))) := by
  intro n
  induction n with
  | zero => rfl
  | succ k ih =>
    rw [List.range_succ, List.foldl_append, List.map_append]
    simp only [List.foldl_cons, List.foldl_nil, List.map_cons, List.map_nil]
    rw [registerNode_positions, ih]
    have hnone : posGet ((List.range k).map (fun i => (i, (⟨0, 0⟩ : Vector2D)))) k = none := by
      apply posGet_eq_none_of_keys
      intro p hp
      obtain ⟨i, hi, rfl⟩ := List.mem_map.mp hp
      exact Nat.ne_of_lt (List.mem_range.mp hi)
    rw [posSet, hnone]
    rfl

theorem engCluster_minSpacing : ∀ n : Nat,
    ((List.range n).foldl (fun e i => e.registerNode i ⟨0, 0⟩)
        (freshSpacingEngine {})).minSpacing = 1 := by
  intro n
  induction n with
  | zero => rfl
  | succ k ih =>
    rw [List.range_succ, List.foldl_append]
    simp only [List.foldl_cons, List.foldl_nil]
    rw [registerNode_minSpacing]
    exact ih

theorem eng40_all_origin : ∀ p ∈ eng40.positions, p.2 = (⟨0, 0⟩ : Vector2D) := by
  intro p hp
  have h := engCluster_positions 40
  rw [show eng40.positions =
      (List.range 40).map (fun i => (i, (⟨0, 0⟩ : Vector2D))) from h] at hp
  obtain ⟨i, hi, rfl⟩ := List.mem_map.mp hp
  rfl

theorem origin_self_distance (sq : ℚ → ℚ) (hsq : sq 0 = 0) :
    Vector2D.distanceTo sq ⟨0, 0⟩ ⟨0, 0⟩ = 0 := by
  show sq (Vector2D.magSq (Vector2D.sub ⟨0, 0⟩ ⟨0, 0⟩)) = 0
  have h : Vector2D.magSq (Vector2D.sub ⟨0, 0⟩ ⟨0, 0⟩) = 0 := by
    show ((0 : ℚ) - 0) * ((0 : ℚ) - 0) + ((0 : ℚ) - 0) * ((0 : ℚ) - 0) = 0
    ring
  rw [h, hsq]

theorem closePairCount_replicate (sq : ℚ → ℚ) (m : ℚ) (p0 : Vector2D)
    (hd : p0.distanceTo sq p0 < m) :
    ∀ n, 2 * closePairCount sq m (List.replicate n p0) = n * (n - 1) := by
  intro n
  induction n with
  | zero => rfl
  | succ k ih =>
    rw [List.replicate_succ, closePairCount]
    have hfilt : (List.replicate k p0).filter
        (fun q => decide (p0.distanceTo sq q < m)) = List.replicate k p0 := by
      apply List.filter_eq_self.mpr
      intro a ha
      have haeq : a = p0 := List.eq_of_mem_replicate ha
      subst haeq
      exact decide_eq_true hd
    rw [hfilt, List.length_replicate]
    have hs : k + 1 - 1 = k := rfl
    rw [hs]
    have hk : k * (k - 1) + 2 * k = (k + 1) * k := by
      cases k with
      | zero => rfl
      | succ j =>
        have hj : (j + 1) - 1 = j := rfl
        rw [hj]
        ring
    omega

theorem eng40_closePairs : SpacingEngine.closePairs ratSqrt eng40 = 780 := by
  unfold SpacingEngine.closePairs
  have hpos := engCluster_positions 40
  have hmin := engCluster_minSpacing 40
  rw [show eng40.positions =
      (List.range 40).map (fun i => (i, (⟨0, 0⟩ : Vector2D))) from hpos,
    show eng40.minSpacing = 1 from hmin]
  have hcomp : ∀ l : List Nat,
      (l.map (fun i => (i, (⟨0, 0⟩ : Vector2D)))).map Prod.snd =
        List.replicate l.length (⟨0, 0⟩ : Vector2D) := by
    intro l
    induction l with
    | nil => rfl
    | cons a l ih => simp [List.replicate_succ, ih]
  rw [hcomp, List.length_range]
  have hd : Vector2D.distanceTo ratSqrt ⟨0, 0⟩ ⟨0, 0⟩ < 1 := by
    rw [origin_self_distance ratSqrt ratSqrt_zero]
    norm_num
  have h2 := closePairCount_replicate ratSqrt 1 ⟨0, 0⟩ hd 40
  omega

theorem claim_c8_repel_same_position_witness :
    SpacingEngine.repelNearbyNodes ratSqrt eng40 [] (some 3) = (eng40, []) :=
  (claim_c8_repel_same_position ratSqrt eng40 [] (some 3) ⟨0, 0⟩ ratSqrt_zero
    eng40_all_origin).1

/-- Claim C8 counterexample: the spec's scenario itself — 40 items
registered at the same position with `min_spacing = 1.0`. All 780 pairs
are closer than `min_spacing` before the iteration, and after an
iteration of `repel_nearby_nodes` the count is still 780: it neither
strictly decreases nor reaches zero, because coincident nodes (distance
exactly 0) fail the `dist > 0` guard and receive no repulsion force. -/
theorem claim_c8_counterexample :
    SpacingEngine.closePairs ratSqrt eng40 = 780 ∧
    SpacingEngine.closePairs ratSqrt
        (SpacingEngine.repelNearbyNodes ratSqrt eng40 [] (some 1)).1 = 780 := by
  have hfix := repelIter_coincident ratSqrt eng40 [] ⟨0, 0⟩ ratSqrt_zero eng40_all_origin
  have hmain : SpacingEngine.repelNearbyNodes ratSqrt eng40 [] (some 1) = (eng40, []) := by
    unfold SpacingEngine.repelNearbyNodes
    exact hfix _
  rw [hmain]
  exact ⟨eng40_closePairs, eng40_closePairs⟩

theorem lookupNode_eq_none_iff (t : NodeTable) (i : Nat) :
    lookupNode t i = none ↔ ∀ p ∈ t, p.1 ≠ i := by
  induction t with
  | nil => simp [lookupNode]
  | cons p rest ih =>
    obtain ⟨j, n⟩ := p
    rw [lookupNode]
    by_cases hj : j = i
    · subst hj
      simp
    · simp only [if_neg hj, ih]
      constructor
      · intro h q hq
        rcases List.mem_cons.mp hq with h1 | h1
        · subst h1; exact hj
        · exact h q h1
      · intro h q hq
        exact h q (List.mem_cons_of_mem _ hq)

/-- Work measure for the children-edge BFS loops: pending queue length
plus, for every not-yet-visited table entry, one unit plus its
out-degree. Every loop step strictly shrinks `(bfsPhi, queue length)`
lexicographically. -/
def bfsPhi (t : NodeTable) (visited : List Nat) : Nat :=
  match t with
  | [] => 0
  | (j, n) :: rest =>
    (if j ∈ visited then 0 else n.children.length + 1) + bfsPhi rest visited

theorem bfsPhi_mono_cons (t : NodeTable) (x : Nat) (visited : List Nat) :
    bfsPhi t (x :: visited) ≤ bfsPhi t visited := by
  induction t with
  | nil => exact le_refl _
  | cons p rest ih =>
    obtain ⟨j, n⟩ := p
    rw [bfsPhi, bfsPhi]
    by_cases hv : j ∈ visited
    · rw [if_pos hv, if_pos (List.mem_cons_of_mem _ hv)]
      omega
    · rw [if_neg hv]
      by_cases hx : j ∈ x :: visited
      · rw [if_pos hx]
        omega
      · rw [if_neg hx]
        omega

theorem bfsPhi_cons_none (t : NodeTable) (fid : Nat) (visited : List Nat)
    (h : lookupNode t fid = none) : bfsPhi t (fid :: visited) = bfsPhi t visited := by
  have hall := (lookupNode_eq_none_iff t fid).mp h
  induction t with
  | nil => rfl
  | cons p rest ih =>
    obtain ⟨j, n⟩ := p
    have hj : j ≠ fid := hall (j, n) (List.mem_cons_self _ _)
    rw [bfsPhi, bfsPhi]
    have hif : (if j ∈ fid :: visited then (0 : Nat) else n.children.length + 1) =
        (if j ∈ visited then 0 else n.children.length + 1) := by
      by_cases hjv : j ∈ visited
      · rw [if_pos hjv, if_pos (List.mem_cons_of_mem _ hjv)]
      · rw [if_neg hjv, if_neg (by simp [List.mem_cons, hj, hjv])]
    have hrest : lookupNode rest fid = none := by
      rw [lookupNode_eq_none_iff]
      intro q hq
      exact hall q (List.mem_cons_of_mem _ hq)
    rw [hif, ih hrest (fun q hq => hall q (List.mem_cons_of_mem _ hq))]

theorem bfsPhi_cons_some (t : NodeTable) (fid : Nat) (visited : List Nat) (n : TreeNode)
    (hl : lookupNode t fid = some n) (hnv : fid ∉ visited) :
    bfsPhi t (fid :: visited) + n.children.length + 1 ≤ bfsPhi t visited := by
  induction t with
  | nil => simp [lookupNode] at hl
  | cons p rest ih =>
    obtain ⟨j, m⟩ := p
    rw [lookupNode] at hl
    rw [bfsPhi, bfsPhi]
    by_cases hj : j = fid
    · subst hj
      rw [if_pos rfl] at hl
      injection hl with hl
      subst hl
      rw [if_pos (List.mem_cons_self _ _), if_neg hnv]
      have := bfsPhi_mono_cons rest j visited
      omega
    · rw [if_neg hj] at hl
      have hjf : j ≠ fid := hj
      have hif : (if j ∈ fid :: visited then (0 : Nat) else m.children.length + 1) =
          (if j ∈ visited then 0 else m.children.length + 1) := by
        by_cases hjv : j ∈ visited
        · rw [if_pos hjv, if_pos (List.mem_cons_of_mem _ hjv)]
        · rw [if_neg hjv, if_neg (by simp [List.mem_cons, hjf, hjv])]
      rw [hif]
      have := ih hl
      omega

/-- tree_builder.py `_is_descendant` queue loop: BFS over `children`
edges from the start queue, searching for `target`; returns false when
the queue empties. The Python `while queue` loop always terminates
because each id is expanded at most once; the embedding carries an
explicit step budget that `bfsFind_fuel_irrelevant` below shows is never
exhausted when it exceeds `bfsPhi t visited + queue.length`. -/
def bfsFind (t : NodeTable) (target : Nat) : Nat → List Nat → List Nat → Bool
  | 0, _, _ => false
  | fuel + 1, visited, queue =>
    match queue with
    | [] => false
    | fid :: rest =>
      if fid ∈ visited then bfsFind t target fuel visited rest
      else if fid = target then true
      else bfsFind t target fuel (fid :: visited) (rest ++ childrenOf t fid)

/-- tree_builder.py `_get_reachable_from_root` queue loop: same BFS,
collecting the visited set instead of searching for a target. -/
def bfsReach (t : NodeTable) : Nat → List Nat → List Nat → List Nat
  | 0, visited, _ => visited
  | fuel + 1, visited, queue =>
    match queue with
    | [] => visited
    | fid :: rest =>
      if fid ∈ visited then bfsReach t fuel visited rest
      else bfsReach t fuel (fid :: visited) (rest ++ childrenOf t fid)

/-- The BFS step budget shrinks strictly slower than the measure
`bfsPhi t visited + queue.length`, so any budget above the initial
measure behaves like the unbounded Python loop. -/
theorem bfsFind_fuel_irrelevant (t : NodeTable) (target : Nat) :
    ∀ fuel fuel' visited queue, bfsPhi t visited + queue.length < fuel →
      bfsPhi t visited + queue.length < fuel' →
      bfsFind t target fuel visited queue = bfsFind t target fuel' visited queue := by
  intro fuel
  induction fuel using Nat.strong_induction_on with
  | _ fuel ih =>
    intro fuel' visited queue hf hf'
    match fuel, hf with
    | fuel + 1, hf =>
    match fuel', hf' with
    | fuel' + 1, hf' =>
    match queue with
    | [] => rfl
    | fid :: rest =>
      rw [bfsFind, bfsFind]
      by_cases hv : fid ∈ visited
      · rw [if_pos hv, if_pos hv]
        exact ih fuel (Nat.lt_succ_self _) fuel' visited rest
          (by simp at hf; omega) (by simp at hf'; omega)
      · rw [if_neg hv, if_neg hv]
        by_cases ht : fid = target
        · rw [if_pos ht, if_pos ht]
        · rw [if_neg ht, if_neg ht]
          have hmeas : bfsPhi t (fid :: visited) + (rest ++ childrenOf t fid).length + 1 ≤
              bfsPhi t visited + (fid :: rest).length := by
            rcases hl : lookupNode t fid with _ | n
            · have hphi := bfsPhi_cons_none t fid visited hl
              have hch : childrenOf t fid = [] := by rw [childrenOf, hl]
              rw [hphi, hch]
              simp only [List.append_nil, List.length_cons]
              omega
            · have := bfsPhi_cons_some t fid visited n hl hv
              have hch : childrenOf t fid = n.children := by rw [childrenOf, hl]
              rw [hch]
              simp only [List.length_append, List.length_cons]
              omega
          exact ih fuel (Nat.lt_succ_self _) fuel' (fid :: visited)
            (rest ++ childrenOf t fid) (by omega) (by omega)

/-- `SpellTreeBuilder._is_descendant(potential_ancestor, node_id)`:
true iff BFS via `children` from `node_id` encounters
`potential_ancestor` (used as the cycle check before convergence edges). -/
def isDescendant (t : NodeTable) (potentialAncestor nodeId : Nat) : Bool :=
  bfsFind t potentialAncestor (bfsPhi t [] + 2) [] [nodeId]

/-- `SpellTreeBuilder._get_reachable_from_root`. -/
def getReachableFromRoot (t : NodeTable) (rootId : Nat) : List Nat :=
  bfsReach t (bfsPhi t [] + 2) [] [rootId]

/-- One table entry's check inside `_simulate_unlocks`'s for-loop: a
locked node with a nonempty prerequisite list all of whose prerequisites
are already unlocked becomes unlocked (the Python mutates the set during
the scan, so later entries in the same sweep see earlier unlocks). -/
def sweepStep (acc : List Nat × Bool) (entry : Nat × TreeNode) : List Nat × Bool :=
  if entry.1 ∈ acc.1 then acc
  else if entry.2.prerequisites = [] then acc
  else if entry.2.prerequisites.all (fun p => decide (p ∈ acc.1)) then
    (entry.1 :: acc.1, true)
  else acc

/-- One full scan of `nodes.items()` in `_simulate_unlocks`. -/
def sweep (t : NodeTable) (unlocked : List Nat) : List Nat × Bool :=
  t.foldl sweepStep (unlocked, false)

/-- The `while changed and iterations < max_iterations` loop. -/
def unlockLoop (t : NodeTable) : Nat → List Nat → List Nat
  | 0, u => u
  | fuel + 1, u =>
    let s := sweep t u
    if s.2 then unlockLoop t fuel s.1 else s.1

/-- `SpellTreeBuilder._simulate_unlocks(nodes, root_id)`: the unlock
fixed point from the root, with the source's `len(nodes) + 10` sweep
budget. -/
def simulateUnlocks (t : NodeTable) (rootId : Nat) : List Nat :=
  unlockLoop t (t.length + 10) [rootId]

/-- Modelled from the spec: `TreeNode.add_prerequisite` of core/node.py
(the file is absent from src/) — `prerequisites` is a set of ids, so an
id is only added when absent. -/
def addPrereqM (t : NodeTable) (nid pid : Nat) : NodeTable :=
  updateNode t nid (fun n =>
    if pid ∈ n.prerequisites then n else { n with prerequisites := n.prerequisites ++ [pid] })

/-- Modelled from the spec: `TreeNode.add_child` of core/node.py — set
semantics, the transposed edge of `add_prerequisite`. -/
def addChildM (t : NodeTable) (pid cid : Nat) : NodeTable :=
  updateNode t pid (fun n =>
    if cid ∈ n.children then n else { n with children := n.children ++ [cid] })

/-- Modelled from the spec: `link_nodes(parent, node)` of core/node.py —
the two nodes are linked with `children`/`prerequisites` updated
bidirectionally, and the child's depth becomes the parent's plus one
(spec: depth is the distance from root along prerequisite edges). -/
def linkNodes (t : NodeTable) (parentId childId : Nat) : NodeTable :=
  let t1 := addChildM t parentId childId
  let t2 := addPrereqM t1 childId parentId
  match lookupNode t2 parentId with
  | some p => updateNode t2 childId (fun n => { n with depth := p.depth + 1 })
  | none => t2

/-- `_maybe_add_convergence`'s `tier_multipliers.get(tier_depth, 1.0)`. -/
def tierMultiplier (td : Nat) : ℚ :=
  if td = 0 then 1/2 else if td = 1 then 1 else if td = 2 then 3/2
  else if td = 3 then 2 else if td = 4 then 10 else 1

/-- `_maybe_add_convergence`'s `tier_max_prereqs.get(tier_depth, 2)`. -/
def tierMaxPrereqs (td : Nat) : Nat :=
  if td = 0 then 1 else if td = 1 then 2 else if td = 2 then 2
  else if td = 3 then 3 else if td = 4 then 4 else 2

/-- Python `range(d - 1, -1, -1)`: the depths `d-1, d-2, …, 0`. -/
def intRangeDown (d : Int) : List Int :=
  ((List.range d.toNat).reverse).map (fun i => (i : Int))

/-- The `different` candidate filter of `_maybe_add_convergence`:
available nodes at the given depth with a different theme, not already a
prerequisite, reachable from root, and not a descendant of the node
(cycle check). `available` holds node objects in Python; here ids
resolved through the live table. -/
def convCandidates (t : NodeTable) (avail : Int → List Nat) (reachable : List Nat)
    (nid : Nat) (node : TreeNode) (depth : Int) : List Nat :=
  (avail depth).filter (fun pid =>
    match lookupNode t pid with
    | some p => decide (p.theme ≠ node.theme) && decide (pid ∉ node.prerequisites) &&
        decide (pid ∈ reachable) && !(isDescendant t pid nid)
    | none => false)

/-- The inner `for depth in range(node.depth - 1, -1, -1)` search: first
depth with a nonempty `different` list. -/
def convFindFirst (t : NodeTable) (avail : Int → List Nat) (reachable : List Nat)
    (nid : Nat) (node : TreeNode) : List Int → Option (List Nat)
  | [] => none
  | d :: rest =>
    let different := convCandidates t avail reachable nid node d
    if different = [] then convFindFirst t avail reachable nid node rest
    else some different

/-- The `for _ in range(prereqs_to_add)` loop of `_maybe_add_convergence`:
re-reads the live node, stops at the tier cap, adds one guarded
prerequisite/child pair per round via `random.choice`. -/
def convLoop (rng : Rng) (avail : Int → List Nat) (reachable : List Nat)
    (nid : Nat) (maxPrereqs : Nat) : Nat → NodeTable × Nat → NodeTable × Nat
  | 0, st => st
  | k + 1, (t, σ) =>
    match lookupNode t nid with
    | none => (t, σ)
    | some node =>
      if maxPrereqs ≤ node.prerequisites.length then (t, σ)
      else
        match convFindFirst t avail reachable nid node (intRangeDown node.depth) with
        | none => convLoop rng avail reachable nid maxPrereqs k (t, σ)
        | some different =>
          let extra := pyChoice different (rng.rnat σ)
          let t1 := addPrereqM t nid extra
          let t2 := addChildM t1 extra nid
          convLoop rng avail reachable nid maxPrereqs k (t2, σ + 1)

/-- `SpellTreeBuilder._maybe_add_convergence(node, available, connected,
nodes, root_id)`: tier-scaled chance (no draw when convergence is
forced), tier-capped prerequisite count, candidates drawn from the
`available` pool filtered by theme/duplicate/reachability/descendant
checks. Returns the table and the advanced draw counter. -/
def maybeAddConvergence (convergenceChance : ℚ) (rng : Rng) (t : NodeTable) (nid : Nat)
    (avail : Int → List Nat) (rootId : Nat) (σ : Nat) : NodeTable × Nat :=
  match lookupNode t nid with
  | none => (t, σ)
  | some node =>
    let td := tierToDepth node.tier
    let maxPrereqs := tierMaxPrereqs td
    let effectiveChance := min 1 (convergenceChance * tierMultiplier td)
    let force := (3 ≤ td ∧ node.prerequisites.length < 2) ∨
        (4 ≤ td ∧ node.prerequisites.length < 3)
    let proceed : Option Nat :=
      if force then some σ
      else if effectiveChance < rng.rfloat σ then none else some (σ + 1)
    match proceed with
    | none => (t, σ + 1)
    | some σ1 =>
      if maxPrereqs ≤ node.prerequisites.length then (t, σ1)
      else
        let reachable := getReachableFromRoot t rootId
        let prereqsToAdd :=
          if 4 ≤ td then max 1 (3 - node.prerequisites.length)
          else if 3 ≤ td then max 1 (2 - node.prerequisites.length)
          else 1
        convLoop rng avail reachable nid maxPrereqs prereqsToAdd (t, σ1)

/-- The `(-different, -depth)` sort key comparison of
`_enforce_high_tier_convergence` (ascending, stable): different-theme
candidates first, then deeper candidates first. -/
def enforceLe (a b : Nat × Bool × Int) : Bool :=
  decide ((if a.2.1 then (-1 : Int) else 0) < (if b.2.1 then (-1 : Int) else 0) ∨
    ((if a.2.1 then (-1 : Int) else 0) = (if b.2.1 then (-1 : Int) else 0) ∧
      -a.2.2 ≤ -b.2.2))

/-- Stable insertion of an element before the first list element it
compares `le` to (equal keys keep the earlier element first). -/
def insertSorted (le : Nat × Bool × Int → Nat × Bool × Int → Bool)
    (x : Nat × Bool × Int) : List (Nat × Bool × Int) → List (Nat × Bool × Int)
  | [] => [x]
  | y :: ys => if le x y then x :: y :: ys else y :: insertSorted le x ys

/-- A stable sort (insertion sort). Python's `list.sort` is stable, and
all stable sorts under the same total preorder agree, so this computes
exactly the candidate order the source's sort produces. -/
def pySortStable (le : Nat × Bool × Int → Nat × Bool × Int → Bool)
    (l : List (Nat × Bool × Int)) : List (Nat × Bool × Int) :=
  l.foldr (insertSorted le) []

/-- Candidate collection of `_enforce_high_tier_convergence`: every other
table node that is reachable (snapshot), strictly shallower, not already
a prerequisite, and passes the descendant (cycle) check; paired with its
different-theme flag and its depth at collection time. -/
def enforceCandidates (t : NodeTable) (reachable : List Nat) (fid : Nat)
    (node : TreeNode) : List (Nat × Bool × Int) :=
  t.filterMap (fun p =>
    if p.1 = fid then none
    else if p.1 ∈ node.prerequisites then none
    else if p.1 ∉ reachable then none
    else if node.depth ≤ p.2.depth then none
    else if isDescendant t p.1 fid then none
    else some (p.1, decide (p.2.theme ≠ node.theme), p.2.depth))

/-- Per-node body of `_enforce_high_tier_convergence`: Expert (tier 3)
nodes are brought to ≥ 2 prerequisites and Master (tier ≥ 4) nodes to
≥ 3 by adding the first `needed` sorted candidates unconditionally. -/
def enforceOne (reachable : List Nat) (rootId : Nat) (t : NodeTable) (fid : Nat) :
    NodeTable :=
  if fid = rootId then t
  else
    match lookupNode t fid with
    | none => t
    | some node =>
      let td := tierToDepth node.tier
      if td < 3 then t
      else
        let minPrereqs := if 4 ≤ td then 3 else 2
        if minPrereqs ≤ node.prerequisites.length then t
        else
          let needed := minPrereqs - node.prerequisites.length
          let cands := pySortStable enforceLe (enforceCandidates t reachable fid node)
          (cands.take needed).foldl (fun tt c => addChildM (addPrereqM tt fid c.1) c.1 fid) t

/-- `SpellTreeBuilder._enforce_high_tier_convergence(nodes, root_id,
school_name)`: the reachability snapshot is computed once, then every
node is processed in table order against the live table. -/
def enforceHighTierConvergence (t : NodeTable) (rootId : Nat) : NodeTable :=
  let reachable := getReachableFromRoot t rootId
  (tableIds t).foldl (enforceOne reachable rootId) t

/-- How a run of `_ensure_all_reachable` ended: a pass found every node
unlockable; a no-progress pass triggered the aggressive attach-to-root
fallback (then `break`); or the 10-pass budget ran out while passes were
still making partial progress (the source then only logs a warning). -/
inductive RepairStatus
  | allReachable
  | aggressive
  | exhausted
deriving Repr, DecidableEq

/-- One step of the best-parent scan of `_ensure_all_reachable`: skip the
node itself, require spare capacity, keep the first strictly
lowest-depth candidate seen. The scan iterates the `unlockable` Python
set, whose iteration order is interpreter-dependent; the order is
therefore an explicit argument of the embedding. -/
def scanBestStep (t : NodeTable) (maxC : Nat) (fid : Nat) (best : Option Nat)
    (uid : Nat) : Option Nat :=
  if uid = fid then best
  else
    match lookupNode t uid with
    | none => best
    | some cand =>
      if cand.children.length < maxC then
        match best with
        | none => some uid
        | some b =>
          match lookupNode t b with
          | some bn => if cand.depth < bn.depth then some uid else best
          | none => best
      else best

def scanBest (t : NodeTable) (maxC : Nat) (fid : Nat) (order : List Nat) : Option Nat :=
  order.foldl (scanBestStep t maxC fid) none

/-- Per-unreachable-node body of a `_ensure_all_reachable` pass: when the
node has blocking (non-unlockable) prerequisites and a reachable parent
with capacity exists, the blocking prerequisites are removed from both
edge directions and replaced by the single new parent, and the node's
depth is recomputed. -/
def fixOne (scanOrd : List Nat → List Nat) (maxC : Nat) (unlockable : List Nat)
    (acc : NodeTable × Bool) (fid : Nat) : NodeTable × Bool :=
  let t := acc.1
  match lookupNode t fid with
  | none => acc
  | some node =>
    let prereqs := node.prerequisites
    let blocking := prereqs.filter (fun p => decide (p ∉ unlockable))
    if blocking = [] then acc
    else
      match scanBest t maxC fid (scanOrd unlockable) with
      | none => acc
      | some bp =>
        let t1 := blocking.foldl (fun tt bid =>
          updateNode tt bid (fun n => { n with children := n.children.erase fid })) t
        let t2 := updateNode t1 fid (fun n =>
          { n with prerequisites := prereqs.filter (fun p => decide (p ∉ blocking)) })
        let t3 := updateNode t2 fid (fun n =>
          if bp ∈ n.prerequisites then n else { n with prerequisites := n.prerequisites ++ [bp] })
        let t4 := addChildM t3 bp fid
        let t5 :=
          match lookupNode t4 bp with
          | some pn => updateNode t4 fid (fun n => { n with depth := pn.depth + 1 })
          | none => t4
        (t5, true)

/-- Aggressive fallback body: strip the node's prerequisite edges from
both directions and attach it directly under the root at depth 1. -/
def aggOne (rootId : Nat) (t : NodeTable) (fid : Nat) : NodeTable :=
  if fid = rootId then t
  else
    match lookupNode t fid with
    | none => t
    | some node =>
      let t1 := node.prerequisites.foldl (fun tt pid =>
        updateNode tt pid (fun n => { n with children := n.children.erase fid })) t
      let t2 := updateNode t1 fid (fun n => { n with prerequisites := [rootId] })
      let t3 := addChildM t2 rootId fid
      updateNode t3 fid (fun n => { n with depth := 1 })

/-- The bounded pass loop of `_ensure_all_reachable` (`max_passes = 10`):
recompute the unlock fixed point, return when nothing is unreachable, fix
what can be fixed, and fall back to the aggressive root attachment (then
stop) when a pass fixes nothing. -/
def repairLoop (scanOrd : List Nat → List Nat) (maxC : Nat) (rootId : Nat) :
    Nat → NodeTable → NodeTable × RepairStatus
  | 0, t => (t, RepairStatus.exhausted)
  | k + 1, t =>
    let unlockable := simulateUnlocks t rootId
    let unreachable := (tableIds t).filter (fun fid => decide (fid ∉ unlockable))
    if unreachable = [] then (t, RepairStatus.allReachable)
    else
      let res := unreachable.foldl (fixOne scanOrd maxC unlockable) (t, false)
      if res.2 then repairLoop scanOrd maxC rootId k res.1
      else (unreachable.foldl (aggOne rootId) res.1, RepairStatus.aggressive)

/-- `SpellTreeBuilder._ensure_all_reachable(nodes, root_id, school_name)`
with its exit status. `scanOrd` supplies the iteration order of the
`unlockable` Python set in the best-parent scan (hash-seed dependent in
CPython); `maxC` is `cfg.max_children_per_node`. -/
def ensureAllReachable (scanOrd : List Nat → List Nat) (maxC : Nat)
    (t : NodeTable) (rootId : Nat) : NodeTable × RepairStatus :=
  repairLoop scanOrd maxC rootId 10 t

/-- The blocking-prerequisite removal of a `_ensure_all_reachable` fix:
every listed blocker loses `fid` from its `children`. -/
def eraseChildAll (t : NodeTable) (fid : Nat) (blocking : List Nat) : NodeTable :=
  blocking.foldl (fun tt bid =>
    updateNode tt bid (fun n => { n with children := n.children.erase fid })) t

/-- Overwrite a node's prerequisite list. -/
def setPrereqs (t : NodeTable) (fid : Nat) (ps : List Nat) : NodeTable :=
  updateNode t fid (fun n => { n with prerequisites := ps })

/-- The `node.depth = parent.depth + 1` recomputation ending a fix. -/
def setDepthFrom (t : NodeTable) (fid bp : Nat) : NodeTable :=
  match lookupNode t bp with
  | some pn => updateNode t fid (fun n => { n with depth := pn.depth + 1 })
  | none => t

def mkNode (tier theme : String) (depth : Int) (isRoot : Bool)
    (children prereqs : List Nat) : TreeNode :=
  { tier := tier, theme := theme, depth := depth, isRoot := isRoot,
    children := children, prerequisites := prereqs }

/-- A pathological table for the 10-pass budget: node 100 has no
prerequisites (never unlockable, never fixable), nodes 1–11 each depend
on it, and with `max_children_per_node = 1` each pass can re-parent only
one of them (the single node with spare capacity). -/
def c1Table : NodeTable :=
  (0, mkNode "Novice" "fire" 0 true [] []) ::
  (100, mkNode "Novice" "fire" 0 false [1, 2, 3, 4, 5, 6, 7, 8, 9, 10, 11] []) ::
  (List.range 11).map (fun i => (i + 1, mkNode "Apprentice" "fire" 1 false [] [100]))

/-- A Master node at depth 2 whose only convergence candidate is the
root, which is already at its configured capacity of 1 child. -/
def c2Table : NodeTable :=
  [(0, mkNode "Novice" "fire" 0 true [1] []),
   (1, mkNode "Apprentice" "fire" 1 false [2] [0]),
   (2, mkNode "Master" "fire" 2 false [] [1])]

/-- A repair scenario with two tied minimum-depth capacity candidates
(nodes 1 and 2, both at depth 1 with no children): which becomes node 3's
replacement parent depends on the iteration order of the `unlockable`
set. -/
def c5Table : NodeTable :=
  [(0, mkNode "Novice" "fire" 0 true [1, 2] []),
   (1, mkNode "Apprentice" "fire" 1 false [] [0]),
   (2, mkNode "Apprentice" "frost" 1 false [] [0]),
   (3, mkNode "Apprentice" "shock" 1 false [] [99])]


/-- Claim C1 counterexample: on `c1Table` (a pathological but
self-consistent node table) the repair loop makes progress on every one
of its 10 passes yet exhausts the budget with node 11 still not
unlockable — `_ensure_all_reachable` ends in its
`WARNING: still has N unreachable nodes` branch, so 100% reachability is
not a hard postcondition on pathological inputs. -/
theorem claim_c1_counterexample :
    (ensureAllReachable id 1 c1Table 0).2 = RepairStatus.exhausted ∧
    11 ∈ tableIds (ensureAllReachable id 1 c1Table 0).1 ∧
    11 ∉ simulateUnlocks (ensureAllReachable id 1 c1Table 0).1 0 := by
  refine ⟨by decide, by decide, by decide⟩

/-- Claim C2 counterexample: `_enforce_high_tier_convergence` adds
convergence edges with no capacity check. On `c2Table` with
`max_children_per_node = 1` (every node starts within the bound) the pass
gives the root a second child. -/
theorem claim_c2_counterexample :
    (∀ p ∈ c2Table, p.2.children.length ≤ 1) ∧
    (childrenOf (enforceHighTierConvergence c2Table 0) 0).length = 2 := by
  refine ⟨by decide, by decide⟩

/-- Claim C5 counterexample: the best-parent scan of
`_ensure_all_reachable` iterates a Python `set` of ids, whose iteration
order depends on the per-process string-hash seed. On `c5Table` two
minimum-depth candidates tie, and two legitimate iteration orders of the
same set (`id` and `reverse` of the discovered order) produce different
final tables — so two builds of the same input with the same seed can
differ across processes. -/
theorem claim_c5_counterexample :
    ensureAllReachable id 2 c5Table 0 ≠
      ensureAllReachable (fun l => l.reverse) 2 c5Table 0 := by decide

/-- The `children` edge relation of a node table. -/
def childEdge (t : NodeTable) (a b : Nat) : Prop := b ∈ childrenOf t a

/-- The `prerequisites` edge relation of a node table. -/
def prereqEdge (t : NodeTable) (a b : Nat) : Prop := b ∈ prereqsOf t a

/-- Unlockability as the source's comments describe it: the root, or a
table node with a nonempty prerequisite list all of which are
unlockable. -/
inductive Derivable (t : NodeTable) (rootId : Nat) : Nat → Prop
  | root : Derivable t rootId rootId
  | step (fid : Nat) (n : TreeNode) (hmem : (fid, n) ∈ t) (hne : n.prerequisites ≠ [])
      (hall : ∀ p ∈ n.prerequisites, Derivable t rootId p) : Derivable t rootId fid

theorem sweepStep_subset (acc : List Nat × Bool) (e : Nat × TreeNode) :
    acc.1 ⊆ (sweepStep acc e).1 := by
  unfold sweepStep
  by_cases h1 : e.1 ∈ acc.1
  · rw [if_pos h1]
    exact List.Subset.refl _
  · rw [if_neg h1]
    by_cases h2 : e.2.prerequisites = []
    · rw [if_pos h2]
      exact List.Subset.refl _
    · rw [if_neg h2]
      by_cases h3 : e.2.prerequisites.all (fun p => decide (p ∈ acc.1))
      · rw [if_pos h3]
        exact List.subset_cons_self _ _
      · rw [if_neg h3]
        exact List.Subset.refl _

theorem sweepStep_flag_mono (acc : List Nat × Bool) (e : Nat × TreeNode)
    (h : acc.2 = true) : (sweepStep acc e).2 = true := by
  unfold sweepStep
  by_cases h1 : e.1 ∈ acc.1
  · rw [if_pos h1]; exact h
  · rw [if_neg h1]
    by_cases h2 : e.2.prerequisites = []
    · rw [if_pos h2]; exact h
    · rw [if_neg h2]
      by_cases h3 : e.2.prerequisites.all (fun p => decide (p ∈ acc.1))
      · rw [if_pos h3]
      · rw [if_neg h3]; exact h

theorem foldl_sweepStep_subset (l : List (Nat × TreeNode)) :
    ∀ acc : List Nat × Bool, acc.1 ⊆ (l.foldl sweepStep acc).1 := by
  induction l with
  | nil => intro acc; exact fun _ h => h
  | cons e rest ih =>
    intro acc
    exact fun x hx => ih (sweepStep acc e) (sweepStep_subset acc e hx)

theorem foldl_sweepStep_flag_mono (l : List (Nat × TreeNode)) :
    ∀ acc : List Nat × Bool, acc.2 = true → (l.foldl sweepStep acc).2 = true := by
  induction l with
  | nil => intro acc h; exact h
  | cons e rest ih =>
    intro acc h
    exact ih _ (sweepStep_flag_mono acc e h)

theorem sweep_subset (t : NodeTable) (u : List Nat) : u ⊆ (sweep t u).1 :=
  foldl_sweepStep_subset t (u, false)

theorem unlockLoop_subset (t : NodeTable) :
    ∀ fuel u, u ⊆ unlockLoop t fuel u := by
  intro fuel
  induction fuel with
  | zero => intro u; exact fun _ h => h
  | succ k ih =>
    intro u
    rw [unlockLoop]
    by_cases hc : (sweep t u).2
    · rw [if_pos hc]
      exact fun x hx => ih (sweep t u).1 (sweep_subset t u hx)
    · rw [if_neg hc]
      exact sweep_subset t u

theorem root_mem_simulateUnlocks (t : NodeTable) (rootId : Nat) :
    rootId ∈ simulateUnlocks t rootId :=
  unlockLoop_subset t (t.length + 10) [rootId] (List.mem_singleton.mpr rfl)

theorem foldl_sweepStep_sound (t : NodeTable) (rootId : Nat) (l : List (Nat × TreeNode))
    (hl : ∀ e ∈ l, e ∈ t) :
    ∀ acc : List Nat × Bool, (∀ x ∈ acc.1, Derivable t rootId x) →
      ∀ x ∈ (l.foldl sweepStep acc).1, Derivable t rootId x := by
  induction l with
  | nil => intro acc hacc; exact hacc
  | cons e rest ih =>
    intro acc hacc
    apply ih (fun q hq => hl q (List.mem_cons_of_mem _ hq))
    intro x hx
    unfold sweepStep at hx
    by_cases h1 : e.1 ∈ acc.1
    · rw [if_pos h1] at hx; exact hacc x hx
    · rw [if_neg h1] at hx
      by_cases h2 : e.2.prerequisites = []
      · rw [if_pos h2] at hx; exact hacc x hx
      · rw [if_neg h2] at hx
        by_cases h3 : e.2.prerequisites.all (fun p => decide (p ∈ acc.1))
        · rw [if_pos h3] at hx
          rcases List.mem_cons.mp hx with hx1 | hx1
          · subst hx1
            refine Derivable.step e.1 e.2 ?_ h2 ?_
            · have := hl e (List.mem_cons_self _ _)
              simpa using this
            · intro p hp
              have := List.all_eq_true.mp h3 p hp
              exact hacc p (of_decide_eq_true this)
          · exact hacc x hx1
        · rw [if_neg h3] at hx; exact hacc x hx

theorem unlockLoop_sound (t : NodeTable) (rootId : Nat) :
    ∀ fuel u, (∀ x ∈ u, Derivable t rootId x) →
      ∀ x ∈ unlockLoop t fuel u, Derivable t rootId x := by
  intro fuel
  induction fuel with
  | zero => intro u hu; exact hu
  | succ k ih =>
    intro u hu
    rw [unlockLoop]
    have hs : ∀ x ∈ (sweep t u).1, Derivable t rootId x :=
      foldl_sweepStep_sound t rootId t (fun e he => he) (u, false) hu
    by_cases hc : (sweep t u).2
    · rw [if_pos hc]
      exact ih _ hs
    · rw [if_neg hc]
      exact hs

/-- Soundness of `_simulate_unlocks`: everything it reports unlockable is
derivably unlockable. -/
theorem simulateUnlocks_sound (t : NodeTable) (rootId : Nat) :
    ∀ x ∈ simulateUnlocks t rootId, Derivable t rootId x := by
  apply unlockLoop_sound
  intro x hx
  rw [List.mem_singleton.mp hx]
  exact Derivable.root

/-- What a no-change sweep certifies for a table entry. -/
def SweepClosed (t : NodeTable) (S : List Nat) : Prop :=
  ∀ e ∈ t, e.1 ∈ S ∨ e.2.prerequisites = [] ∨ ∃ p ∈ e.2.prerequisites, p ∉ S

theorem sweepStep_cases (acc : List Nat × Bool) (e : Nat × TreeNode) :
    (sweepStep acc e = acc ∧
      (e.1 ∈ acc.1 ∨ e.2.prerequisites = [] ∨ ∃ p ∈ e.2.prerequisites, p ∉ acc.1)) ∨
    (sweepStep acc e = (e.1 :: acc.1, true) ∧ e.1 ∉ acc.1 ∧ e.2.prerequisites ≠ [] ∧
      ∀ p ∈ e.2.prerequisites, p ∈ acc.1) := by
  unfold sweepStep
  by_cases h1 : e.1 ∈ acc.1
  · rw [if_pos h1]
    exact Or.inl ⟨rfl, Or.inl h1⟩
  · rw [if_neg h1]
    by_cases h2 : e.2.prerequisites = []
    · rw [if_pos h2]
      exact Or.inl ⟨rfl, Or.inr (Or.inl h2)⟩
    · rw [if_neg h2]
      by_cases h3 : e.2.prerequisites.all (fun p => decide (p ∈ acc.1))
      · rw [if_pos h3]
        refine Or.inr ⟨rfl, h1, h2, ?_⟩
        intro p hp
        exact of_decide_eq_true (List.all_eq_true.mp h3 p hp)
      · rw [if_neg h3]
        refine Or.inl ⟨rfl, Or.inr (Or.inr ?_)⟩
        have := h3
        rw [List.all_eq_true] at this
        push_neg at this
        obtain ⟨p, hp, hnp⟩ := this
        exact ⟨p, hp, fun hmem => hnp (decide_eq_true hmem)⟩

theorem foldl_sweepStep_unchanged (l : List (Nat × TreeNode)) :
    ∀ acc : List Nat × Bool, (l.foldl sweepStep acc).2 = false →
      (l.foldl sweepStep acc).1 = acc.1 ∧
      ∀ e ∈ l, e.1 ∈ acc.1 ∨ e.2.prerequisites = [] ∨ ∃ p ∈ e.2.prerequisites, p ∉ acc.1 := by
  induction l with
  | nil =>
    intro acc h
    exact ⟨rfl, fun e he => absurd he (List.not_mem_nil e)⟩
  | cons e rest ih =>
    intro acc hflag
    rw [List.foldl_cons] at hflag ⊢
    rcases sweepStep_cases acc e with ⟨hse, hprop0⟩ | ⟨hse, _, _, _⟩
    · rw [hse] at hflag ⊢
      obtain ⟨heq, hprop⟩ := ih acc hflag
      refine ⟨heq, fun q hq => ?_⟩
      rcases List.mem_cons.mp hq with h | h
      · subst h; exact hprop0
      · exact hprop q h
    · exfalso
      rw [hse] at hflag
      have hmono := foldl_sweepStep_flag_mono rest (e.1 :: acc.1, true) rfl
      rw [hmono] at hflag
      exact absurd hflag (by simp)

/-- The number of table entries whose key is still locked; a changed
sweep strictly decreases it. -/
def numMissing (t : NodeTable) (S : List Nat) : Nat :=
  (t.filter (fun e => decide (e.1 ∉ S))).length

theorem numMissing_mono (t : NodeTable) (u v : List Nat) (h : ∀ x ∈ u, x ∈ v) :
    numMissing t v ≤ numMissing t u := by
  induction t with
  | nil => exact le_refl _
  | cons e rest ih =>
    unfold numMissing at *
    rw [List.filter_cons, List.filter_cons]
    by_cases hv : e.1 ∈ v
    · rw [if_neg (by simpa using hv)]
      by_cases hu : e.1 ∈ u
      · rw [if_neg (by simpa using hu)]
        exact ih
      · rw [if_pos (by simpa using hu)]
        exact le_trans ih (Nat.le_succ _)
    · have hu : e.1 ∉ u := fun hmem => hv (h _ hmem)
      rw [if_pos (by simpa using hv), if_pos (by simpa using hu)]
      exact Nat.succ_le_succ ih

theorem numMissing_strict (t : NodeTable) (u v : List Nat) (h : ∀ x ∈ u, x ∈ v)
    (x : Nat) (hxv : x ∈ v) (hxu : x ∉ u) (e : Nat × TreeNode) (he : e ∈ t)
    (hex : e.1 = x) : numMissing t v < numMissing t u := by
  induction t with
  | nil => exact absurd he (List.not_mem_nil e)
  | cons a rest ih =>
    unfold numMissing at *
    rw [List.filter_cons, List.filter_cons]
    rcases List.mem_cons.mp he with hh | hh
    · subst hh
      rw [hex]
      rw [if_neg (by simpa using hxv), if_pos (by simpa using hxu)]
      exact Nat.lt_succ_of_le (numMissing_mono rest u v h)
    · by_cases hv : a.1 ∈ v
      · rw [if_neg (by simpa using hv)]
        by_cases hu : a.1 ∈ u
        · rw [if_neg (by simpa using hu)]
          exact ih hh
        · rw [if_pos (by simpa using hu)]
          exact Nat.lt_succ_of_le (le_of_lt (ih hh))
      · have hu : a.1 ∉ u := fun hmem => hv (h _ hmem)
        rw [if_pos (by simpa using hv), if_pos (by simpa using hu)]
        exact Nat.succ_lt_succ (ih hh)

theorem foldl_sweepStep_changed_witness (l : List (Nat × TreeNode)) :
    ∀ acc : List Nat × Bool, acc.2 = false → (l.foldl sweepStep acc).2 = true →
      ∃ x, x ∈ (l.foldl sweepStep acc).1 ∧ x ∉ acc.1 ∧ ∃ e ∈ l, e.1 = x := by
  induction l with
  | nil =>
    intro acc hf ht
    rw [List.foldl_nil] at ht
    rw [hf] at ht
    exact absurd ht (by simp)
  | cons e rest ih =>
    intro acc hf ht
    rw [List.foldl_cons] at ht ⊢
    by_cases hchange : (sweepStep acc e).2 = true
    · -- the head entry was just added: sweepStep only sets the flag when consing e.1
      have hadd : sweepStep acc e = (e.1 :: acc.1, true) ∧ e.1 ∉ acc.1 := by
        unfold sweepStep at hchange ⊢
        by_cases h1 : e.1 ∈ acc.1
        · rw [if_pos h1] at hchange
          exact absurd (hf ▸ hchange) (by simp)
        · rw [if_neg h1] at hchange ⊢
          by_cases h2 : e.2.prerequisites = []
          · rw [if_pos h2] at hchange
            exact absurd (hf ▸ hchange) (by simp)
          · rw [if_neg h2] at hchange ⊢
            by_cases h3 : e.2.prerequisites.all (fun p => decide (p ∈ acc.1))
            · rw [if_pos h3]
              exact ⟨rfl, h1⟩
            · rw [if_neg h3] at hchange
              exact absurd (hf ▸ hchange) (by simp)
      refine ⟨e.1, ?_, hadd.2, e, List.mem_cons_self _ _, rfl⟩
      rw [hadd.1]
      exact foldl_sweepStep_subset rest _ (List.mem_cons_self _ _)
    · have hacc : sweepStep acc e = acc := by
        unfold sweepStep at hchange ⊢
        by_cases h1 : e.1 ∈ acc.1
        · rw [if_pos h1]
        · rw [if_neg h1] at hchange ⊢
          by_cases h2 : e.2.prerequisites = []
          · rw [if_pos h2]
          · rw [if_neg h2] at hchange ⊢
            by_cases h3 : e.2.prerequisites.all (fun p => decide (p ∈ acc.1))
            · rw [if_pos h3] at hchange
              exact absurd rfl hchange
            · rw [if_neg h3]
      rw [hacc] at ht ⊢
      obtain ⟨x, hx1, hx2, q, hq, hqx⟩ := ih acc hf ht
      exact ⟨x, hx1, hx2, q, List.mem_cons_of_mem _ hq, hqx⟩

theorem unlockLoop_closed (t : NodeTable) :
    ∀ fuel u, numMissing t u < fuel →
      SweepClosed t (unlockLoop t fuel u) ∧ u ⊆ unlockLoop t fuel u := by
  intro fuel
  induction fuel with
  | zero =>
    intro u h
    exact absurd h (Nat.not_lt_zero _)
  | succ k ih =>
    intro u hfuel
    rw [unlockLoop]
    by_cases hc : (sweep t u).2
    · rw [if_pos hc]
      obtain ⟨x, hx1, hx2, e, he, hex⟩ :=
        foldl_sweepStep_changed_witness t (u, false) rfl hc
      have hmono := sweep_subset t u
      have hlt : numMissing t (sweep t u).1 < numMissing t u :=
        numMissing_strict t u (sweep t u).1 hmono x hx1 hx2 e he hex
      obtain ⟨hclosed, hsub⟩ := ih (sweep t u).1 (by omega)
      exact ⟨hclosed, fun y hy => hsub (hmono hy)⟩
    · rw [if_neg hc]
      have hb : (sweep t u).2 = false := by
        revert hc
        cases (sweep t u).2 <;> simp
      obtain ⟨heq, hprop⟩ := foldl_sweepStep_unchanged t (u, false) hb
      constructor
      · intro e he
        have h := hprop e he
        unfold sweep
        rw [heq]
        exact h
      · unfold sweep
        rw [heq]
        exact List.Subset.refl _

theorem closed_contains_derivable (t : NodeTable) (rootId : Nat) (S : List Nat)
    (hclosed : SweepClosed t S) (hroot : rootId ∈ S) :
    ∀ fid, Derivable t rootId fid → fid ∈ S := by
  intro fid hd
  induction hd with
  | root => exact hroot
  | step fid n hmem hne hall ih =>
    rcases hclosed (fid, n) hmem with h | h | h
    · exact h
    · exact absurd h hne
    · obtain ⟨p, hp, hnp⟩ := h
      exact absurd (ih p hp) hnp

/-- Completeness of `_simulate_unlocks`: its `len(nodes) + 10` sweep
budget always reaches the fixed point, so everything derivably
unlockable is reported. -/
theorem simulateUnlocks_complete (t : NodeTable) (rootId : Nat) :
    ∀ fid, Derivable t rootId fid → fid ∈ simulateUnlocks t rootId := by
  have hnm : numMissing t [rootId] < t.length + 10 := by
    have : numMissing t [rootId] ≤ t.length := by
      unfold numMissing
      exact le_trans (List.length_filter_le _ _) (le_refl _)
    omega
  obtain ⟨hclosed, hsub⟩ := unlockLoop_closed t (t.length + 10) [rootId] hnm
  exact closed_contains_derivable t rootId _ hclosed
    (hsub (List.mem_singleton.mpr rfl))

/-- Acyclicity of an edge relation: no nonempty path from a node back to
itself. -/
def RelAcyclic (R : Nat → Nat → Prop) : Prop := ∀ x, ¬ Relation.TransGen R x x

def ChildAcyclic (t : NodeTable) : Prop := RelAcyclic (childEdge t)

/-- The spec's acyclicity property: no node is its own ancestor via
`prerequisites` edges. -/
def PrereqAcyclic (t : NodeTable) : Prop := RelAcyclic (prereqEdge t)

/-- Bidirectional (transpose) consistency of the node table, as the spec
states it, restricted to ids that exist; dangling prerequisite ids (the
repair tolerates them behind `if blocking_id in nodes`) carry no
children list and are exempt in the second conjunct, while every child
edge must point at a node holding the back-edge. -/
def Consistent (t : NodeTable) : Prop :=
  (∀ e ∈ t, ∀ y ∈ e.2.children, e.1 ∈ prereqsOf t y) ∧
  (∀ e ∈ t, ∀ p ∈ e.2.prerequisites, p ∈ tableIds t → e.1 ∈ childrenOf t p)

/-- No duplicate keys, child entries, or prerequisite entries (Python:
dict keys are unique; the edge lists are maintained as sets). -/
def NodupTable (t : NodeTable) : Prop :=
  (tableIds t).Nodup ∧ ∀ e ∈ t, e.2.children.Nodup ∧ e.2.prerequisites.Nodup

theorem lookupNode_mem (t : NodeTable) (i : Nat) (n : TreeNode)
    (h : lookupNode t i = some n) : (i, n) ∈ t := by
  induction t with
  | nil => simp [lookupNode] at h
  | cons p rest ih =>
    obtain ⟨j, m⟩ := p
    rw [lookupNode] at h
    by_cases hj : j = i
    · rw [if_pos hj] at h
      injection h with h
      subst hj
      subst h
      exact List.mem_cons_self _ _
    · rw [if_neg hj] at h
      exact List.mem_cons_of_mem _ (ih h)

theorem mem_lookupNode (t : NodeTable) (i : Nat) (n : TreeNode)
    (hnd : (tableIds t).Nodup) (h : (i, n) ∈ t) : lookupNode t i = some n := by
  induction t with
  | nil => exact absurd h (List.not_mem_nil _)
  | cons p rest ih =>
    obtain ⟨j, m⟩ := p
    rw [tableIds, List.map_cons, List.nodup_cons] at hnd
    rcases List.mem_cons.mp h with h1 | h1
    · injection h1 with h1a h1b
      subst h1a
      subst h1b
      rw [lookupNode, if_pos rfl]
    · have hji : j ≠ i := by
        intro hj
        subst hj
        exact hnd.1 (List.mem_map.mpr ⟨(j, n), h1, rfl⟩)
      rw [lookupNode, if_neg hji]
      exact ih hnd.2 h1

theorem childEdge_source_mem (t : NodeTable) (a b : Nat) (h : childEdge t a b) :
    a ∈ tableIds t := by
  unfold childEdge childrenOf at h
  rcases hl : lookupNode t a with _ | n
  · rw [hl] at h
    exact absurd h (List.not_mem_nil _)
  · exact List.mem_map.mpr ⟨(a, n), lookupNode_mem t a n hl, rfl⟩

theorem prereqEdge_source_mem (t : NodeTable) (a b : Nat) (h : prereqEdge t a b) :
    a ∈ tableIds t := by
  unfold prereqEdge prereqsOf at h
  rcases hl : lookupNode t a with _ | n
  · rw [hl] at h
    exact absurd h (List.not_mem_nil _)
  · exact List.mem_map.mpr ⟨(a, n), lookupNode_mem t a n hl, rfl⟩

theorem rtg_new_edges_into (R R' : Nat → Nat → Prop) (fid : Nat) (C : Nat → Prop)
    (hR' : ∀ a b, R' a b → R a b ∨ (C a ∧ b = fid)) :
    ∀ a y, Relation.ReflTransGen R' a y → Relation.ReflTransGen R fid a →
      Relation.ReflTransGen R fid y := by
  intro a y h
  induction h with
  | refl => exact fun h => h
  | tail hab hbc ih =>
    intro hstart
    rcases hR' _ _ hbc with hold | ⟨_, hc⟩
    · exact Relation.ReflTransGen.tail (ih hstart) hold
    · rw [hc]

theorem rtg_decompose_new_edges (R R' : Nat → Nat → Prop) (fid : Nat) (C : Nat → Prop)
    (hR' : ∀ a b, R' a b → R a b ∨ (C a ∧ b = fid)) :
    ∀ x y, Relation.ReflTransGen R' x y →
      Relation.ReflTransGen R x y ∨
        ∃ c, C c ∧ Relation.ReflTransGen R x c ∧ Relation.ReflTransGen R' fid y := by
  intro x y h
  induction h using Relation.ReflTransGen.head_induction_on with
  | refl => exact Or.inl Relation.ReflTransGen.refl
  | @head x' b hxb hby ih =>
    rcases hR' _ _ hxb with hold | ⟨hc, hb⟩
    · rcases ih with h1 | ⟨c, hc1, hc2, hc3⟩
      · exact Or.inl (Relation.ReflTransGen.head hold h1)
      · exact Or.inr ⟨c, hc1, Relation.ReflTransGen.head hold hc2, hc3⟩
    · refine Or.inr ⟨x', hc, Relation.ReflTransGen.refl, ?_⟩
      rw [hb] at hby
      exact hby

theorem relAcyclic_add_edges_into (R R' : Nat → Nat → Prop) (fid : Nat) (C : Nat → Prop)
    (hR' : ∀ a b, R' a b → R a b ∨ (C a ∧ b = fid))
    (hacyc : RelAcyclic R)
    (hguard : ∀ c, C c → ¬ Relation.ReflTransGen R fid c) :
    RelAcyclic R' := by
  intro x hcyc
  obtain ⟨w, hxw, hwx⟩ := (Relation.TransGen.head'_iff).mp hcyc
  rcases hR' _ _ hxw with hold | ⟨hcx, hw⟩
  · rcases rtg_decompose_new_edges R R' fid C hR' w x hwx with h1 | ⟨c, hc1, hc2, hc3⟩
    · exact hacyc x (Relation.TransGen.head' hold h1)
    · have hfx : Relation.ReflTransGen R fid x :=
        rtg_new_edges_into R R' fid C hR' fid x hc3 Relation.ReflTransGen.refl
      have hfc : Relation.ReflTransGen R fid c :=
        hfx.trans (Relation.ReflTransGen.head hold hc2)
      exact hguard c hc1 hfc
  · rw [hw] at hwx
    have hfx : Relation.ReflTransGen R fid x :=
      rtg_new_edges_into R R' fid C hR' fid x hwx Relation.ReflTransGen.refl
    exact hguard x hcx hfx

theorem relAcyclic_mono (R R' : Nat → Nat → Prop) (h : ∀ a b, R' a b → R a b)
    (hacyc : RelAcyclic R) : RelAcyclic R' := by
  intro x hcyc
  exact hacyc x (Relation.TransGen.mono h hcyc)

theorem prereq_path_to_child_path (t : NodeTable)
    (hcons2 : ∀ e ∈ t, ∀ p ∈ e.2.prerequisites, p ∈ tableIds t → e.1 ∈ childrenOf t p) :
    ∀ a b, Relation.TransGen (prereqEdge t) a b → b ∈ tableIds t →
      Relation.TransGen (childEdge t) b a := by
  intro a b h
  induction h with
  | @single b' hab =>
    intro hb
    unfold prereqEdge prereqsOf at hab
    rcases hl : lookupNode t a with _ | n
    · rw [hl] at hab
      exact absurd hab (List.not_mem_nil _)
    · rw [hl] at hab
      have := hcons2 (a, n) (lookupNode_mem t a n hl) b' hab hb
      exact Relation.TransGen.single this
  | @tail c b' hac hcb ih =>
    intro hb
    have hc : c ∈ tableIds t := prereqEdge_source_mem t c b' hcb
    have h1 : Relation.TransGen (childEdge t) b' c := by
      unfold prereqEdge prereqsOf at hcb
      rcases hl : lookupNode t c with _ | n
      · rw [hl] at hcb
        exact absurd hcb (List.not_mem_nil _)
      · rw [hl] at hcb
        exact Relation.TransGen.single (hcons2 (c, n) (lookupNode_mem t c n hl) b' hcb hb)
    exact h1.trans (ih hc)

theorem child_path_to_prereq_path (t : NodeTable)
    (hcons1 : ∀ e ∈ t, ∀ y ∈ e.2.children, e.1 ∈ prereqsOf t y) :
    ∀ a b, Relation.TransGen (childEdge t) a b →
      Relation.TransGen (prereqEdge t) b a := by
  intro a b h
  induction h with
  | @single b' hab =>
    unfold childEdge childrenOf at hab
    rcases hl : lookupNode t a with _ | n
    · rw [hl] at hab
      exact absurd hab (List.not_mem_nil _)
    · rw [hl] at hab
      exact Relation.TransGen.single (hcons1 (a, n) (lookupNode_mem t a n hl) b' hab)
  | @tail c b' hac hcb ih =>
    have h1 : Relation.TransGen (prereqEdge t) b' c := by
      unfold childEdge childrenOf at hcb
      rcases hl : lookupNode t c with _ | n
      · rw [hl] at hcb
        exact absurd hcb (List.not_mem_nil _)
      · rw [hl] at hcb
        exact Relation.TransGen.single (hcons1 (c, n) (lookupNode_mem t c n hl) b' hcb)
    exact h1.trans ih

theorem childAcyclic_of_prereqAcyclic (t : NodeTable)
    (hcons1 : ∀ e ∈ t, ∀ y ∈ e.2.children, e.1 ∈ prereqsOf t y)
    (h : PrereqAcyclic t) : ChildAcyclic t := by
  intro x hcyc
  exact h x (child_path_to_prereq_path t hcons1 x x hcyc)

theorem prereqAcyclic_of_childAcyclic (t : NodeTable)
    (hcons2 : ∀ e ∈ t, ∀ p ∈ e.2.prerequisites, p ∈ tableIds t → e.1 ∈ childrenOf t p)
    (h : ChildAcyclic t) : PrereqAcyclic t := by
  intro x hcyc
  obtain ⟨w, hxw, hwx⟩ := (Relation.TransGen.head'_iff).mp hcyc
  have hx : x ∈ tableIds t := prereqEdge_source_mem t x w hxw
  exact h x (prereq_path_to_child_path t hcons2 x x hcyc hx)

theorem closed_not_reach (t : NodeTable) (target : Nat) (V : List Nat)
    (hcl : ∀ v ∈ V, v ≠ target ∧ ∀ c ∈ childrenOf t v, c ∈ V) :
    ∀ x ∈ V, ¬ Relation.ReflTransGen (childEdge t) x target := by
  intro x hx h
  revert hx
  induction h using Relation.ReflTransGen.head_induction_on with
  | refl => intro hx; exact (hcl target hx).1 rfl
  | @head a b hab hby ih =>
    intro ha
    exact ih ((hcl a ha).2 b hab)

theorem bfsFind_false_not_reach (t : NodeTable) (target : Nat) :
    ∀ fuel visited queue,
      bfsPhi t visited + queue.length < fuel →
      (∀ v ∈ visited, v ≠ target ∧ ∀ c ∈ childrenOf t v, c ∈ visited ∨ c ∈ queue) →
      bfsFind t target fuel visited queue = false →
      ∀ x, (x ∈ visited ∨ x ∈ queue) →
        ¬ Relation.ReflTransGen (childEdge t) x target := by
  intro fuel
  induction fuel with
  | zero =>
    intro visited queue hm
    exact absurd hm (Nat.not_lt_zero _)
  | succ f ih =>
    intro visited queue hm hinv hres x hx
    match queue, hm, hinv, hres, hx with
    | [], hm, hinv, hres, hx =>
      have hxv : x ∈ visited := by
        rcases hx with h | h
        · exact h
        · exact absurd h (List.not_mem_nil _)
      refine closed_not_reach t target visited ?_ x hxv
      intro v hv
      refine ⟨(hinv v hv).1, fun c hc => ?_⟩
      rcases (hinv v hv).2 c hc with h | h
      · exact h
      · exact absurd h (List.not_mem_nil _)
    | fid :: rest, hm, hinv, hres, hx =>
      rw [bfsFind] at hres
      by_cases hv : fid ∈ visited
      · rw [if_pos hv] at hres
        have hm' : bfsPhi t visited + rest.length < f := by
          simp only [List.length_cons] at hm
          omega
        have hinv' : ∀ v ∈ visited, v ≠ target ∧
            ∀ c ∈ childrenOf t v, c ∈ visited ∨ c ∈ rest := by
          intro v hvv
          refine ⟨(hinv v hvv).1, fun c hc => ?_⟩
          rcases (hinv v hvv).2 c hc with h | h
          · exact Or.inl h
          · rcases List.mem_cons.mp h with h1 | h1
            · exact Or.inl (h1 ▸ hv)
            · exact Or.inr h1
        apply ih visited rest hm' hinv' hres x
        rcases hx with h | h
        · exact Or.inl h
        · rcases List.mem_cons.mp h with h1 | h1
          · exact Or.inl (h1 ▸ hv)
          · exact Or.inr h1
      · rw [if_neg hv] at hres
        by_cases ht : fid = target
        · rw [if_pos ht] at hres
          exact absurd hres (by simp)
        · rw [if_neg ht] at hres
          have hm' : bfsPhi t (fid :: visited) + (rest ++ childrenOf t fid).length < f := by
            rcases hl : lookupNode t fid with _ | n
            · have hphi := bfsPhi_cons_none t fid visited hl
              have hch : childrenOf t fid = [] := by rw [childrenOf, hl]
              rw [hphi, hch]
              simp only [List.append_nil, List.length_cons] at hm ⊢
              omega
            · have hphi := bfsPhi_cons_some t fid visited n hl hv
              have hch : childrenOf t fid = n.children := by rw [childrenOf, hl]
              rw [hch]
              simp only [List.length_append, List.length_cons] at hm ⊢
              omega
          have hinv' : ∀ v ∈ fid :: visited, v ≠ target ∧
              ∀ c ∈ childrenOf t v, c ∈ fid :: visited ∨ c ∈ rest ++ childrenOf t fid := by
            intro v hvv
            rcases List.mem_cons.mp hvv with h1 | h1
            · subst h1
              exact ⟨ht, fun c hc => Or.inr (List.mem_append_right _ hc)⟩
            · refine ⟨(hinv v h1).1, fun c hc => ?_⟩
              rcases (hinv v h1).2 c hc with h | h
              · exact Or.inl (List.mem_cons_of_mem _ h)
              · rcases List.mem_cons.mp h with h2 | h2
                · exact Or.inl (h2 ▸ List.mem_cons_self _ _)
                · exact Or.inr (List.mem_append_left _ h2)
          apply ih (fid :: visited) (rest ++ childrenOf t fid) hm' hinv' hres x
          rcases hx with h | h
          · exact Or.inl (List.mem_cons_of_mem _ h)
          · rcases List.mem_cons.mp h with h1 | h1
            · exact Or.inl (h1 ▸ List.mem_cons_self _ _)
            · exact Or.inr (List.mem_append_left _ h1)

theorem bfsFind_true_reach (t : NodeTable) (target : Nat) :
    ∀ fuel visited queue, bfsFind t target fuel visited queue = true →
      ∃ x, (x ∈ visited ∨ x ∈ queue) ∧
        Relation.ReflTransGen (childEdge t) x target := by
  intro fuel
  induction fuel with
  | zero =>
    intro visited queue hres
    rw [bfsFind] at hres
    exact absurd hres (by simp)
  | succ f ih =>
    intro visited queue hres
    match queue, hres with
    | [], hres =>
      rw [bfsFind] at hres
      exact absurd hres (by simp)
    | fid :: rest, hres =>
      rw [bfsFind] at hres
      by_cases hv : fid ∈ visited
      · rw [if_pos hv] at hres
        obtain ⟨x, hx, hreach⟩ := ih visited rest hres
        refine ⟨x, ?_, hreach⟩
        rcases hx with h | h
        · exact Or.inl h
        · exact Or.inr (List.mem_cons_of_mem _ h)
      · rw [if_neg hv] at hres
        by_cases ht : fid = target
        · exact ⟨fid, Or.inr (List.mem_cons_self _ _), ht ▸ Relation.ReflTransGen.refl⟩
        · rw [if_neg ht] at hres
          obtain ⟨x, hx, hreach⟩ := ih (fid :: visited) (rest ++ childrenOf t fid) hres
          rcases hx with h | h
          · rcases List.mem_cons.mp h with h1 | h1
            · exact ⟨fid, Or.inr (List.mem_cons_self _ _), h1 ▸ hreach⟩
            · exact ⟨x, Or.inl h1, hreach⟩
          · rcases List.mem_append.mp h with h1 | h1
            · exact ⟨x, Or.inr (List.mem_cons_of_mem _ h1), hreach⟩
            · refine ⟨fid, Or.inr (List.mem_cons_self _ _), ?_⟩
              exact Relation.ReflTransGen.head h1 hreach

/-- `_is_descendant(potential_ancestor, node_id)` decides precisely
whether `potential_ancestor` is reachable from `node_id` along
`children` edges (including the trivial zero-length path). -/
theorem isDescendant_iff (t : NodeTable) (anc nid : Nat) :
    isDescendant t anc nid = true ↔ Relation.ReflTransGen (childEdge t) nid anc := by
  constructor
  · intro h
    obtain ⟨x, hx, hreach⟩ := bfsFind_true_reach t anc _ _ _ h
    rcases hx with h1 | h1
    · exact absurd h1 (List.not_mem_nil _)
    · rw [List.mem_singleton.mp h1] at hreach
      exact hreach
  · intro h
    by_contra hfalse
    have hres : isDescendant t anc nid = false := by
      revert hfalse
      cases isDescendant t anc nid <;> simp
    have := bfsFind_false_not_reach t anc (bfsPhi t [] + 2) [] [nid]
      (by simp) (by intro v hv; exact absurd hv (List.not_mem_nil _)) hres nid
      (Or.inr (List.mem_singleton.mpr rfl))
    exact this h

theorem childrenOf_updateNode_ne (t : NodeTable) (i x : Nat) (f : TreeNode → TreeNode)
    (h : x ≠ i) : childrenOf (updateNode t i f) x = childrenOf t x := by
  unfold childrenOf
  rw [lookupNode_updateNode, if_neg h]

theorem prereqsOf_updateNode_ne (t : NodeTable) (i x : Nat) (f : TreeNode → TreeNode)
    (h : x ≠ i) : prereqsOf (updateNode t i f) x = prereqsOf t x := by
  unfold prereqsOf
  rw [lookupNode_updateNode, if_neg h]

theorem childrenOf_updateNode_self (t : NodeTable) (i : Nat) (f : TreeNode → TreeNode) :
    childrenOf (updateNode t i f) i =
      match lookupNode t i with
      | some n => (f n).children
      | none => [] := by
  unfold childrenOf
  rw [lookupNode_updateNode, if_pos rfl]
  cases lookupNode t i <;> rfl

theorem prereqsOf_updateNode_self (t : NodeTable) (i : Nat) (f : TreeNode → TreeNode) :
    prereqsOf (updateNode t i f) i =
      match lookupNode t i with
      | some n => (f n).prerequisites
      | none => [] := by
  unfold prereqsOf
  rw [lookupNode_updateNode, if_pos rfl]
  cases lookupNode t i <;> rfl

theorem childrenOf_updateNode_keepc (t : NodeTable) (i x : Nat) (f : TreeNode → TreeNode)
    (hf : ∀ n, (f n).children = n.children) :
    childrenOf (updateNode t i f) x = childrenOf t x := by
  unfold childrenOf
  rw [lookupNode_updateNode]
  by_cases hx : x = i
  · subst hx
    rw [if_pos rfl]
    cases lookupNode t x <;> simp [hf]
  · rw [if_neg hx]

theorem prereqsOf_updateNode_keepp (t : NodeTable) (i x : Nat) (f : TreeNode → TreeNode)
    (hf : ∀ n, (f n).prerequisites = n.prerequisites) :
    prereqsOf (updateNode t i f) x = prereqsOf t x := by
  unfold prereqsOf
  rw [lookupNode_updateNode]
  by_cases hx : x = i
  · subst hx
    rw [if_pos rfl]
    cases lookupNode t x <;> simp [hf]
  · rw [if_neg hx]

theorem prereqsOf_addChildM (t : NodeTable) (p c x : Nat) :
    prereqsOf (addChildM t p c) x = prereqsOf t x := by
  unfold addChildM
  apply prereqsOf_updateNode_keepp
  intro n
  by_cases h : c ∈ n.children <;> simp [h]

theorem childrenOf_addPrereqM (t : NodeTable) (i pid x : Nat) :
    childrenOf (addPrereqM t i pid) x = childrenOf t x := by
  unfold addPrereqM
  apply childrenOf_updateNode_keepc
  intro n
  by_cases h : pid ∈ n.prerequisites <;> simp [h]

theorem childrenOf_addChildM_ne (t : NodeTable) (p c x : Nat) (h : x ≠ p) :
    childrenOf (addChildM t p c) x = childrenOf t x := by
  unfold addChildM
  exact childrenOf_updateNode_ne t p x _ h

theorem childrenOf_addChildM_self (t : NodeTable) (p c : Nat) (n : TreeNode)
    (hl : lookupNode t p = some n) :
    childrenOf (addChildM t p c) p =
      if c ∈ n.children then n.children else n.children ++ [c] := by
  unfold addChildM
  rw [childrenOf_updateNode_self, hl]
  by_cases h : c ∈ n.children <;> simp [h]

theorem childrenOf_addChildM_missing (t : NodeTable) (p c : Nat)
    (hl : lookupNode t p = none) :
    childrenOf (addChildM t p c) p = [] := by
  unfold addChildM
  rw [childrenOf_updateNode_self, hl]

theorem prereqsOf_addPrereqM_ne (t : NodeTable) (i pid x : Nat) (h : x ≠ i) :
    prereqsOf (addPrereqM t i pid) x = prereqsOf t x := by
  unfold addPrereqM
  exact prereqsOf_updateNode_ne t i x _ h

theorem prereqsOf_addPrereqM_self (t : NodeTable) (i pid : Nat) (n : TreeNode)
    (hl : lookupNode t i = some n) :
    prereqsOf (addPrereqM t i pid) i =
      if pid ∈ n.prerequisites then n.prerequisites else n.prerequisites ++ [pid] := by
  unfold addPrereqM
  rw [prereqsOf_updateNode_self, hl]
  by_cases h : pid ∈ n.prerequisites <;> simp [h]

theorem prereqsOf_addPrereqM_missing (t : NodeTable) (i pid : Nat)
    (hl : lookupNode t i = none) :
    prereqsOf (addPrereqM t i pid) i = [] := by
  unfold addPrereqM
  rw [prereqsOf_updateNode_self, hl]

theorem tableIds_addChildM (t : NodeTable) (p c : Nat) :
    tableIds (addChildM t p c) = tableIds t := tableIds_updateNode t p _

theorem tableIds_addPrereqM (t : NodeTable) (i pid : Nat) :
    tableIds (addPrereqM t i pid) = tableIds t := tableIds_updateNode t i _

/-- Lookup/membership-based phrasing of bidirectional consistency, used
inside the preservation proofs. -/
def ConsistentL (t : NodeTable) : Prop :=
  (∀ a b, b ∈ childrenOf t a → a ∈ prereqsOf t b) ∧
  (∀ a b, b ∈ prereqsOf t a → b ∈ tableIds t → a ∈ childrenOf t b)

theorem mem_tableIds_iff_lookup (t : NodeTable) (i : Nat) :
    i ∈ tableIds t ↔ (lookupNode t i).isSome := by
  induction t with
  | nil => simp [tableIds, lookupNode]
  | cons p rest ih =>
    obtain ⟨j, n⟩ := p
    rw [tableIds, List.map_cons, List.mem_cons, lookupNode]
    by_cases hj : j = i
    · subst hj
      simp
    · rw [if_neg hj]
      simp only [tableIds] at ih
      rw [ih]
      constructor
      · intro h
        rcases h with h | h
        · exact absurd h.symm hj
        · exact h
      · intro h
        exact Or.inr h

theorem consistentL_of_consistent (t : NodeTable) (h : Consistent t) : ConsistentL t := by
  constructor
  · intro a b hb
    unfold childrenOf at hb
    rcases hl : lookupNode t a with _ | n
    · rw [hl] at hb
      exact absurd hb (List.not_mem_nil _)
    · rw [hl] at hb
      exact h.1 (a, n) (lookupNode_mem t a n hl) b hb
  · intro a b hb hbid
    unfold prereqsOf at hb
    rcases hl : lookupNode t a with _ | n
    · rw [hl] at hb
      exact absurd hb (List.not_mem_nil _)
    · rw [hl] at hb
      exact h.2 (a, n) (lookupNode_mem t a n hl) b hb hbid

theorem consistent_of_consistentL (t : NodeTable) (hnd : (tableIds t).Nodup)
    (h : ConsistentL t) : Consistent t := by
  constructor
  · intro e he y hy
    have hl : lookupNode t e.1 = some e.2 := mem_lookupNode t e.1 e.2 hnd (by
      cases e
      exact he)
    apply h.1 e.1 y
    unfold childrenOf
    rw [hl]
    exact hy
  · intro e he p hp hpid
    have hl : lookupNode t e.1 = some e.2 := mem_lookupNode t e.1 e.2 hnd (by
      cases e
      exact he)
    apply h.2 e.1 p _ hpid
    unfold prereqsOf
    rw [hl]
    exact hp

theorem mem_childrenOf_addPair (t : NodeTable) (nid pid a b : Nat)
    (hpid : pid ∈ tableIds t) :
    b ∈ childrenOf (addChildM (addPrereqM t nid pid) pid nid) a ↔
      b ∈ childrenOf t a ∨ (a = pid ∧ b = nid) := by
  have hpid1 : pid ∈ tableIds (addPrereqM t nid pid) := by
    rw [tableIds_addPrereqM]
    exact hpid
  have hlook : ∃ n1, lookupNode (addPrereqM t nid pid) pid = some n1 := by
    have := (mem_tableIds_iff_lookup _ pid).mp hpid1
    rcases hl : lookupNode (addPrereqM t nid pid) pid with _ | n1
    · rw [hl] at this
      exact absurd this (by simp)
    · exact ⟨n1, rfl⟩
  obtain ⟨n1, hn1⟩ := hlook
  have hch1 : ∀ x, childrenOf (addPrereqM t nid pid) x = childrenOf t x :=
    fun x => childrenOf_addPrereqM t nid pid x
  by_cases ha : a = pid
  · subst ha
    rw [childrenOf_addChildM_self _ a nid n1 hn1]
    have hn1c : n1.children = childrenOf t a := by
      have := hch1 a
      unfold childrenOf at this
      rw [hn1] at this
      exact this
    rw [hn1c]
    by_cases hmem : nid ∈ childrenOf t a
    · rw [if_pos hmem]
      constructor
      · exact fun h => Or.inl h
      · intro h
        rcases h with h | ⟨_, h⟩
        · exact h
        · exact h ▸ hmem
    · rw [if_neg hmem]
      rw [List.mem_append, List.mem_singleton]
      constructor
      · intro h
        rcases h with h | h
        · exact Or.inl h
        · exact Or.inr ⟨rfl, h⟩
      · intro h
        rcases h with h | ⟨_, h⟩
        · exact Or.inl h
        · exact Or.inr h
  · rw [childrenOf_addChildM_ne _ _ _ _ ha, hch1]
    constructor
    · exact fun h => Or.inl h
    · intro h
      rcases h with h | ⟨h1, _⟩
      · exact h
      · exact absurd h1 ha

theorem mem_prereqsOf_addPair (t : NodeTable) (nid pid a b : Nat)
    (hnid : nid ∈ tableIds t) :
    b ∈ prereqsOf (addChildM (addPrereqM t nid pid) pid nid) a ↔
      b ∈ prereqsOf t a ∨ (a = nid ∧ b = pid) := by
  rw [prereqsOf_addChildM]
  have hlook : ∃ n0, lookupNode t nid = some n0 := by
    have := (mem_tableIds_iff_lookup _ nid).mp hnid
    rcases hl : lookupNode t nid with _ | n0
    · rw [hl] at this
      exact absurd this (by simp)
    · exact ⟨n0, rfl⟩
  obtain ⟨n0, hn0⟩ := hlook
  by_cases ha : a = nid
  · subst ha
    rw [prereqsOf_addPrereqM_self t a pid n0 hn0]
    have hn0p : n0.prerequisites = prereqsOf t a := by
      unfold prereqsOf
      rw [hn0]
    rw [hn0p]
    by_cases hmem : pid ∈ prereqsOf t a
    · rw [if_pos hmem]
      constructor
      · exact fun h => Or.inl h
      · intro h
        rcases h with h | ⟨_, h⟩
        · exact h
        · exact h ▸ hmem
    · rw [if_neg hmem]
      rw [List.mem_append, List.mem_singleton]
      constructor
      · intro h
        rcases h with h | h
        · exact Or.inl h
        · exact Or.inr ⟨rfl, h⟩
      · intro h
        rcases h with h | ⟨_, h⟩
        · exact Or.inl h
        · exact Or.inr h
  · rw [prereqsOf_addPrereqM_ne _ _ _ _ ha]
    constructor
    · exact fun h => Or.inl h
    · intro h
      rcases h with h | ⟨h1, _⟩
      · exact h
      · exact absurd h1 ha

theorem tableIds_addPair (t : NodeTable) (nid pid : Nat) :
    tableIds (addChildM (addPrereqM t nid pid) pid nid) = tableIds t := by
  rw [tableIds_addChildM, tableIds_addPrereqM]

theorem consistentL_addPair (t : NodeTable) (nid pid : Nat)
    (hc : ConsistentL t) (hnid : nid ∈ tableIds t) (hpid : pid ∈ tableIds t) :
    ConsistentL (addChildM (addPrereqM t nid pid) pid nid) := by
  constructor
  · intro a b hb
    rw [mem_childrenOf_addPair t nid pid a b hpid] at hb
    rw [mem_prereqsOf_addPair t nid pid b a hnid]
    rcases hb with h | ⟨ha, hbn⟩
    · exact Or.inl (hc.1 a b h)
    · exact Or.inr ⟨hbn, ha⟩
  · intro a b hb hbid
    rw [mem_prereqsOf_addPair t nid pid a b hnid] at hb
    rw [tableIds_addPair] at hbid
    rw [mem_childrenOf_addPair t nid pid b a hpid]
    rcases hb with h | ⟨ha, hbp⟩
    · exact Or.inl (hc.2 a b h hbid)
    · exact Or.inr ⟨hbp, ha⟩

theorem childEdge_addPair_sub (t : NodeTable) (nid pid a b : Nat)
    (hpid : pid ∈ tableIds t) :
    childEdge (addChildM (addPrereqM t nid pid) pid nid) a b →
      childEdge t a b ∨ (a = pid ∧ b = nid) := by
  intro h
  unfold childEdge at h ⊢
  rw [mem_childrenOf_addPair t nid pid a b hpid] at h
  exact h

theorem childAcyclic_addPair (t : NodeTable) (nid pid : Nat)
    (hpid : pid ∈ tableIds t) (hacyc : ChildAcyclic t)
    (hguard : ¬ Relation.ReflTransGen (childEdge t) nid pid) :
    ChildAcyclic (addChildM (addPrereqM t nid pid) pid nid) := by
  apply relAcyclic_add_edges_into (childEdge t) _ nid (fun c => c = pid)
  · intro a b h
    rcases childEdge_addPair_sub t nid pid a b hpid h with h | ⟨ha, hb⟩
    · exact Or.inl h
    · exact Or.inr ⟨ha, hb⟩
  · exact hacyc
  · intro c hcp
    rw [hcp]
    exact hguard

theorem nodup_append_single {l : List Nat} {x : Nat} (hl : l.Nodup) (hx : x ∉ l) :
    (l ++ [x]).Nodup := by
  rw [List.nodup_append]
  exact ⟨hl, List.nodup_singleton x, by
    intro a ha hb
    rw [List.mem_singleton] at hb
    exact hx (hb ▸ ha)⟩

/-- Lookup-based phrasing of the no-duplicates invariant. -/
def NodupL (t : NodeTable) : Prop :=
  (tableIds t).Nodup ∧ ∀ x, (childrenOf t x).Nodup ∧ (prereqsOf t x).Nodup

theorem nodupL_of_nodupTable (t : NodeTable) (h : NodupTable t) : NodupL t := by
  refine ⟨h.1, fun x => ?_⟩
  rcases hl : lookupNode t x with _ | n
  · unfold childrenOf prereqsOf
    rw [hl]
    exact ⟨List.nodup_nil, List.nodup_nil⟩
  · have hmem := lookupNode_mem t x n hl
    unfold childrenOf prereqsOf
    rw [hl]
    exact h.2 (x, n) hmem

theorem nodupTable_of_nodupL (t : NodeTable) (h : NodupL t) : NodupTable t := by
  refine ⟨h.1, fun e he => ?_⟩
  have hl : lookupNode t e.1 = some e.2 := mem_lookupNode t e.1 e.2 h.1 (by
    cases e
    exact he)
  have hc : childrenOf t e.1 = e.2.children := by
    unfold childrenOf
    rw [hl]
  have hp : prereqsOf t e.1 = e.2.prerequisites := by
    unfold prereqsOf
    rw [hl]
  exact ⟨hc ▸ (h.2 e.1).1, hp ▸ (h.2 e.1).2⟩

theorem nodupL_updateNode (t : NodeTable) (i : Nat) (f : TreeNode → TreeNode)
    (hfc : ∀ n, n.children.Nodup → (f n).children.Nodup)
    (hfp : ∀ n, n.prerequisites.Nodup → (f n).prerequisites.Nodup)
    (h : NodupL t) : NodupL (updateNode t i f) := by
  refine ⟨by rw [tableIds_updateNode]; exact h.1, fun x => ?_⟩
  by_cases hx : x = i
  · subst hx
    rw [childrenOf_updateNode_self, prereqsOf_updateNode_self]
    rcases hl : lookupNode t x with _ | n
    · exact ⟨List.nodup_nil, List.nodup_nil⟩
    · have hc : childrenOf t x = n.children := by
        unfold childrenOf
        rw [hl]
      have hp : prereqsOf t x = n.prerequisites := by
        unfold prereqsOf
        rw [hl]
      exact ⟨hfc n (hc ▸ (h.2 x).1), hfp n (hp ▸ (h.2 x).2)⟩
  · rw [childrenOf_updateNode_ne t i x f hx, prereqsOf_updateNode_ne t i x f hx]
    exact h.2 x

theorem nodupL_addChildM (t : NodeTable) (p c : Nat) (h : NodupL t) :
    NodupL (addChildM t p c) := by
  apply nodupL_updateNode _ _ _ _ _ h
  · intro n hn
    by_cases hc : c ∈ n.children
    · rw [if_pos hc]
      exact hn
    · rw [if_neg hc]
      exact nodup_append_single hn hc
  · intro n hn
    by_cases hc : c ∈ n.children
    · rw [if_pos hc]
      exact hn
    · rw [if_neg hc]
      exact hn

theorem nodupL_addPrereqM (t : NodeTable) (i pid : Nat) (h : NodupL t) :
    NodupL (addPrereqM t i pid) := by
  apply nodupL_updateNode _ _ _ _ _ h
  · intro n hn
    by_cases hc : pid ∈ n.prerequisites
    · rw [if_pos hc]
      exact hn
    · rw [if_neg hc]
      exact hn
  · intro n hn
    by_cases hc : pid ∈ n.prerequisites
    · rw [if_pos hc]
      exact hn
    · rw [if_neg hc]
      exact nodup_append_single hn hc

theorem nodupL_addPair (t : NodeTable) (nid pid : Nat) (h : NodupL t) :
    NodupL (addChildM (addPrereqM t nid pid) pid nid) :=
  nodupL_addChildM _ _ _ (nodupL_addPrereqM _ _ _ h)

theorem mem_childrenOf_addChildM (t : NodeTable) (p c x b : Nat)
    (hp : p ∈ tableIds t) :
    b ∈ childrenOf (addChildM t p c) x ↔ b ∈ childrenOf t x ∨ (x = p ∧ b = c) := by
  by_cases hx : x = p
  · subst hx
    obtain ⟨n, hn⟩ : ∃ n, lookupNode t x = some n := by
      have hs := (mem_tableIds_iff_lookup t x).mp hp
      rcases hl : lookupNode t x with _ | n
      · rw [hl] at hs
        exact absurd hs (by simp)
      · exact ⟨n, rfl⟩
    rw [childrenOf_addChildM_self t x c n hn]
    have hcn : n.children = childrenOf t x := by
      unfold childrenOf
      rw [hn]
    rw [hcn]
    by_cases hmem : c ∈ childrenOf t x
    · rw [if_pos hmem]
      constructor
      · exact fun h => Or.inl h
      · intro h
        rcases h with h | ⟨-, h⟩
        · exact h
        · exact h ▸ hmem
    · rw [if_neg hmem, List.mem_append, List.mem_singleton]
      constructor
      · intro h
        rcases h with h | h
        · exact Or.inl h
        · exact Or.inr ⟨rfl, h⟩
      · intro h
        rcases h with h | ⟨-, h⟩
        · exact Or.inl h
        · exact Or.inr h
  · rw [childrenOf_addChildM_ne t p c x hx]
    constructor
    · exact fun h => Or.inl h
    · intro h
      rcases h with h | ⟨h1, -⟩
      · exact h
      · exact absurd h1 hx

theorem mem_prereqsOf_addPrereqM (t : NodeTable) (i pid x b : Nat)
    (hi : i ∈ tableIds t) :
    b ∈ prereqsOf (addPrereqM t i pid) x ↔ b ∈ prereqsOf t x ∨ (x = i ∧ b = pid) := by
  by_cases hx : x = i
  · subst hx
    obtain ⟨n, hn⟩ : ∃ n, lookupNode t x = some n := by
      have hs := (mem_tableIds_iff_lookup t x).mp hi
      rcases hl : lookupNode t x with _ | n
      · rw [hl] at hs
        exact absurd hs (by simp)
      · exact ⟨n, rfl⟩
    rw [prereqsOf_addPrereqM_self t x pid n hn]
    have hpn : n.prerequisites = prereqsOf t x := by
      unfold prereqsOf
      rw [hn]
    rw [hpn]
    by_cases hmem : pid ∈ prereqsOf t x
    · rw [if_pos hmem]
      constructor
      · exact fun h => Or.inl h
      · intro h
        rcases h with h | ⟨-, h⟩
        · exact h
        · exact h ▸ hmem
    · rw [if_neg hmem, List.mem_append, List.mem_singleton]
      constructor
      · intro h
        rcases h with h | h
        · exact Or.inl h
        · exact Or.inr ⟨rfl, h⟩
      · intro h
        rcases h with h | ⟨-, h⟩
        · exact Or.inl h
        · exact Or.inr h
  · rw [prereqsOf_addPrereqM_ne t i pid x hx]
    constructor
    · exact fun h => Or.inl h
    · intro h
      rcases h with h | ⟨h1, -⟩
      · exact h
      · exact absurd h1 hx

theorem childrenOf_linkNodes (t : NodeTable) (p c x : Nat) :
    childrenOf (linkNodes t p c) x = childrenOf (addChildM t p c) x := by
  unfold linkNodes
  dsimp only
  rcases h : lookupNode (addPrereqM (addChildM t p c) c p) p with _ | pn
  · rw [childrenOf_addPrereqM]
  · show childrenOf (updateNode (addPrereqM (addChildM t p c) c p) c _) x = _
    rw [childrenOf_updateNode_keepc (addPrereqM (addChildM t p c) c p) c x
      (fun n => { n with depth := pn.depth + 1 }) (fun n => rfl), childrenOf_addPrereqM]

theorem prereqsOf_linkNodes (t : NodeTable) (p c x : Nat) :
    prereqsOf (linkNodes t p c) x = prereqsOf (addPrereqM (addChildM t p c) c p) x := by
  unfold linkNodes
  dsimp only
  rcases h : lookupNode (addPrereqM (addChildM t p c) c p) p with _ | pn
  · rfl
  · show prereqsOf (updateNode (addPrereqM (addChildM t p c) c p) c _) x = _
    rw [prereqsOf_updateNode_keepp (addPrereqM (addChildM t p c) c p) c x
      (fun n => { n with depth := pn.depth + 1 }) (fun n => rfl)]

theorem tableIds_linkNodes (t : NodeTable) (p c : Nat) :
    tableIds (linkNodes t p c) = tableIds t := by
  unfold linkNodes
  dsimp only
  rcases h : lookupNode (addPrereqM (addChildM t p c) c p) p with _ | pn
  · rw [tableIds_addPrereqM, tableIds_addChildM]
  · rw [tableIds_updateNode, tableIds_addPrereqM, tableIds_addChildM]

theorem nodupL_linkNodes (t : NodeTable) (p c : Nat) (h : NodupL t) :
    NodupL (linkNodes t p c) := by
  unfold linkNodes
  dsimp only
  rcases hl : lookupNode (addPrereqM (addChildM t p c) c p) p with _ | pn
  · exact nodupL_addPrereqM _ _ _ (nodupL_addChildM _ _ _ h)
  · exact nodupL_updateNode _ _ _ (fun n hn => hn) (fun n hn => hn)
      (nodupL_addPrereqM _ _ _ (nodupL_addChildM _ _ _ h))

theorem mem_childrenOf_linkNodes (t : NodeTable) (p c x b : Nat)
    (hp : p ∈ tableIds t) :
    b ∈ childrenOf (linkNodes t p c) x ↔ b ∈ childrenOf t x ∨ (x = p ∧ b = c) := by
  rw [childrenOf_linkNodes]
  exact mem_childrenOf_addChildM t p c x b hp

theorem mem_prereqsOf_linkNodes (t : NodeTable) (p c x b : Nat)
    (hc : c ∈ tableIds t) :
    b ∈ prereqsOf (linkNodes t p c) x ↔ b ∈ prereqsOf t x ∨ (x = c ∧ b = p) := by
  rw [prereqsOf_linkNodes]
  have hc1 : c ∈ tableIds (addChildM t p c) := by
    rw [tableIds_addChildM]
    exact hc
  rw [mem_prereqsOf_addPrereqM _ c p x b hc1, prereqsOf_addChildM]

theorem consistentL_linkNodes (t : NodeTable) (p c : Nat)
    (hcons : ConsistentL t) (hp : p ∈ tableIds t) (hc : c ∈ tableIds t) :
    ConsistentL (linkNodes t p c) := by
  constructor
  · intro a b hb
    rw [mem_childrenOf_linkNodes t p c a b hp] at hb
    rw [mem_prereqsOf_linkNodes t p c b a hc]
    rcases hb with h | ⟨ha, hbc⟩
    · exact Or.inl (hcons.1 a b h)
    · exact Or.inr ⟨hbc, ha⟩
  · intro a b hb hbid
    rw [mem_prereqsOf_linkNodes t p c a b hc] at hb
    rw [tableIds_linkNodes] at hbid
    rw [mem_childrenOf_linkNodes t p c b a hp]
    rcases hb with h | ⟨ha, hbp⟩
    · exact Or.inl (hcons.2 a b h hbid)
    · exact Or.inr ⟨hbp, ha⟩

theorem convCandidates_mem (t : NodeTable) (avail : Int → List Nat)
    (reachable : List Nat) (nid : Nat) (node : TreeNode) (d : Int) (x : Nat)
    (h : x ∈ convCandidates t avail reachable nid node d) :
    x ∈ tableIds t ∧ isDescendant t x nid = false := by
  unfold convCandidates at h
  obtain ⟨-, hpred⟩ := List.mem_filter.mp h
  rcases hl : lookupNode t x with _ | p
  · rw [hl] at hpred
    exact absurd hpred (by simp)
  · rw [hl] at hpred
    refine ⟨(mem_tableIds_iff_lookup t x).mpr (by rw [hl]; rfl), ?_⟩
    have := Bool.and_elim_right hpred
    rw [Bool.not_eq_true'] at this
    exact this

theorem convFindFirst_mem (t : NodeTable) (avail : Int → List Nat)
    (reachable : List Nat) (nid : Nat) (node : TreeNode) :
    ∀ ds different, convFindFirst t avail reachable nid node ds = some different →
      different ≠ [] ∧
      ∀ x ∈ different, x ∈ tableIds t ∧ isDescendant t x nid = false := by
  intro ds
  induction ds with
  | nil =>
    intro different h
    exact absurd h (by simp [convFindFirst])
  | cons d rest ih =>
    intro different h
    rw [convFindFirst] at h
    by_cases hnil : convCandidates t avail reachable nid node d = []
    · rw [if_pos hnil] at h
      exact ih different h
    · rw [if_neg hnil] at h
      injection h with h
      subst h
      exact ⟨hnil, fun x hx => convCandidates_mem t avail reachable nid node d x hx⟩

theorem convLoop_preserves (rng : Rng) (avail : Int → List Nat)
    (reachable : List Nat) (nid : Nat) (maxPrereqs : Nat) :
    ∀ k t σ, ConsistentL t → NodupL t →
      ConsistentL (convLoop rng avail reachable nid maxPrereqs k (t, σ)).1 ∧
      NodupL (convLoop rng avail reachable nid maxPrereqs k (t, σ)).1 ∧
      tableIds (convLoop rng avail reachable nid maxPrereqs k (t, σ)).1 = tableIds t := by
  intro k
  induction k with
  | zero => exact fun t σ hc hn => ⟨hc, hn, rfl⟩
  | succ k ih =>
    intro t σ hc hn
    rw [convLoop]
    rcases hl : lookupNode t nid with _ | node
    · exact ⟨hc, hn, rfl⟩
    · dsimp only
      by_cases hcap : maxPrereqs ≤ node.prerequisites.length
      · rw [if_pos hcap]
        exact ⟨hc, hn, rfl⟩
      · rw [if_neg hcap]
        rcases hff : convFindFirst t avail reachable nid node (intRangeDown node.depth)
            with _ | different
        · exact ih t σ hc hn
        · dsimp only
          obtain ⟨hne, hall⟩ := convFindFirst_mem t avail reachable nid node _ _ hff
          have hnid : nid ∈ tableIds t :=
            (mem_tableIds_iff_lookup t nid).mpr (by rw [hl]; rfl)
          have hextra : pyChoice different (rng.rnat σ) ∈ tableIds t :=
            (hall _ (pyChoice_mem different (rng.rnat σ) hne)).1
          have hc2 := consistentL_addPair t nid (pyChoice different (rng.rnat σ)) hc hnid hextra
          have hn2 := nodupL_addPair t nid (pyChoice different (rng.rnat σ)) hn
          obtain ⟨ha, hb, hids⟩ := ih _ (σ + 1) hc2 hn2
          exact ⟨ha, hb, by rw [hids, tableIds_addPair]⟩

theorem maybeAddConvergence_preserves (cc : ℚ) (rng : Rng) (t : NodeTable) (nid : Nat)
    (avail : Int → List Nat) (rootId : Nat) (σ : Nat)
    (hc : ConsistentL t) (hn : NodupL t) :
    ConsistentL (maybeAddConvergence cc rng t nid avail rootId σ).1 ∧
    NodupL (maybeAddConvergence cc rng t nid avail rootId σ).1 ∧
    tableIds (maybeAddConvergence cc rng t nid avail rootId σ).1 = tableIds t := by
  unfold maybeAddConvergence
  rcases hl : lookupNode t nid with _ | node
  · exact ⟨hc, hn, rfl⟩
  · dsimp only
    split
    · exact ⟨hc, hn, rfl⟩
    · split
      · exact ⟨hc, hn, rfl⟩
      · exact convLoop_preserves rng avail _ nid _ _ t _ hc hn

theorem mem_insertSorted (le : Nat × Bool × Int → Nat × Bool × Int → Bool)
    (a x : Nat × Bool × Int) :
    ∀ l, x ∈ insertSorted le a l → x = a ∨ x ∈ l := by
  intro l
  induction l with
  | nil =>
    intro h
    rw [insertSorted, List.mem_singleton] at h
    exact Or.inl h
  | cons y ys ih =>
    intro h
    rw [insertSorted] at h
    by_cases hle : le a y
    · rw [if_pos hle] at h
      rcases List.mem_cons.mp h with h | h
      · exact Or.inl h
      · exact Or.inr h
    · rw [if_neg hle] at h
      rcases List.mem_cons.mp h with h | h
      · exact Or.inr (h ▸ List.mem_cons_self y ys)
      · rcases ih h with h | h
        · exact Or.inl h
        · exact Or.inr (List.mem_cons_of_mem y h)

theorem mem_pySortStable (le : Nat × Bool × Int → Nat × Bool × Int → Bool)
    (x : Nat × Bool × Int) :
    ∀ l, x ∈ pySortStable le l → x ∈ l := by
  intro l
  induction l with
  | nil => exact fun h => h
  | cons y ys ih =>
    intro h
    rw [pySortStable, List.foldr_cons] at h
    rcases mem_insertSorted le y x _ h with h | h
    · exact h ▸ List.mem_cons_self y ys
    · exact List.mem_cons_of_mem y (ih h)

theorem enforceCandidates_mem (t : NodeTable) (reachable : List Nat) (fid : Nat)
    (node : TreeNode) (c : Nat × Bool × Int)
    (h : c ∈ enforceCandidates t reachable fid node) :
    c.1 ∈ tableIds t ∧ c.1 ≠ fid ∧ isDescendant t c.1 fid = false := by
  unfold enforceCandidates at h
  obtain ⟨p, hp, he⟩ := List.mem_filterMap.mp h
  by_cases h1 : p.1 = fid
  · rw [if_pos h1] at he
    exact absurd he (by simp)
  · rw [if_neg h1] at he
    by_cases h2 : p.1 ∈ node.prerequisites
    · rw [if_pos h2] at he
      exact absurd he (by simp)
    · rw [if_neg h2] at he
      by_cases h3 : p.1 ∉ reachable
      · rw [if_pos h3] at he
        exact absurd he (by simp)
      · rw [if_neg h3] at he
        by_cases h4 : node.depth ≤ p.2.depth
        · rw [if_pos h4] at he
          exact absurd he (by simp)
        · rw [if_neg h4] at he
          by_cases h5 : isDescendant t p.1 fid
          · rw [if_pos h5] at he
            exact absurd he (by simp)
          · rw [if_neg h5] at he
            injection he with he
            subst he
            refine ⟨List.mem_map.mpr ⟨p, hp, rfl⟩, h1, ?_⟩
            simpa using h5

theorem foldl_addPair_preserves (fid : Nat) (cs : List (Nat × Bool × Int)) :
    ∀ t, ConsistentL t → NodupL t → fid ∈ tableIds t → (∀ c ∈ cs, c.1 ∈ tableIds t) →
      ConsistentL (cs.foldl (fun tt c => addChildM (addPrereqM tt fid c.1) c.1 fid) t) ∧
      NodupL (cs.foldl (fun tt c => addChildM (addPrereqM tt fid c.1) c.1 fid) t) ∧
      tableIds (cs.foldl (fun tt c => addChildM (addPrereqM tt fid c.1) c.1 fid) t) =
        tableIds t := by
  induction cs with
  | nil => exact fun t hc hn _ _ => ⟨hc, hn, rfl⟩
  | cons c cs ih =>
    intro t hc hn hfid hall
    rw [List.foldl_cons]
    have hcid : c.1 ∈ tableIds t := hall c (List.mem_cons_self c cs)
    have hc2 := consistentL_addPair t fid c.1 hc hfid hcid
    have hn2 := nodupL_addPair t fid c.1 hn
    have hids2 : tableIds (addChildM (addPrereqM t fid c.1) c.1 fid) = tableIds t :=
      tableIds_addPair t fid c.1
    obtain ⟨ha, hb, hi⟩ := ih _ hc2 hn2 (hids2 ▸ hfid)
      (fun d hd => hids2 ▸ hall d (List.mem_cons_of_mem c hd))
    exact ⟨ha, hb, by rw [hi, hids2]⟩

theorem enforceOne_preserves (reachable : List Nat) (rootId : Nat) (t : NodeTable)
    (fid : Nat) (hc : ConsistentL t) (hn : NodupL t) :
    ConsistentL (enforceOne reachable rootId t fid) ∧
    NodupL (enforceOne reachable rootId t fid) ∧
    tableIds (enforceOne reachable rootId t fid) = tableIds t := by
  unfold enforceOne
  by_cases h0 : fid = rootId
  · rw [if_pos h0]
    exact ⟨hc, hn, rfl⟩
  · rw [if_neg h0]
    rcases hl : lookupNode t fid with _ | node
    · exact ⟨hc, hn, rfl⟩
    · dsimp only
      by_cases h1 : tierToDepth node.tier < 3
      · rw [if_pos h1]
        exact ⟨hc, hn, rfl⟩
      · rw [if_neg h1]
        by_cases h2 : (if 4 ≤ tierToDepth node.tier then 3 else 2) ≤
            node.prerequisites.length
        · rw [if_pos h2]
          exact ⟨hc, hn, rfl⟩
        · rw [if_neg h2]
          apply foldl_addPair_preserves fid _ t hc hn
            ((mem_tableIds_iff_lookup t fid).mpr (by rw [hl]; rfl))
          intro c hcmem
          have hsorted := List.take_subset _ _ hcmem
          have hcand := mem_pySortStable enforceLe c _ hsorted
          exact (enforceCandidates_mem t reachable fid node c hcand).1

theorem foldl_enforceOne_preserves (reachable : List Nat) (rootId : Nat)
    (l : List Nat) :
    ∀ t, ConsistentL t → NodupL t →
      ConsistentL (l.foldl (enforceOne reachable rootId) t) ∧
      NodupL (l.foldl (enforceOne reachable rootId) t) ∧
      tableIds (l.foldl (enforceOne reachable rootId) t) = tableIds t := by
  induction l with
  | nil => exact fun t hc hn => ⟨hc, hn, rfl⟩
  | cons fid rest ih =>
    intro t hc hn
    rw [List.foldl_cons]
    obtain ⟨hc2, hn2, hi2⟩ := enforceOne_preserves reachable rootId t fid hc hn
    obtain ⟨ha, hb, hi⟩ := ih _ hc2 hn2
    exact ⟨ha, hb, by rw [hi, hi2]⟩

theorem enforceHighTierConvergence_preserves (t : NodeTable) (rootId : Nat)
    (hc : ConsistentL t) (hn : NodupL t) :
    ConsistentL (enforceHighTierConvergence t rootId) ∧
    NodupL (enforceHighTierConvergence t rootId) ∧
    tableIds (enforceHighTierConvergence t rootId) = tableIds t := by
  unfold enforceHighTierConvergence
  exact foldl_enforceOne_preserves _ rootId (tableIds t) t hc hn

theorem consistentL_updateNode_keep (t : NodeTable) (i : Nat) (f : TreeNode → TreeNode)
    (hfc : ∀ n, (f n).children = n.children)
    (hfp : ∀ n, (f n).prerequisites = n.prerequisites)
    (h : ConsistentL t) : ConsistentL (updateNode t i f) := by
  constructor
  · intro a b hb
    rw [childrenOf_updateNode_keepc t i a f hfc] at hb
    rw [prereqsOf_updateNode_keepp t i b f hfp]
    exact h.1 a b hb
  · intro a b hb hbid
    rw [prereqsOf_updateNode_keepp t i a f hfp] at hb
    rw [tableIds_updateNode] at hbid
    rw [childrenOf_updateNode_keepc t i b f hfc]
    exact h.2 a b hb hbid

theorem tableIds_eraseFold (fid : Nat) :
    ∀ (l : List Nat) (t : NodeTable),
      tableIds (l.foldl (fun tt bid =>
        updateNode tt bid (fun n => { n with children := n.children.erase fid })) t) =
      tableIds t := by
  intro l
  induction l with
  | nil => exact fun t => rfl
  | cons bid rest ih =>
    intro t
    rw [List.foldl_cons, ih, tableIds_updateNode]

theorem prereqsOf_eraseFold (fid x : Nat) :
    ∀ (l : List Nat) (t : NodeTable),
      prereqsOf (l.foldl (fun tt bid =>
        updateNode tt bid (fun n => { n with children := n.children.erase fid })) t) x =
      prereqsOf t x := by
  intro l
  induction l with
  | nil => exact fun t => rfl
  | cons bid rest ih =>
    intro t
    rw [List.foldl_cons, ih,
      prereqsOf_updateNode_keepp t bid x
        (fun n => { n with children := n.children.erase fid }) (fun n => rfl)]

theorem nodupL_eraseFold (fid : Nat) :
    ∀ (l : List Nat) (t : NodeTable), NodupL t →
      NodupL (l.foldl (fun tt bid =>
        updateNode tt bid (fun n => { n with children := n.children.erase fid })) t) := by
  intro l
  induction l with
  | nil => exact fun t h => h
  | cons bid rest ih =>
    intro t h
    rw [List.foldl_cons]
    exact ih _ (nodupL_updateNode t bid _ (fun n hn => hn.erase fid) (fun n hn => hn) h)

theorem mem_childrenOf_eraseStep (t : NodeTable) (bid fid x b : Nat)
    (hnd : (childrenOf t bid).Nodup) :
    b ∈ childrenOf (updateNode t bid
        (fun n => { n with children := n.children.erase fid })) x ↔
      b ∈ childrenOf t x ∧ ¬(x = bid ∧ b = fid) := by
  by_cases hx : x = bid
  · subst hx
    rw [childrenOf_updateNode_self]
    rcases hl : lookupNode t x with _ | n
    · have h0 : childrenOf t x = [] := by
        unfold childrenOf
        rw [hl]
      rw [h0]
      simp
    · show b ∈ n.children.erase fid ↔ _
      have hch : childrenOf t x = n.children := by
        unfold childrenOf
        rw [hl]
      rw [hch] at hnd
      rw [hch, hnd.mem_erase_iff]
      constructor
      · intro h
        exact ⟨h.2, fun hcon => h.1 hcon.2⟩
      · intro h
        refine ⟨fun hbf => h.2 ⟨rfl, hbf⟩, h.1⟩
  · rw [childrenOf_updateNode_ne t bid x _ hx]
    constructor
    · intro h
      exact ⟨h, fun hcon => hx hcon.1⟩
    · exact fun h => h.1

theorem mem_childrenOf_eraseFold (fid x b : Nat) :
    ∀ (l : List Nat) (t : NodeTable), NodupL t →
      (b ∈ childrenOf (l.foldl (fun tt bid =>
          updateNode tt bid (fun n => { n with children := n.children.erase fid })) t) x ↔
        b ∈ childrenOf t x ∧ ¬(x ∈ l ∧ b = fid)) := by
  intro l
  induction l with
  | nil =>
    intro t _
    simp
  | cons bid rest ih =>
    intro t hn
    rw [List.foldl_cons]
    have hstep : NodupL (updateNode t bid
        (fun n => { n with children := n.children.erase fid })) :=
      nodupL_updateNode t bid _ (fun n hn => hn.erase fid) (fun n hn => hn) hn
    rw [ih _ hstep, mem_childrenOf_eraseStep t bid fid x b (hn.2 bid).1]
    constructor
    · intro h
      refine ⟨h.1.1, fun hcon => ?_⟩
      rcases List.mem_cons.mp hcon.1 with h1 | h1
      · exact h.1.2 ⟨h1, hcon.2⟩
      · exact h.2 ⟨h1, hcon.2⟩
    · intro h
      refine ⟨⟨h.1, fun hcon => h.2 ⟨hcon.1 ▸ List.mem_cons_self bid rest, hcon.2⟩⟩,
        fun hcon => h.2 ⟨List.mem_cons_of_mem bid hcon.1, hcon.2⟩⟩

theorem length_childrenOf_eraseFold (fid x : Nat) :
    ∀ (l : List Nat) (t : NodeTable),
      (childrenOf (l.foldl (fun tt bid =>
        updateNode tt bid (fun n => { n with children := n.children.erase fid })) t) x).length ≤
      (childrenOf t x).length := by
  intro l
  induction l with
  | nil => exact fun t => le_refl _
  | cons bid rest ih =>
    intro t
    rw [List.foldl_cons]
    refine le_trans (ih _) ?_
    by_cases hx : x = bid
    · subst hx
      rw [childrenOf_updateNode_self]
      rcases hl : lookupNode t x with _ | n
      · simp
      · show (n.children.erase fid).length ≤ _
        have hch : childrenOf t x = n.children := by
          unfold childrenOf
          rw [hl]
        rw [hch]
        exact (List.erase_sublist fid n.children).length_le
    · rw [childrenOf_updateNode_ne t bid x _ hx]

theorem scanBestStep_props (t : NodeTable) (maxC fid : Nat) (best : Option Nat)
    (uid b : Nat) (h : scanBestStep t maxC fid best uid = some b) :
    best = some b ∨ (b = uid ∧ b ≠ fid ∧
      ∃ bn, lookupNode t b = some bn ∧ bn.children.length < maxC) := by
  unfold scanBestStep at h
  by_cases h1 : uid = fid
  · rw [if_pos h1] at h
    exact Or.inl h
  · rw [if_neg h1] at h
    rcases hl : lookupNode t uid with _ | cand
    · rw [hl] at h
      exact Or.inl h
    · rw [hl] at h
      dsimp only at h
      by_cases h2 : cand.children.length < maxC
      · rw [if_pos h2] at h
        rcases best with _ | b0
        · injection h with h
          exact Or.inr ⟨h.symm, h ▸ h1, cand, h ▸ hl, h2⟩
        · dsimp only at h
          rcases hl0 : lookupNode t b0 with _ | bn
          · rw [hl0] at h
            exact Or.inl h
          · rw [hl0] at h
            dsimp only at h
            by_cases h3 : cand.depth < bn.depth
            · rw [if_pos h3] at h
              injection h with h
              exact Or.inr ⟨h.symm, h ▸ h1, cand, h ▸ hl, h2⟩
            · rw [if_neg h3] at h
              exact Or.inl h
      · rw [if_neg h2] at h
        exact Or.inl h

theorem scanBest_foldl_props (t : NodeTable) (maxC fid : Nat) :
    ∀ (l : List Nat) (best : Option Nat) (b : Nat),
      l.foldl (scanBestStep t maxC fid) best = some b →
      best = some b ∨ (b ∈ l ∧ b ≠ fid ∧
        ∃ bn, lookupNode t b = some bn ∧ bn.children.length < maxC) := by
  intro l
  induction l with
  | nil => exact fun best b h => Or.inl h
  | cons uid rest ih =>
    intro best b h
    rw [List.foldl_cons] at h
    rcases ih _ b h with h1 | h1
    · rcases scanBestStep_props t maxC fid best uid b h1 with h2 | h2
      · exact Or.inl h2
      · exact Or.inr ⟨h2.1 ▸ List.mem_cons_self uid rest, h2.2⟩
    · exact Or.inr ⟨List.mem_cons_of_mem uid h1.1, h1.2⟩

theorem scanBest_some (t : NodeTable) (maxC fid : Nat) (order : List Nat) (bp : Nat)
    (h : scanBest t maxC fid order = some bp) :
    bp ∈ order ∧ bp ≠ fid ∧
      ∃ bn, lookupNode t bp = some bn ∧ bn.children.length < maxC := by
  rcases scanBest_foldl_props t maxC fid order none bp h with h1 | h1
  · exact absurd h1 (by simp)
  · exact h1

theorem fixOne_branches (scanOrd : List Nat → List Nat) (maxC : Nat)
    (unlockable : List Nat) (t : NodeTable) (flag : Bool) (fid : Nat) :
    fixOne scanOrd maxC unlockable (t, flag) fid = (t, flag) ∨
    ∃ node bp, lookupNode t fid = some node ∧
      ¬ node.prerequisites.filter (fun p => decide (p ∉ unlockable)) = [] ∧
      scanBest t maxC fid (scanOrd unlockable) = some bp := by
  unfold fixOne
  dsimp only
  rcases hl : lookupNode t fid with _ | node
  · exact Or.inl rfl
  · dsimp only
    by_cases hbl : node.prerequisites.filter (fun p => decide (p ∉ unlockable)) = []
    · rw [if_pos hbl]
      exact Or.inl rfl
    · rw [if_neg hbl]
      rcases hsb : scanBest t maxC fid (scanOrd unlockable) with _ | bp
      · exact Or.inl rfl
      · exact Or.inr ⟨node, bp, rfl, hbl, rfl⟩

theorem fixOne_eq (scanOrd : List Nat → List Nat) (maxC : Nat) (unlockable : List Nat)
    (t : NodeTable) (flag : Bool) (fid : Nat) (node : TreeNode) (bp : Nat)
    (hl : lookupNode t fid = some node)
    (hbl : ¬ node.prerequisites.filter (fun p => decide (p ∉ unlockable)) = [])
    (hsb : scanBest t maxC fid (scanOrd unlockable) = some bp) :
    fixOne scanOrd maxC unlockable (t, flag) fid =
      (let blocking := node.prerequisites.filter (fun p => decide (p ∉ unlockable))
       let t1 := blocking.foldl (fun tt bid =>
         updateNode tt bid (fun n => { n with children := n.children.erase fid })) t
       let t2 := updateNode t1 fid (fun n =>
         { n with prerequisites :=
             node.prerequisites.filter (fun p => decide (p ∉ blocking)) })
       let t4 := addChildM (addPrereqM t2 fid bp) bp fid
       (match lookupNode t4 bp with
        | some pn => updateNode t4 fid (fun n => { n with depth := pn.depth + 1 })
        | none => t4, true)) := by
  unfold fixOne
  dsimp only
  rw [hl]
  dsimp only
  rw [if_neg hbl, hsb]
  rfl

theorem fixOne_eq_stages (scanOrd : List Nat → List Nat) (maxC : Nat)
    (unlockable : List Nat) (t : NodeTable) (flag : Bool) (fid : Nat)
    (node : TreeNode) (bp : Nat)
    (hl : lookupNode t fid = some node)
    (hbl : ¬ node.prerequisites.filter (fun p => decide (p ∉ unlockable)) = [])
    (hsb : scanBest t maxC fid (scanOrd unlockable) = some bp) :
    fixOne scanOrd maxC unlockable (t, flag) fid =
      (setDepthFrom
        (addChildM
          (addPrereqM
            (setPrereqs
              (eraseChildAll t fid
                (node.prerequisites.filter (fun p => decide (p ∉ unlockable))))
              fid
              (node.prerequisites.filter (fun p =>
                decide (p ∉ node.prerequisites.filter (fun q => decide (q ∉ unlockable))))))
            fid bp)
          bp fid)
        fid bp, true) := by
  unfold fixOne
  dsimp only
  rw [hl]
  dsimp only
  rw [if_neg hbl, hsb]
  rfl

theorem tableIds_eraseChildAll (t : NodeTable) (fid : Nat) (blocking : List Nat) :
    tableIds (eraseChildAll t fid blocking) = tableIds t :=
  tableIds_eraseFold fid blocking t

theorem prereqsOf_eraseChildAll (t : NodeTable) (fid : Nat) (blocking : List Nat)
    (x : Nat) : prereqsOf (eraseChildAll t fid blocking) x = prereqsOf t x :=
  prereqsOf_eraseFold fid x blocking t

theorem nodupL_eraseChildAll (t : NodeTable) (fid : Nat) (blocking : List Nat)
    (h : NodupL t) : NodupL (eraseChildAll t fid blocking) :=
  nodupL_eraseFold fid blocking t h

theorem mem_childrenOf_eraseChildAll (t : NodeTable) (fid : Nat) (blocking : List Nat)
    (x b : Nat) (h : NodupL t) :
    b ∈ childrenOf (eraseChildAll t fid blocking) x ↔
      b ∈ childrenOf t x ∧ ¬(x ∈ blocking ∧ b = fid) :=
  mem_childrenOf_eraseFold fid x b blocking t h

theorem length_childrenOf_eraseChildAll (t : NodeTable) (fid : Nat)
    (blocking : List Nat) (x : Nat) :
    (childrenOf (eraseChildAll t fid blocking) x).length ≤ (childrenOf t x).length :=
  length_childrenOf_eraseFold fid x blocking t

theorem tableIds_setPrereqs (t : NodeTable) (fid : Nat) (ps : List Nat) :
    tableIds (setPrereqs t fid ps) = tableIds t :=
  tableIds_updateNode t fid _

theorem childrenOf_setPrereqs (t : NodeTable) (fid : Nat) (ps : List Nat) (x : Nat) :
    childrenOf (setPrereqs t fid ps) x = childrenOf t x :=
  childrenOf_updateNode_keepc t fid x _ (fun n => rfl)

theorem prereqsOf_setPrereqs_ne (t : NodeTable) (fid : Nat) (ps : List Nat) (x : Nat)
    (h : x ≠ fid) : prereqsOf (setPrereqs t fid ps) x = prereqsOf t x :=
  prereqsOf_updateNode_ne t fid x _ h

theorem prereqsOf_setPrereqs_self (t : NodeTable) (fid : Nat) (ps : List Nat)
    (n : TreeNode) (hl : lookupNode t fid = some n) :
    prereqsOf (setPrereqs t fid ps) fid = ps := by
  unfold setPrereqs
  rw [prereqsOf_updateNode_self, hl]

theorem nodupL_setPrereqs (t : NodeTable) (fid : Nat) (ps : List Nat)
    (hps : ps.Nodup) (h : NodupL t) : NodupL (setPrereqs t fid ps) :=
  nodupL_updateNode t fid _ (fun n hn => hn) (fun n _ => hps) h

theorem childrenOf_setDepthFrom (t : NodeTable) (fid bp x : Nat) :
    childrenOf (setDepthFrom t fid bp) x = childrenOf t x := by
  unfold setDepthFrom
  rcases hl : lookupNode t bp with _ | pn
  · rfl
  · exact childrenOf_updateNode_keepc t fid x
      (fun n => { n with depth := pn.depth + 1 }) (fun n => rfl)

theorem prereqsOf_setDepthFrom (t : NodeTable) (fid bp x : Nat) :
    prereqsOf (setDepthFrom t fid bp) x = prereqsOf t x := by
  unfold setDepthFrom
  rcases hl : lookupNode t bp with _ | pn
  · rfl
  · exact prereqsOf_updateNode_keepp t fid x
      (fun n => { n with depth := pn.depth + 1 }) (fun n => rfl)

theorem tableIds_setDepthFrom (t : NodeTable) (fid bp : Nat) :
    tableIds (setDepthFrom t fid bp) = tableIds t := by
  unfold setDepthFrom
  rcases hl : lookupNode t bp with _ | pn
  · rfl
  · exact tableIds_updateNode t fid _

theorem consistentL_setDepthFrom (t : NodeTable) (fid bp : Nat) (h : ConsistentL t) :
    ConsistentL (setDepthFrom t fid bp) := by
  unfold setDepthFrom
  rcases hl : lookupNode t bp with _ | pn
  · exact h
  · exact consistentL_updateNode_keep t fid _ (fun n => rfl) (fun n => rfl) h

theorem nodupL_setDepthFrom (t : NodeTable) (fid bp : Nat) (h : NodupL t) :
    NodupL (setDepthFrom t fid bp) := by
  unfold setDepthFrom
  rcases hl : lookupNode t bp with _ | pn
  · exact h
  · exact nodupL_updateNode t fid _ (fun n hn => hn) (fun n hn => hn) h

theorem unlink_props (t : NodeTable) (fid : Nat) (node : TreeNode) (blocking : List Nat)
    (hl : lookupNode t fid = some node) (hc : ConsistentL t) (hn : NodupL t) :
    ConsistentL (setPrereqs (eraseChildAll t fid blocking) fid
      (node.prerequisites.filter (fun p => decide (p ∉ blocking)))) ∧
    NodupL (setPrereqs (eraseChildAll t fid blocking) fid
      (node.prerequisites.filter (fun p => decide (p ∉ blocking)))) ∧
    tableIds (setPrereqs (eraseChildAll t fid blocking) fid
      (node.prerequisites.filter (fun p => decide (p ∉ blocking)))) = tableIds t ∧
    (∀ x, x ≠ fid → prereqsOf (setPrereqs (eraseChildAll t fid blocking) fid
      (node.prerequisites.filter (fun p => decide (p ∉ blocking)))) x = prereqsOf t x) ∧
    (∀ x b, b ∈ childrenOf (setPrereqs (eraseChildAll t fid blocking) fid
      (node.prerequisites.filter (fun p => decide (p ∉ blocking)))) x ↔
        b ∈ childrenOf t x ∧ ¬(x ∈ blocking ∧ b = fid)) ∧
    (∀ x b, b ∈ prereqsOf (setPrereqs (eraseChildAll t fid blocking) fid
      (node.prerequisites.filter (fun p => decide (p ∉ blocking)))) x ↔
        b ∈ prereqsOf t x ∧ ¬(x = fid ∧ b ∈ blocking)) := by
  have hfid : fid ∈ tableIds t := (mem_tableIds_iff_lookup t fid).mpr (by rw [hl]; rfl)
  have hprT : prereqsOf t fid = node.prerequisites := by
    unfold prereqsOf
    rw [hl]
  have hprs_nd : node.prerequisites.Nodup := hprT ▸ (hn.2 fid).2
  obtain ⟨n1, hn1l⟩ : ∃ n1, lookupNode (eraseChildAll t fid blocking) fid = some n1 := by
    have hm : fid ∈ tableIds (eraseChildAll t fid blocking) := by
      rw [tableIds_eraseChildAll]
      exact hfid
    have hs := (mem_tableIds_iff_lookup _ fid).mp hm
    rcases hlk : lookupNode (eraseChildAll t fid blocking) fid with _ | n1
    · rw [hlk] at hs
      exact absurd hs (by simp)
    · exact ⟨n1, rfl⟩
  have hids2 : tableIds (setPrereqs (eraseChildAll t fid blocking) fid
      (node.prerequisites.filter (fun p => decide (p ∉ blocking)))) = tableIds t := by
    rw [tableIds_setPrereqs, tableIds_eraseChildAll]
  have hch2mem : ∀ x b, b ∈ childrenOf (setPrereqs (eraseChildAll t fid blocking) fid
      (node.prerequisites.filter (fun p => decide (p ∉ blocking)))) x ↔
        b ∈ childrenOf t x ∧ ¬(x ∈ blocking ∧ b = fid) := by
    intro x b
    rw [childrenOf_setPrereqs]
    exact mem_childrenOf_eraseChildAll t fid blocking x b hn
  have hpr2ne : ∀ x, x ≠ fid → prereqsOf (setPrereqs (eraseChildAll t fid blocking) fid
      (node.prerequisites.filter (fun p => decide (p ∉ blocking)))) x = prereqsOf t x := by
    intro x hx
    rw [prereqsOf_setPrereqs_ne _ _ _ _ hx, prereqsOf_eraseChildAll]
  have hpr2self : prereqsOf (setPrereqs (eraseChildAll t fid blocking) fid
      (node.prerequisites.filter (fun p => decide (p ∉ blocking)))) fid =
        node.prerequisites.filter (fun p => decide (p ∉ blocking)) :=
    prereqsOf_setPrereqs_self _ fid _ n1 hn1l
  have hpr2mem : ∀ x b, b ∈ prereqsOf (setPrereqs (eraseChildAll t fid blocking) fid
      (node.prerequisites.filter (fun p => decide (p ∉ blocking)))) x ↔
        b ∈ prereqsOf t x ∧ ¬(x = fid ∧ b ∈ blocking) := by
    intro x b
    by_cases hx : x = fid
    · subst hx
      rw [hpr2self, List.mem_filter, hprT]
      constructor
      · intro h
        exact ⟨h.1, fun hcon => (of_decide_eq_true h.2) hcon.2⟩
      · intro h
        exact ⟨h.1, decide_eq_true (fun hb => h.2 ⟨rfl, hb⟩)⟩
    · rw [hpr2ne x hx]
      constructor
      · intro h
        exact ⟨h, fun hcon => hx hcon.1⟩
      · exact fun h => h.1
  refine ⟨?_, ?_, hids2, hpr2ne, hch2mem, hpr2mem⟩
  · constructor
    · intro a b hb
      rw [hch2mem a b] at hb
      rw [hpr2mem b a]
      exact ⟨hc.1 a b hb.1, fun hcon => hb.2 ⟨hcon.2, hcon.1⟩⟩
    · intro a b hb hbid
      rw [hpr2mem a b] at hb
      rw [hids2] at hbid
      rw [hch2mem b a]
      exact ⟨hc.2 a b hb.1 hbid, fun hcon => hb.2 ⟨hcon.2, hcon.1⟩⟩
  · exact nodupL_setPrereqs _ fid _ (hprs_nd.filter _)
      (nodupL_eraseChildAll t fid blocking hn)

theorem fixOne_preserves (scanOrd : List Nat → List Nat) (maxC : Nat)
    (unlockable : List Nat) (t : NodeTable) (flag : Bool) (fid : Nat)
    (hc : ConsistentL t) (hn : NodupL t) :
    ConsistentL (fixOne scanOrd maxC unlockable (t, flag) fid).1 ∧
    NodupL (fixOne scanOrd maxC unlockable (t, flag) fid).1 ∧
    tableIds (fixOne scanOrd maxC unlockable (t, flag) fid).1 = tableIds t ∧
    (∀ x, x ≠ fid →
      prereqsOf (fixOne scanOrd maxC unlockable (t, flag) fid).1 x = prereqsOf t x) := by
  rcases fixOne_branches scanOrd maxC unlockable t flag fid with heq | ⟨node, bp, hl, hbl, hsb⟩
  · rw [heq]
    exact ⟨hc, hn, rfl, fun x _ => rfl⟩
  · rw [fixOne_eq_stages scanOrd maxC unlockable t flag fid node bp hl hbl hsb]
    dsimp only
    obtain ⟨hc2, hn2, hids2, hpr2ne, hch2mem, hpr2mem⟩ :=
      unlink_props t fid node
        (node.prerequisites.filter (fun q => decide (q ∉ unlockable))) hl hc hn
    have hfid : fid ∈ tableIds t := (mem_tableIds_iff_lookup t fid).mpr (by rw [hl]; rfl)
    obtain ⟨-, -, bn, hbn, -⟩ := scanBest_some t maxC fid (scanOrd unlockable) bp hsb
    have hbp : bp ∈ tableIds t := (mem_tableIds_iff_lookup t bp).mpr (by rw [hbn]; rfl)
    have hc4 := consistentL_addPair _ fid bp hc2 (hids2 ▸ hfid) (hids2 ▸ hbp)
    have hn4 := nodupL_addPair _ fid bp hn2
    have hids4 := (tableIds_addPair _ fid bp).trans hids2
    refine ⟨consistentL_setDepthFrom _ fid bp hc4, nodupL_setDepthFrom _ fid bp hn4,
      (tableIds_setDepthFrom _ fid bp).trans hids4, ?_⟩
    intro x hx
    rw [prereqsOf_setDepthFrom, prereqsOf_addChildM,
      prereqsOf_addPrereqM_ne _ _ _ _ hx, hpr2ne x hx]

theorem aggOne_eq_stages (rootId : Nat) (t : NodeTable) (fid : Nat) (node : TreeNode)
    (hne : ¬ fid = rootId) (hl : lookupNode t fid = some node) :
    aggOne rootId t fid =
      updateNode
        (addChildM
          (setPrereqs (eraseChildAll t fid node.prerequisites) fid [rootId])
          rootId fid)
        fid (fun n => { n with depth := 1 }) := by
  unfold aggOne
  rw [if_neg hne, hl]
  rfl

theorem aggOne_cases (rootId : Nat) (t : NodeTable) (fid : Nat) :
    (fid = rootId ∧ aggOne rootId t fid = t) ∨
    (lookupNode t fid = none ∧ aggOne rootId t fid = t) ∨
    (∃ node, ¬ fid = rootId ∧ lookupNode t fid = some node) := by
  by_cases hne : fid = rootId
  · refine Or.inl ⟨hne, ?_⟩
    unfold aggOne
    rw [if_pos hne]
  · rcases hl : lookupNode t fid with _ | node
    · refine Or.inr (Or.inl ⟨rfl, ?_⟩)
      unfold aggOne
      rw [if_neg hne, hl]
    · exact Or.inr (Or.inr ⟨node, hne, rfl⟩)

theorem aggOne_preserves (rootId : Nat) (t : NodeTable) (fid : Nat)
    (hrootids : rootId ∈ tableIds t) (hc : ConsistentL t) (hn : NodupL t) :
    ConsistentL (aggOne rootId t fid) ∧ NodupL (aggOne rootId t fid) ∧
    tableIds (aggOne rootId t fid) = tableIds t ∧
    (∀ x, x ≠ fid → prereqsOf (aggOne rootId t fid) x = prereqsOf t x) ∧
    (∀ a b, b ∈ childrenOf (aggOne rootId t fid) a →
      b ∈ childrenOf t a ∨ (a = rootId ∧ b = fid)) ∧
    (fid ≠ rootId → ∀ node0, lookupNode t fid = some node0 →
      prereqsOf (aggOne rootId t fid) fid = [rootId]) := by
  rcases aggOne_cases rootId t fid with ⟨hfr, heq⟩ | ⟨hl0, heq⟩ | ⟨node, hne, hl⟩
  · rw [heq]
    exact ⟨hc, hn, rfl, fun x _ => rfl, fun a b hb => Or.inl hb,
      fun hne _ _ => absurd hfr hne⟩
  · rw [heq]
    refine ⟨hc, hn, rfl, fun x _ => rfl, fun a b hb => Or.inl hb, ?_⟩
    intro _ node0 hlk
    rw [hl0] at hlk
    exact absurd hlk (by simp)
  · rw [aggOne_eq_stages rootId t fid node hne hl]
    have hfid : fid ∈ tableIds t := (mem_tableIds_iff_lookup t fid).mpr (by rw [hl]; rfl)
    have hprT : prereqsOf t fid = node.prerequisites := by
      unfold prereqsOf
      rw [hl]
    obtain ⟨n1, hn1l⟩ :
        ∃ n1, lookupNode (eraseChildAll t fid node.prerequisites) fid = some n1 := by
      have hm : fid ∈ tableIds (eraseChildAll t fid node.prerequisites) := by
        rw [tableIds_eraseChildAll]
        exact hfid
      have hs := (mem_tableIds_iff_lookup _ fid).mp hm
      rcases hlk : lookupNode (eraseChildAll t fid node.prerequisites) fid with _ | n1
      · rw [hlk] at hs
        exact absurd hs (by simp)
      · exact ⟨n1, rfl⟩
    have hids2 : tableIds (setPrereqs (eraseChildAll t fid node.prerequisites) fid
        [rootId]) = tableIds t := by
      rw [tableIds_setPrereqs, tableIds_eraseChildAll]
    have hch2mem : ∀ x b, b ∈ childrenOf (setPrereqs
        (eraseChildAll t fid node.prerequisites) fid [rootId]) x ↔
          b ∈ childrenOf t x ∧ ¬(x ∈ node.prerequisites ∧ b = fid) := by
      intro x b
      rw [childrenOf_setPrereqs]
      exact mem_childrenOf_eraseChildAll t fid node.prerequisites x b hn
    have hpr2self : prereqsOf (setPrereqs (eraseChildAll t fid node.prerequisites) fid
        [rootId]) fid = [rootId] :=
      prereqsOf_setPrereqs_self _ fid _ n1 hn1l
    have hpr2ne : ∀ x, x ≠ fid → prereqsOf (setPrereqs
        (eraseChildAll t fid node.prerequisites) fid [rootId]) x = prereqsOf t x := by
      intro x hx
      rw [prereqsOf_setPrereqs_ne _ _ _ _ hx, prereqsOf_eraseChildAll]
    have hpr2mem : ∀ x b, b ∈ prereqsOf (setPrereqs
        (eraseChildAll t fid node.prerequisites) fid [rootId]) x ↔
          (b ∈ prereqsOf t x ∧ x ≠ fid) ∨ (x = fid ∧ b = rootId) := by
      intro x b
      by_cases hx : x = fid
      · subst hx
        rw [hpr2self, List.mem_singleton]
        constructor
        · exact fun h => Or.inr ⟨rfl, h⟩
        · intro h
          rcases h with ⟨-, h⟩ | ⟨-, h⟩
          · exact absurd rfl h
          · exact h
      · rw [hpr2ne x hx]
        constructor
        · exact fun h => Or.inl ⟨h, hx⟩
        · intro h
          rcases h with ⟨h, -⟩ | ⟨h, -⟩
          · exact h
          · exact absurd h hx
    have hn2 : NodupL (setPrereqs (eraseChildAll t fid node.prerequisites) fid
        [rootId]) :=
      nodupL_setPrereqs _ fid _ (List.nodup_singleton rootId)
        (nodupL_eraseChildAll t fid node.prerequisites hn)
    have hroot2 : rootId ∈ tableIds (setPrereqs
        (eraseChildAll t fid node.prerequisites) fid [rootId]) := hids2 ▸ hrootids
    have hch3mem : ∀ x b, b ∈ childrenOf (addChildM (setPrereqs
        (eraseChildAll t fid node.prerequisites) fid [rootId]) rootId fid) x ↔
          (b ∈ childrenOf t x ∧ ¬(x ∈ node.prerequisites ∧ b = fid)) ∨
            (x = rootId ∧ b = fid) := by
      intro x b
      rw [mem_childrenOf_addChildM _ rootId fid x b hroot2, hch2mem x b]
    have hpr3 : ∀ x, prereqsOf (addChildM (setPrereqs
        (eraseChildAll t fid node.prerequisites) fid [rootId]) rootId fid) x =
          prereqsOf (setPrereqs (eraseChildAll t fid node.prerequisites) fid
            [rootId]) x := fun x => prereqsOf_addChildM _ rootId fid x
    have hids3 : tableIds (addChildM (setPrereqs
        (eraseChildAll t fid node.prerequisites) fid [rootId]) rootId fid) =
          tableIds t := by
      rw [tableIds_addChildM, hids2]
    have hc3 : ConsistentL (addChildM (setPrereqs
        (eraseChildAll t fid node.prerequisites) fid [rootId]) rootId fid) := by
      constructor
      · intro a b hb
        rw [hch3mem a b] at hb
        rw [hpr3, hpr2mem b a]
        rcases hb with ⟨hbt, hneg⟩ | ⟨haroot, hbfid⟩
        · have hpr := hc.1 a b hbt
          by_cases hbfid : b = fid
          · exfalso
            apply hneg
            refine ⟨?_, hbfid⟩
            rw [← hprT, ← hbfid]
            exact hpr
          · exact Or.inl ⟨hpr, hbfid⟩
        · exact Or.inr ⟨hbfid, haroot⟩
      · intro a b hb hbid
        rw [hpr3, hpr2mem a b] at hb
        rw [hids3] at hbid
        rw [hch3mem b a]
        rcases hb with ⟨hbt, hafid⟩ | ⟨hafid, hbroot⟩
        · exact Or.inl ⟨hc.2 a b hbt hbid, fun hcon => hafid hcon.2⟩
        · exact Or.inr ⟨hbroot, hafid⟩
    have hn3 : NodupL (addChildM (setPrereqs
        (eraseChildAll t fid node.prerequisites) fid [rootId]) rootId fid) :=
      nodupL_addChildM _ rootId fid hn2
    refine ⟨consistentL_updateNode_keep _ fid _ (fun n => rfl) (fun n => rfl) hc3,
      nodupL_updateNode _ fid _ (fun n h => h) (fun n h => h) hn3,
      by rw [tableIds_updateNode, hids3], ?_, ?_, ?_⟩
    · intro x hx
      rw [prereqsOf_updateNode_keepp _ fid x (fun n => { n with depth := 1 })
        (fun n => rfl), hpr3, hpr2ne x hx]
    · intro a b hb
      rw [childrenOf_updateNode_keepc _ fid a (fun n => { n with depth := 1 })
        (fun n => rfl), hch3mem a b] at hb
      rcases hb with ⟨hbt, -⟩ | hb
      · exact Or.inl hbt
      · exact Or.inr hb
    · intro _ node0 _
      rw [prereqsOf_updateNode_keepp _ fid fid (fun n => { n with depth := 1 })
        (fun n => rfl), hpr3, hpr2self]

theorem foldl_fixOne_preserves (scanOrd : List Nat → List Nat) (maxC : Nat)
    (unlockable : List Nat) :
    ∀ (l : List Nat) (acc : NodeTable × Bool), ConsistentL acc.1 → NodupL acc.1 →
      ConsistentL (l.foldl (fixOne scanOrd maxC unlockable) acc).1 ∧
      NodupL (l.foldl (fixOne scanOrd maxC unlockable) acc).1 ∧
      tableIds (l.foldl (fixOne scanOrd maxC unlockable) acc).1 = tableIds acc.1 := by
  intro l
  induction l with
  | nil => exact fun acc hc hn => ⟨hc, hn, rfl⟩
  | cons fid rest ih =>
    intro acc hc hn
    rw [List.foldl_cons]
    obtain ⟨t, flag⟩ := acc
    obtain ⟨h1, h2, h3, -⟩ := fixOne_preserves scanOrd maxC unlockable t flag fid hc hn
    obtain ⟨ha, hb, hi⟩ := ih (fixOne scanOrd maxC unlockable (t, flag) fid) h1 h2
    exact ⟨ha, hb, hi.trans h3⟩

theorem foldl_aggOne_preserves (rootId : Nat) :
    ∀ (l : List Nat) (t : NodeTable), rootId ∈ tableIds t →
      ConsistentL t → NodupL t →
      ConsistentL (l.foldl (aggOne rootId) t) ∧
      NodupL (l.foldl (aggOne rootId) t) ∧
      tableIds (l.foldl (aggOne rootId) t) = tableIds t := by
  intro l
  induction l with
  | nil => exact fun t _ hc hn => ⟨hc, hn, rfl⟩
  | cons fid rest ih =>
    intro t hroot hc hn
    rw [List.foldl_cons]
    obtain ⟨h1, h2, h3, -, -, -⟩ := aggOne_preserves rootId t fid hroot hc hn
    obtain ⟨ha, hb, hi⟩ := ih (aggOne rootId t fid) (h3 ▸ hroot) h1 h2
    exact ⟨ha, hb, hi.trans h3⟩

theorem repairLoop_preserves (scanOrd : List Nat → List Nat) (maxC rootId : Nat) :
    ∀ (k : Nat) (t : NodeTable), rootId ∈ tableIds t → ConsistentL t → NodupL t →
      ConsistentL (repairLoop scanOrd maxC rootId k t).1 ∧
      NodupL (repairLoop scanOrd maxC rootId k t).1 ∧
      tableIds (repairLoop scanOrd maxC rootId k t).1 = tableIds t := by
  intro k
  induction k with
  | zero => exact fun t _ hc hn => ⟨hc, hn, rfl⟩
  | succ k ih =>
    intro t hroot hc hn
    rw [repairLoop]
    dsimp only
    split
    · exact ⟨hc, hn, rfl⟩
    · split
      · obtain ⟨hc1, hn1, hi1⟩ := foldl_fixOne_preserves scanOrd maxC
          (simulateUnlocks t rootId)
          ((tableIds t).filter (fun fid => decide (fid ∉ simulateUnlocks t rootId)))
          (t, false) hc hn
        obtain ⟨ha, hb, hi⟩ := ih _ (by rw [hi1]; exact hroot) hc1 hn1
        exact ⟨ha, hb, hi.trans hi1⟩
      · obtain ⟨hc1, hn1, hi1⟩ := foldl_fixOne_preserves scanOrd maxC
          (simulateUnlocks t rootId)
          ((tableIds t).filter (fun fid => decide (fid ∉ simulateUnlocks t rootId)))
          (t, false) hc hn
        obtain ⟨ha, hb, hi⟩ := foldl_aggOne_preserves rootId
          ((tableIds t).filter (fun fid => decide (fid ∉ simulateUnlocks t rootId)))
          _ (by rw [hi1]; exact hroot) hc1 hn1
        exact ⟨ha, hb, hi.trans hi1⟩

theorem ensureAllReachable_preserves (scanOrd : List Nat → List Nat)
    (maxC : Nat) (t : NodeTable) (rootId : Nat)
    (hroot : rootId ∈ tableIds t) (hc : ConsistentL t) (hn : NodupL t) :
    ConsistentL (ensureAllReachable scanOrd maxC t rootId).1 ∧
    NodupL (ensureAllReachable scanOrd maxC t rootId).1 ∧
    tableIds (ensureAllReachable scanOrd maxC t rootId).1 = tableIds t :=
  repairLoop_preserves scanOrd maxC rootId 10 t hroot hc hn

/-- Claim C4: bidirectional prerequisite/children consistency (for all table
nodes X and Y, `Y ∈ X.children ↔ X ∈ Y.prerequisites`, dangling prerequisite
ids that name no table node exempted) is an invariant of every node-table
mutation of the build: `link_nodes` linking, `_maybe_add_convergence`,
`_enforce_high_tier_convergence`, and `_ensure_all_reachable` with its edge
removals, replacements, and aggressive root attachment; the no-duplicate
invariant of the id/edge sets and the id set itself are preserved as well. -/
theorem claim_c4_bidirectional_consistency (t : NodeTable)
    (p c nid rootId maxC σ : Nat) (cc : ℚ) (rng : Rng)
    (avail : Int → List Nat) (scanOrd : List Nat → List Nat)
    (hcons : Consistent t) (hnd : NodupTable t)
    (hp : p ∈ tableIds t) (hcid : c ∈ tableIds t) (hroot : rootId ∈ tableIds t) :
    (Consistent (linkNodes t p c) ∧ NodupTable (linkNodes t p c)) ∧
    (Consistent (maybeAddConvergence cc rng t nid avail rootId σ).1 ∧
      NodupTable (maybeAddConvergence cc rng t nid avail rootId σ).1) ∧
    (Consistent (enforceHighTierConvergence t rootId) ∧
      NodupTable (enforceHighTierConvergence t rootId)) ∧
    (Consistent (ensureAllReachable scanOrd maxC t rootId).1 ∧
      NodupTable (ensureAllReachable scanOrd maxC t rootId).1) := by
  have hcL := consistentL_of_consistent t hcons
  have hnL := nodupL_of_nodupTable t hnd
  refine ⟨?_, ?_, ?_, ?_⟩
  · have h1 := consistentL_linkNodes t p c hcL hp hcid
    have h2 := nodupL_linkNodes t p c hnL
    exact ⟨consistent_of_consistentL _ h2.1 h1, nodupTable_of_nodupL _ h2⟩
  · obtain ⟨h1, h2, -⟩ := maybeAddConvergence_preserves cc rng t nid avail rootId σ hcL hnL
    exact ⟨consistent_of_consistentL _ h2.1 h1, nodupTable_of_nodupL _ h2⟩
  · obtain ⟨h1, h2, -⟩ := enforceHighTierConvergence_preserves t rootId hcL hnL
    exact ⟨consistent_of_consistentL _ h2.1 h1, nodupTable_of_nodupL _ h2⟩
  · obtain ⟨h1, h2, -⟩ := ensureAllReachable_preserves scanOrd maxC t rootId hroot hcL hnL
    exact ⟨consistent_of_consistentL _ h2.1 h1, nodupTable_of_nodupL _ h2⟩

theorem claim_c4_bidirectional_consistency_witness :
    (Consistent c2Table ∧ NodupTable c2Table ∧ 1 ∈ tableIds c2Table ∧
      2 ∈ tableIds c2Table ∧ 0 ∈ tableIds c2Table) ∧
    ((Consistent (linkNodes c2Table 1 2) ∧ NodupTable (linkNodes c2Table 1 2)) ∧
     (Consistent (maybeAddConvergence 0 ⟨fun _ => 0, fun _ => 0⟩ c2Table 2
        (fun _ => []) 0 0).1 ∧
      NodupTable (maybeAddConvergence 0 ⟨fun _ => 0, fun _ => 0⟩ c2Table 2
        (fun _ => []) 0 0).1) ∧
     (Consistent (enforceHighTierConvergence c2Table 0) ∧
      NodupTable (enforceHighTierConvergence c2Table 0)) ∧
     (Consistent (ensureAllReachable id 1 c2Table 0).1 ∧
      NodupTable (ensureAllReachable id 1 c2Table 0).1)) :=
  ⟨⟨by unfold Consistent; decide, by unfold NodupTable; decide,
      by decide, by decide, by decide⟩,
    claim_c4_bidirectional_consistency c2Table 1 2 2 0 1 0 0
      ⟨fun _ => 0, fun _ => 0⟩ (fun _ => []) id
      (by unfold Consistent; decide) (by unfold NodupTable; decide)
      (by decide) (by decide) (by decide)⟩

theorem rtg_mem_closed (t : NodeTable) (S : List Nat)
    (hS : ∀ s ∈ S, ∀ y ∈ prereqsOf t s, y ∈ S) (x y : Nat)
    (h : Relation.ReflTransGen (prereqEdge t) x y) (hx : x ∈ S) : y ∈ S := by
  induction h with
  | refl => exact hx
  | tail h1 h2 ih => exact hS _ ih _ h2

theorem consistentL_entry_children (t : NodeTable) (hc : ConsistentL t)
    (hnd : (tableIds t).Nodup) :
    ∀ e ∈ t, ∀ y ∈ e.2.children, e.1 ∈ prereqsOf t y := by
  intro e he y hy
  have hle : lookupNode t e.1 = some e.2 := mem_lookupNode t e.1 e.2 hnd (by
    cases e
    exact he)
  apply hc.1 e.1 y
  unfold childrenOf
  rw [hle]
  exact hy

theorem fixOne_acyclic (scanOrd : List Nat → List Nat) (maxC : Nat) (S : List Nat)
    (t : NodeTable) (flag : Bool) (fid : Nat)
    (hscan : ∀ x ∈ scanOrd S, x ∈ S)
    (hc : ConsistentL t) (hn : NodupL t) (hacyc : ChildAcyclic t)
    (hSclosed : ∀ s ∈ S, ∀ y ∈ prereqsOf t s, y ∈ S)
    (hfidS : fid ∉ S) :
    ChildAcyclic (fixOne scanOrd maxC S (t, flag) fid).1 := by
  rcases fixOne_branches scanOrd maxC S t flag fid with heq | ⟨node, bp, hl, hbl, hsb⟩
  · rw [heq]
    exact hacyc
  · rw [fixOne_eq_stages scanOrd maxC S t flag fid node bp hl hbl hsb]
    dsimp only
    obtain ⟨hc2, hn2, hids2, hpr2ne, hch2mem, hpr2mem⟩ :=
      unlink_props t fid node
        (node.prerequisites.filter (fun q => decide (q ∉ S))) hl hc hn
    obtain ⟨hbpord, hbpne, bn, hbn, hbcap⟩ := scanBest_some t maxC fid (scanOrd S) bp hsb
    have hbpS : bp ∈ S := hscan bp hbpord
    have hbpids : bp ∈ tableIds t := (mem_tableIds_iff_lookup t bp).mpr (by rw [hbn]; rfl)
    have hsub : ∀ a b, childEdge (setPrereqs
        (eraseChildAll t fid (node.prerequisites.filter (fun q => decide (q ∉ S)))) fid
        (node.prerequisites.filter (fun p => decide (p ∉
          node.prerequisites.filter (fun q => decide (q ∉ S)))))) a b →
        childEdge t a b := by
      intro a b hb
      exact ((hch2mem a b).mp hb).1
    have hacyc2 := relAcyclic_mono (childEdge t) _ hsub hacyc
    have hguard : ¬ Relation.ReflTransGen (childEdge (setPrereqs
        (eraseChildAll t fid (node.prerequisites.filter (fun q => decide (q ∉ S)))) fid
        (node.prerequisites.filter (fun p => decide (p ∉
          node.prerequisites.filter (fun q => decide (q ∉ S))))))) fid bp := by
      intro hrtg
      have hrtg_t : Relation.ReflTransGen (childEdge t) fid bp :=
        Relation.ReflTransGen.mono hsub hrtg
      rcases Relation.reflTransGen_iff_eq_or_transGen.mp hrtg_t with heq2 | htg
      · exact hfidS (heq2 ▸ hbpS)
      · have hptg := child_path_to_prereq_path t
          (consistentL_entry_children t hc hn.1) fid bp htg
        exact hfidS (rtg_mem_closed t S hSclosed bp fid hptg.to_reflTransGen hbpS)
    refine relAcyclic_mono _ _ ?_
      (childAcyclic_addPair _ fid bp (by rw [hids2]; exact hbpids) hacyc2 hguard)
    intro a b hb
    unfold childEdge at hb ⊢
    rw [childrenOf_setDepthFrom] at hb
    exact hb

theorem aggOne_acyclic (rootId : Nat) (S : List Nat) (t : NodeTable) (fid : Nat)
    (hrootS : rootId ∈ S) (hrootids : rootId ∈ tableIds t)
    (hc : ConsistentL t) (hn : NodupL t) (hacyc : ChildAcyclic t)
    (hSclosed : ∀ s ∈ S, ∀ y ∈ prereqsOf t s, y ∈ S)
    (hfidS : fid ∉ S) :
    ChildAcyclic (aggOne rootId t fid) := by
  rcases aggOne_cases rootId t fid with ⟨-, heq⟩ | ⟨-, heq⟩ | ⟨node, hne, hl⟩
  · rw [heq]
    exact hacyc
  · rw [heq]
    exact hacyc
  · rw [aggOne_eq_stages rootId t fid node hne hl]
    have hch2mem : ∀ x b, b ∈ childrenOf (setPrereqs
        (eraseChildAll t fid node.prerequisites) fid [rootId]) x ↔
          b ∈ childrenOf t x ∧ ¬(x ∈ node.prerequisites ∧ b = fid) := by
      intro x b
      rw [childrenOf_setPrereqs]
      exact mem_childrenOf_eraseChildAll t fid node.prerequisites x b hn
    have hids2 : tableIds (setPrereqs (eraseChildAll t fid node.prerequisites) fid
        [rootId]) = tableIds t := by
      rw [tableIds_setPrereqs, tableIds_eraseChildAll]
    have hsub : ∀ a b, childEdge (setPrereqs
        (eraseChildAll t fid node.prerequisites) fid [rootId]) a b →
        childEdge t a b := by
      intro a b hb
      exact ((hch2mem a b).mp hb).1
    have hacyc2 := relAcyclic_mono (childEdge t) _ hsub hacyc
    have hguard : ∀ c, c = rootId → ¬ Relation.ReflTransGen (childEdge (setPrereqs
        (eraseChildAll t fid node.prerequisites) fid [rootId])) fid c := by
      intro c hcr hrtg
      subst hcr
      have hrtg_t : Relation.ReflTransGen (childEdge t) fid c :=
        Relation.ReflTransGen.mono hsub hrtg
      rcases Relation.reflTransGen_iff_eq_or_transGen.mp hrtg_t with heq2 | htg
      · exact hfidS (heq2 ▸ hrootS)
      · have hptg := child_path_to_prereq_path t
          (consistentL_entry_children t hc hn.1) fid c htg
        exact hfidS (rtg_mem_closed t S hSclosed c fid hptg.to_reflTransGen hrootS)
    have hacyc3 : ChildAcyclic (addChildM (setPrereqs
        (eraseChildAll t fid node.prerequisites) fid [rootId]) rootId fid) := by
      apply relAcyclic_add_edges_into _ _ fid (fun a => a = rootId) _ hacyc2 hguard
      intro a b hb
      have := (mem_childrenOf_addChildM _ rootId fid a b (by
        rw [hids2]
        exact hrootids)).mp hb
      rcases this with h | h
      · exact Or.inl h
      · exact Or.inr ⟨h.1, h.2⟩
    refine relAcyclic_mono _ _ ?_ hacyc3
    intro a b hb
    unfold childEdge at hb ⊢
    rw [childrenOf_updateNode_keepc _ fid a
      (fun n => { n with depth := 1 }) (fun n => rfl)] at hb
    exact hb

theorem derivable_prereq (t : NodeTable) (rootId : Nat)
    (hndids : (tableIds t).Nodup) (hroot : prereqsOf t rootId = [])
    (x y : Nat) (hd : Derivable t rootId x) (hy : y ∈ prereqsOf t x) :
    Derivable t rootId y := by
  cases hd with
  | root =>
    rw [hroot] at hy
    exact absurd hy (List.not_mem_nil _)
  | step _fid n hmem hne hall =>
    have hl := mem_lookupNode t x n hndids hmem
    have hpr : prereqsOf t x = n.prerequisites := by
      unfold prereqsOf
      rw [hl]
    rw [hpr] at hy
    exact hall y hy

theorem unlockable_closed (t : NodeTable) (rootId : Nat)
    (hndids : (tableIds t).Nodup) (hroot : prereqsOf t rootId = []) :
    ∀ s ∈ simulateUnlocks t rootId, ∀ y ∈ prereqsOf t s,
      y ∈ simulateUnlocks t rootId := by
  intro s hs y hy
  exact simulateUnlocks_complete t rootId y
    (derivable_prereq t rootId hndids hroot s y (simulateUnlocks_sound t rootId s hs) hy)

theorem foldl_fixOne_acyclic (scanOrd : List Nat → List Nat) (maxC : Nat)
    (S : List Nat) (t0 : NodeTable)
    (hscan : ∀ x ∈ scanOrd S, x ∈ S)
    (hSclosed0 : ∀ s ∈ S, ∀ y ∈ prereqsOf t0 s, y ∈ S) :
    ∀ (l : List Nat), (∀ fid ∈ l, fid ∉ S) →
      ∀ (acc : NodeTable × Bool), ConsistentL acc.1 → NodupL acc.1 →
        ChildAcyclic acc.1 → (∀ s ∈ S, prereqsOf acc.1 s = prereqsOf t0 s) →
        ChildAcyclic (l.foldl (fixOne scanOrd maxC S) acc).1 ∧
        (∀ s ∈ S, prereqsOf (l.foldl (fixOne scanOrd maxC S) acc).1 s =
          prereqsOf t0 s) := by
  intro l
  induction l with
  | nil => exact fun _ acc _ _ hacyc hframe => ⟨hacyc, hframe⟩
  | cons fid rest ih =>
    intro hl acc hc hn hacyc hframe
    rw [List.foldl_cons]
    obtain ⟨t, flag⟩ := acc
    have hfidS : fid ∉ S := hl fid (List.mem_cons_self fid rest)
    have hSclosed : ∀ s ∈ S, ∀ y ∈ prereqsOf t s, y ∈ S := by
      intro s hs y hy
      rw [hframe s hs] at hy
      exact hSclosed0 s hs y hy
    have hacyc' := fixOne_acyclic scanOrd maxC S t flag fid hscan hc hn hacyc
      hSclosed hfidS
    obtain ⟨hc', hn', -, hframe'⟩ := fixOne_preserves scanOrd maxC S t flag fid hc hn
    refine ih (fun f hf => hl f (List.mem_cons_of_mem fid hf)) _ hc' hn' hacyc' ?_
    intro s hs
    rw [hframe' s (fun hsf => hfidS (hsf ▸ hs)), hframe s hs]

theorem foldl_aggOne_acyclic (rootId : Nat) (S : List Nat) (t0 : NodeTable)
    (hrootS : rootId ∈ S)
    (hSclosed0 : ∀ s ∈ S, ∀ y ∈ prereqsOf t0 s, y ∈ S) :
    ∀ (l : List Nat), (∀ fid ∈ l, fid ∉ S) →
      ∀ (t : NodeTable), rootId ∈ tableIds t → ConsistentL t → NodupL t →
        ChildAcyclic t → (∀ s ∈ S, prereqsOf t s = prereqsOf t0 s) →
        ChildAcyclic (l.foldl (aggOne rootId) t) ∧
        (∀ s ∈ S, prereqsOf (l.foldl (aggOne rootId) t) s = prereqsOf t0 s) := by
  intro l
  induction l with
  | nil => exact fun _ t _ _ _ hacyc hframe => ⟨hacyc, hframe⟩
  | cons fid rest ih =>
    intro hl t hroot hc hn hacyc hframe
    rw [List.foldl_cons]
    have hfidS : fid ∉ S := hl fid (List.mem_cons_self fid rest)
    have hSclosed : ∀ s ∈ S, ∀ y ∈ prereqsOf t s, y ∈ S := by
      intro s hs y hy
      rw [hframe s hs] at hy
      exact hSclosed0 s hs y hy
    have hacyc' := aggOne_acyclic rootId S t fid hrootS hroot hc hn hacyc hSclosed hfidS
    obtain ⟨hc', hn', hids', hframe', -, -⟩ := aggOne_preserves rootId t fid hroot hc hn
    refine ih (fun f hf => hl f (List.mem_cons_of_mem fid hf)) _
      (by rw [hids']; exact hroot) hc' hn' hacyc' ?_
    intro s hs
    rw [hframe' s (fun hsf => hfidS (hsf ▸ hs)), hframe s hs]

theorem repairLoop_acyclic (scanOrd : List Nat → List Nat) (maxC rootId : Nat)
    (hscanAll : ∀ (l : List Nat), ∀ x ∈ scanOrd l, x ∈ l) :
    ∀ (k : Nat) (t : NodeTable), rootId ∈ tableIds t → prereqsOf t rootId = [] →
      ConsistentL t → NodupL t → ChildAcyclic t →
      ChildAcyclic (repairLoop scanOrd maxC rootId k t).1 ∧
      prereqsOf (repairLoop scanOrd maxC rootId k t).1 rootId = [] := by
  intro k
  induction k with
  | zero => exact fun t _ hroot _ _ hacyc => ⟨hacyc, hroot⟩
  | succ k ih =>
    intro t hrootids hrootfree hc hn hacyc
    rw [repairLoop]
    dsimp only
    split
    · exact ⟨hacyc, hrootfree⟩
    · have hSclosed0 := unlockable_closed t rootId hn.1 hrootfree
      have hrootS := root_mem_simulateUnlocks t rootId
      have hunS : ∀ fid ∈ (tableIds t).filter
          (fun fid => decide (fid ∉ simulateUnlocks t rootId)),
          fid ∉ simulateUnlocks t rootId := by
        intro fid hf
        have := (List.mem_filter.mp hf).2
        exact of_decide_eq_true this
      obtain ⟨hacyc1, hframe1⟩ := foldl_fixOne_acyclic scanOrd maxC
        (simulateUnlocks t rootId) t (hscanAll _) hSclosed0 _ hunS (t, false)
        hc hn hacyc (fun s _ => rfl)
      obtain ⟨hc1, hn1, hids1⟩ := foldl_fixOne_preserves scanOrd maxC
        (simulateUnlocks t rootId) _ (t, false) hc hn
      have hrootfree1 : prereqsOf ((((tableIds t).filter
          (fun fid => decide (fid ∉ simulateUnlocks t rootId))).foldl
          (fixOne scanOrd maxC (simulateUnlocks t rootId)) (t, false)).1) rootId = [] := by
        rw [hframe1 rootId hrootS]
        exact hrootfree
      split
      · exact ih _ (by rw [hids1]; exact hrootids) hrootfree1 hc1 hn1 hacyc1
      · obtain ⟨hacyc2, hframe2⟩ := foldl_aggOne_acyclic rootId
          (simulateUnlocks t rootId) t hrootS hSclosed0 _ hunS _
          (by rw [hids1]; exact hrootids) hc1 hn1 hacyc1 hframe1
        refine ⟨hacyc2, ?_⟩
        rw [hframe2 rootId hrootS]
        exact hrootfree

theorem ensureAllReachable_acyclic (scanOrd : List Nat → List Nat)
    (maxC : Nat) (t : NodeTable) (rootId : Nat)
    (hscanAll : ∀ (l : List Nat), ∀ x ∈ scanOrd l, x ∈ l)
    (hrootids : rootId ∈ tableIds t) (hrootfree : prereqsOf t rootId = [])
    (hc : ConsistentL t) (hn : NodupL t) (hacyc : ChildAcyclic t) :
    ChildAcyclic (ensureAllReachable scanOrd maxC t rootId).1 :=
  (repairLoop_acyclic scanOrd maxC rootId hscanAll 10 t hrootids hrootfree hc hn hacyc).1

theorem convLoop_acyclic (rng : Rng) (avail : Int → List Nat)
    (reachable : List Nat) (nid : Nat) (maxPrereqs : Nat) :
    ∀ k t σ, ChildAcyclic t →
      ChildAcyclic (convLoop rng avail reachable nid maxPrereqs k (t, σ)).1 := by
  intro k
  induction k with
  | zero => exact fun t σ h => h
  | succ k ih =>
    intro t σ hacyc
    rw [convLoop]
    rcases hl : lookupNode t nid with _ | node
    · exact hacyc
    · dsimp only
      by_cases hcap : maxPrereqs ≤ node.prerequisites.length
      · rw [if_pos hcap]
        exact hacyc
      · rw [if_neg hcap]
        rcases hff : convFindFirst t avail reachable nid node (intRangeDown node.depth)
            with _ | different
        · exact ih t σ hacyc
        · dsimp only
          obtain ⟨hne, hall⟩ := convFindFirst_mem t avail reachable nid node _ _ hff
          obtain ⟨hextra, hdesc⟩ :=
            hall _ (pyChoice_mem different (rng.rnat σ) hne)
          have hguard : ¬ Relation.ReflTransGen (childEdge t) nid
              (pyChoice different (rng.rnat σ)) := by
            intro h
            have h2 := (isDescendant_iff t (pyChoice different (rng.rnat σ)) nid).mpr h
            rw [hdesc] at h2
            exact absurd h2 (by simp)
          exact ih _ (σ + 1) (childAcyclic_addPair t nid _ hextra hacyc hguard)

theorem maybeAddConvergence_acyclic (cc : ℚ) (rng : Rng) (t : NodeTable) (nid : Nat)
    (avail : Int → List Nat) (rootId : Nat) (σ : Nat) (hacyc : ChildAcyclic t) :
    ChildAcyclic (maybeAddConvergence cc rng t nid avail rootId σ).1 := by
  unfold maybeAddConvergence
  rcases hl : lookupNode t nid with _ | node
  · exact hacyc
  · dsimp only
    split
    · exact hacyc
    · split
      · exact hacyc
      · exact convLoop_acyclic rng avail _ nid _ _ t _ hacyc

theorem foldl_addPair_sub (fid : Nat) :
    ∀ (cs : List (Nat × Bool × Int)) (t : NodeTable),
      (∀ c ∈ cs, c.1 ∈ tableIds t) → ∀ a b,
      childEdge (cs.foldl (fun tt c => addChildM (addPrereqM tt fid c.1) c.1 fid) t) a b →
        childEdge t a b ∨ (a ∈ cs.map (fun c => c.1) ∧ b = fid) := by
  intro cs
  induction cs with
  | nil => exact fun t _ a b h => Or.inl h
  | cons c rest ih =>
    intro t hids a b hb
    rw [List.foldl_cons] at hb
    have hidsr : ∀ d ∈ rest, d.1 ∈ tableIds (addChildM (addPrereqM t fid c.1) c.1 fid) := by
      intro d hd
      rw [tableIds_addPair]
      exact hids d (List.mem_cons_of_mem c hd)
    rcases ih _ hidsr a b hb with h | ⟨ha, hbf⟩
    · rcases childEdge_addPair_sub t fid c.1 a b
        (hids c (List.mem_cons_self c rest)) h with h2 | ⟨ha2, hb2⟩
      · exact Or.inl h2
      · refine Or.inr ⟨?_, hb2⟩
        rw [List.map_cons]
        exact ha2 ▸ List.mem_cons_self _ _
    · refine Or.inr ⟨?_, hbf⟩
      rw [List.map_cons]
      exact List.mem_cons_of_mem _ ha

theorem enforceOne_acyclic (reachable : List Nat) (rootId : Nat) (t : NodeTable)
    (fid : Nat) (hacyc : ChildAcyclic t) :
    ChildAcyclic (enforceOne reachable rootId t fid) := by
  unfold enforceOne
  by_cases h0 : fid = rootId
  · rw [if_pos h0]
    exact hacyc
  · rw [if_neg h0]
    rcases hl : lookupNode t fid with _ | node
    · exact hacyc
    · dsimp only
      by_cases h1 : tierToDepth node.tier < 3
      · rw [if_pos h1]
        exact hacyc
      · rw [if_neg h1]
        by_cases h2 : (if 4 ≤ tierToDepth node.tier then 3 else 2) ≤
            node.prerequisites.length
        · rw [if_pos h2]
          exact hacyc
        · rw [if_neg h2]
          apply relAcyclic_add_edges_into (childEdge t) _ fid
            (fun a => a ∈ ((pySortStable enforceLe
              (enforceCandidates t reachable fid node)).take
              ((if 4 ≤ tierToDepth node.tier then 3 else 2) -
                node.prerequisites.length)).map (fun c => c.1))
          · intro a b hb
            apply foldl_addPair_sub fid _ t _ a b hb
            intro c hc
            exact (enforceCandidates_mem t reachable fid node c
              (mem_pySortStable enforceLe c _ (List.take_subset _ _ hc))).1
          · exact hacyc
          · intro c hc hrtg
            obtain ⟨d, hd, hdc⟩ := List.mem_map.mp hc
            have hcand := enforceCandidates_mem t reachable fid node d
              (mem_pySortStable enforceLe d _ (List.take_subset _ _ hd))
            rw [← hdc] at hrtg
            have h3 := (isDescendant_iff t d.1 fid).mpr hrtg
            rw [hcand.2.2] at h3
            exact absurd h3 (by simp)

theorem foldl_enforceOne_acyclic (reachable : List Nat) (rootId : Nat)
    (l : List Nat) :
    ∀ t, ChildAcyclic t → ChildAcyclic (l.foldl (enforceOne reachable rootId) t) := by
  induction l with
  | nil => exact fun t h => h
  | cons fid rest ih =>
    intro t hacyc
    rw [List.foldl_cons]
    exact ih _ (enforceOne_acyclic reachable rootId t fid hacyc)

theorem enforceHighTierConvergence_acyclic (t : NodeTable) (rootId : Nat)
    (hacyc : ChildAcyclic t) :
    ChildAcyclic (enforceHighTierConvergence t rootId) :=
  foldl_enforceOne_acyclic _ rootId (tableIds t) t hacyc

theorem prereqAcyclic_of_rank (t : NodeTable) (rank : Nat → Nat)
    (h : ∀ e ∈ t, ∀ p ∈ e.2.prerequisites, rank p < rank e.1) : PrereqAcyclic t := by
  have hedge : ∀ a b, prereqEdge t a b → rank b < rank a := by
    intro a b hab
    unfold prereqEdge prereqsOf at hab
    rcases hl : lookupNode t a with _ | n
    · rw [hl] at hab
      exact absurd hab (List.not_mem_nil _)
    · rw [hl] at hab
      exact h (a, n) (lookupNode_mem t a n hl) b hab
  have hlt : ∀ a b, Relation.TransGen (prereqEdge t) a b → rank b < rank a := by
    intro a b hab
    induction hab with
    | single h1 => exact hedge _ _ h1
    | tail h1 h2 ih => exact lt_trans (hedge _ _ h2) ih
  intro x hcyc
  exact lt_irrefl _ (hlt x x hcyc)

/-- Claim C3: the prerequisite graph stays acyclic through every edge-adding
pass. Starting from a consistent, duplicate-free, prerequisite-acyclic table
whose root carries no prerequisites, `_maybe_add_convergence` (its candidates
pass the `_is_descendant` children-BFS check), `_enforce_high_tier_convergence`
(same check), and `_ensure_all_reachable` (its replacement parent is drawn from
the already-unlockable set, whose members can never be child-reachable from a
non-unlockable node) all return prerequisite-acyclic tables; the repair's
scan order may be any enumeration of the unlockable set. -/
theorem claim_c3_prereq_acyclicity (t : NodeTable)
    (nid rootId maxC σ : Nat) (cc : ℚ) (rng : Rng) (avail : Int → List Nat)
    (scanOrd : List Nat → List Nat)
    (hscanAll : ∀ (l : List Nat), ∀ x ∈ scanOrd l, x ∈ l)
    (hcons : Consistent t) (hnd : NodupTable t) (hacyc : PrereqAcyclic t)
    (hrootids : rootId ∈ tableIds t) (hrootfree : prereqsOf t rootId = []) :
    PrereqAcyclic (maybeAddConvergence cc rng t nid avail rootId σ).1 ∧
    PrereqAcyclic (enforceHighTierConvergence t rootId) ∧
    PrereqAcyclic (ensureAllReachable scanOrd maxC t rootId).1 := by
  have hcL := consistentL_of_consistent t hcons
  have hnL := nodupL_of_nodupTable t hnd
  have hCacyc : ChildAcyclic t := childAcyclic_of_prereqAcyclic t hcons.1 hacyc
  refine ⟨?_, ?_, ?_⟩
  · have h1 := maybeAddConvergence_acyclic cc rng t nid avail rootId σ hCacyc
    obtain ⟨hcR, hnR, -⟩ := maybeAddConvergence_preserves cc rng t nid avail rootId σ hcL hnL
    exact prereqAcyclic_of_childAcyclic _
      (consistent_of_consistentL _ hnR.1 hcR).2 h1
  · have h1 := enforceHighTierConvergence_acyclic t rootId hCacyc
    obtain ⟨hcR, hnR, -⟩ := enforceHighTierConvergence_preserves t rootId hcL hnL
    exact prereqAcyclic_of_childAcyclic _
      (consistent_of_consistentL _ hnR.1 hcR).2 h1
  · have h1 := ensureAllReachable_acyclic scanOrd maxC t rootId hscanAll
      hrootids hrootfree hcL hnL hCacyc
    obtain ⟨hcR, hnR, -⟩ := ensureAllReachable_preserves scanOrd maxC t rootId
      hrootids hcL hnL
    exact prereqAcyclic_of_childAcyclic _
      (consistent_of_consistentL _ hnR.1 hcR).2 h1

theorem claim_c3_prereq_acyclicity_witness :
    ((∀ (l : List Nat), ∀ x ∈ id l, x ∈ l) ∧ Consistent c2Table ∧
      NodupTable c2Table ∧ PrereqAcyclic c2Table ∧ 0 ∈ tableIds c2Table ∧
      prereqsOf c2Table 0 = []) ∧
    (PrereqAcyclic (maybeAddConvergence 0 ⟨fun _ => 0, fun _ => 0⟩ c2Table 2
        (fun _ => []) 0 0).1 ∧
      PrereqAcyclic (enforceHighTierConvergence c2Table 0) ∧
      PrereqAcyclic (ensureAllReachable id 1 c2Table 0).1) :=
  ⟨⟨fun l x h => h, by unfold Consistent; decide, by unfold NodupTable; decide,
      prereqAcyclic_of_rank c2Table (fun i => i) (by decide), by decide, by decide⟩,
    claim_c3_prereq_acyclicity c2Table 2 0 1 0 0 ⟨fun _ => 0, fun _ => 0⟩
      (fun _ => []) id (fun l x h => h)
      (by unfold Consistent; decide) (by unfold NodupTable; decide)
      (prereqAcyclic_of_rank c2Table (fun i => i) (by decide))
      (by decide) (by decide)⟩

theorem fixOne_capacity (scanOrd : List Nat → List Nat) (maxC : Nat)
    (unlockable : List Nat) (t : NodeTable) (flag : Bool) (fid rootId : Nat)
    (hcap : ∀ x, x ≠ rootId → (childrenOf t x).length ≤ maxC) :
    ∀ x, x ≠ rootId →
      (childrenOf (fixOne scanOrd maxC unlockable (t, flag) fid).1 x).length ≤ maxC := by
  rcases fixOne_branches scanOrd maxC unlockable t flag fid with heq | ⟨node, bp, hl, hbl, hsb⟩
  · rw [heq]
    exact hcap
  · rw [fixOne_eq_stages scanOrd maxC unlockable t flag fid node bp hl hbl hsb]
    dsimp only
    intro x hx
    rw [childrenOf_setDepthFrom]
    obtain ⟨-, -, bn, hbn, hbcap⟩ := scanBest_some t maxC fid (scanOrd unlockable) bp hsb
    have hlen2 : ∀ y, (childrenOf (setPrereqs
        (eraseChildAll t fid (node.prerequisites.filter (fun q => decide (q ∉ unlockable))))
        fid (node.prerequisites.filter (fun p => decide (p ∉
          node.prerequisites.filter (fun q => decide (q ∉ unlockable)))))) y).length ≤
        (childrenOf t y).length := by
      intro y
      rw [childrenOf_setPrereqs]
      exact length_childrenOf_eraseChildAll t fid _ y
    by_cases hxbp : x = bp
    · subst hxbp
      rcases hlk : lookupNode (addPrereqM (setPrereqs
          (eraseChildAll t fid (node.prerequisites.filter (fun q => decide (q ∉ unlockable))))
          fid (node.prerequisites.filter (fun p => decide (p ∉
            node.prerequisites.filter (fun q => decide (q ∉ unlockable)))))) fid x) x
          with _ | n2
      · rw [childrenOf_addChildM_missing _ x fid hlk]
        exact Nat.zero_le maxC
      · rw [childrenOf_addChildM_self _ x fid n2 hlk]
        have hn2c : n2.children.length < maxC := by
          have he : childrenOf (addPrereqM (setPrereqs
              (eraseChildAll t fid (node.prerequisites.filter (fun q => decide (q ∉ unlockable))))
              fid (node.prerequisites.filter (fun p => decide (p ∉
                node.prerequisites.filter (fun q => decide (q ∉ unlockable)))))) fid x) x =
              n2.children := by
            unfold childrenOf
            rw [hlk]
          have hcht : childrenOf t x = bn.children := by
            unfold childrenOf
            rw [hbn]
          have h1 : n2.children.length ≤ bn.children.length := by
            rw [← he, ← hcht]
            rw [childrenOf_addPrereqM]
            exact hlen2 x
          omega
        by_cases hmem : fid ∈ n2.children
        · rw [if_pos hmem]
          omega
        · rw [if_neg hmem]
          rw [List.length_append]
          simp only [List.length_singleton]
          omega
    · rw [childrenOf_addChildM_ne _ bp fid x hxbp, childrenOf_addPrereqM]
      exact le_trans (hlen2 x) (hcap x hx)

theorem aggOne_capacity (rootId : Nat) (maxC : Nat) (t : NodeTable) (fid : Nat)
    (hcap : ∀ x, x ≠ rootId → (childrenOf t x).length ≤ maxC) :
    ∀ x, x ≠ rootId → (childrenOf (aggOne rootId t fid) x).length ≤ maxC := by
  rcases aggOne_cases rootId t fid with ⟨-, heq⟩ | ⟨-, heq⟩ | ⟨node, hne, hl⟩
  · rw [heq]
    exact hcap
  · rw [heq]
    exact hcap
  · rw [aggOne_eq_stages rootId t fid node hne hl]
    intro x hx
    rw [childrenOf_updateNode_keepc _ fid x (fun n => { n with depth := 1 })
      (fun n => rfl), childrenOf_addChildM_ne _ rootId fid x hx, childrenOf_setPrereqs]
    exact le_trans (length_childrenOf_eraseChildAll t fid _ x) (hcap x hx)

theorem foldl_fixOne_capacity (scanOrd : List Nat → List Nat) (maxC : Nat)
    (unlockable : List Nat) (rootId : Nat) :
    ∀ (l : List Nat) (acc : NodeTable × Bool),
      (∀ x, x ≠ rootId → (childrenOf acc.1 x).length ≤ maxC) →
      ∀ x, x ≠ rootId →
        (childrenOf (l.foldl (fixOne scanOrd maxC unlockable) acc).1 x).length ≤ maxC := by
  intro l
  induction l with
  | nil => exact fun acc hcap => hcap
  | cons fid rest ih =>
    intro acc hcap
    rw [List.foldl_cons]
    obtain ⟨t, flag⟩ := acc
    exact ih _ (fixOne_capacity scanOrd maxC unlockable t flag fid rootId hcap)

theorem foldl_aggOne_capacity (rootId maxC : Nat) :
    ∀ (l : List Nat) (t : NodeTable),
      (∀ x, x ≠ rootId → (childrenOf t x).length ≤ maxC) →
      ∀ x, x ≠ rootId →
        (childrenOf (l.foldl (aggOne rootId) t) x).length ≤ maxC := by
  intro l
  induction l with
  | nil => exact fun t hcap => hcap
  | cons fid rest ih =>
    intro t hcap
    rw [List.foldl_cons]
    exact ih _ (aggOne_capacity rootId maxC t fid hcap)

theorem repairLoop_capacity (scanOrd : List Nat → List Nat) (maxC rootId : Nat) :
    ∀ (k : Nat) (t : NodeTable),
      (∀ x, x ≠ rootId → (childrenOf t x).length ≤ maxC) →
      ∀ x, x ≠ rootId →
        (childrenOf (repairLoop scanOrd maxC rootId k t).1 x).length ≤ maxC := by
  intro k
  induction k with
  | zero => exact fun t hcap => hcap
  | succ k ih =>
    intro t hcap
    rw [repairLoop]
    dsimp only
    split
    · exact hcap
    · split
      · exact ih _ (foldl_fixOne_capacity scanOrd maxC _ rootId _ (t, false) hcap)
      · exact foldl_aggOne_capacity rootId maxC _ _
          (foldl_fixOne_capacity scanOrd maxC _ rootId _ (t, false) hcap)

theorem capacity_of_table (t : NodeTable) (rootId maxC : Nat)
    (h : ∀ e ∈ t, e.1 ≠ rootId → e.2.children.length ≤ maxC) :
    ∀ x, x ≠ rootId → (childrenOf t x).length ≤ maxC := by
  intro x hx
  rcases hl : lookupNode t x with _ | n
  · unfold childrenOf
    rw [hl]
    exact Nat.zero_le maxC
  · unfold childrenOf
    rw [hl]
    exact h (x, n) (lookupNode_mem t x n hl) hx

/-- Claim C2 (amended): the convergence passes ignore the capacity bound (see
the counterexample), but the reachability repair respects it: if every
non-root node of the input table has at most `max_children_per_node`
children, the same holds after `_ensure_all_reachable`, for any scan order —
its best-parent scan only selects parents with spare capacity, and the
aggressive fallback adds children only to the root. -/
theorem claim_c2_capacity_repair (scanOrd : List Nat → List Nat)
    (maxC : Nat) (t : NodeTable) (rootId : Nat)
    (hcap : ∀ x, x ≠ rootId → (childrenOf t x).length ≤ maxC) :
    ∀ x, x ≠ rootId →
      (childrenOf (ensureAllReachable scanOrd maxC t rootId).1 x).length ≤ maxC :=
  repairLoop_capacity scanOrd maxC rootId 10 t hcap

theorem claim_c2_capacity_repair_witness :
    (∀ x, x ≠ 0 → (childrenOf c2Table x).length ≤ 1) ∧
    (∀ x, x ≠ 0 →
      (childrenOf (ensureAllReachable id 1 c2Table 0).1 x).length ≤ 1) := by
  have hcap : ∀ x, x ≠ 0 → (childrenOf c2Table x).length ≤ 1 := by
    apply capacity_of_table c2Table 0 1
    decide
  exact ⟨hcap, claim_c2_capacity_repair id 1 c2Table 0 hcap⟩

theorem fixOne_ids (scanOrd : List Nat → List Nat) (maxC : Nat) (unlockable : List Nat)
    (t : NodeTable) (flag : Bool) (fid : Nat) :
    tableIds (fixOne scanOrd maxC unlockable (t, flag) fid).1 = tableIds t := by
  rcases fixOne_branches scanOrd maxC unlockable t flag fid with heq | ⟨node, bp, hl, hbl, hsb⟩
  · rw [heq]
  · rw [fixOne_eq_stages scanOrd maxC unlockable t flag fid node bp hl hbl hsb]
    dsimp only
    rw [tableIds_setDepthFrom, tableIds_addChildM, tableIds_addPrereqM,
      tableIds_setPrereqs, tableIds_eraseChildAll]

theorem foldl_fixOne_ids (scanOrd : List Nat → List Nat) (maxC : Nat)
    (unlockable : List Nat) :
    ∀ (l : List Nat) (acc : NodeTable × Bool),
      tableIds (l.foldl (fixOne scanOrd maxC unlockable) acc).1 = tableIds acc.1 := by
  intro l
  induction l with
  | nil => exact fun acc => rfl
  | cons fid rest ih =>
    intro acc
    rw [List.foldl_cons]
    obtain ⟨t, flag⟩ := acc
    rw [ih (fixOne scanOrd maxC unlockable (t, flag) fid),
      fixOne_ids scanOrd maxC unlockable t flag fid]

theorem foldl_fixOne_flag_mono (scanOrd : List Nat → List Nat) (maxC : Nat)
    (unlockable : List Nat) :
    ∀ (l : List Nat) (acc : NodeTable × Bool), acc.2 = true →
      (l.foldl (fixOne scanOrd maxC unlockable) acc).2 = true := by
  intro l
  induction l with
  | nil => exact fun acc h => h
  | cons fid rest ih =>
    intro acc hacc
    rw [List.foldl_cons]
    apply ih
    obtain ⟨t, flag⟩ := acc
    rcases fixOne_branches scanOrd maxC unlockable t flag fid with heq | ⟨node, bp, hl, hbl, hsb⟩
    · rw [heq]
      exact hacc
    · rw [fixOne_eq_stages scanOrd maxC unlockable t flag fid node bp hl hbl hsb]

theorem foldl_fixOne_noprogress (scanOrd : List Nat → List Nat) (maxC : Nat)
    (unlockable : List Nat) :
    ∀ (l : List Nat) (acc : NodeTable × Bool),
      (l.foldl (fixOne scanOrd maxC unlockable) acc).2 = false →
      l.foldl (fixOne scanOrd maxC unlockable) acc = acc := by
  intro l
  induction l with
  | nil => exact fun acc _ => rfl
  | cons fid rest ih =>
    intro acc h
    rw [List.foldl_cons] at h ⊢
    obtain ⟨t, flag⟩ := acc
    rcases fixOne_branches scanOrd maxC unlockable t flag fid with heq | ⟨node, bp, hl, hbl, hsb⟩
    · rw [heq] at h ⊢
      exact ih _ h
    · exfalso
      rw [fixOne_eq_stages scanOrd maxC unlockable t flag fid node bp hl hbl hsb] at h
      have h2 := foldl_fixOne_flag_mono scanOrd maxC unlockable rest _ (rfl :
        ((setDepthFrom (addChildM (addPrereqM (setPrereqs
          (eraseChildAll t fid
            (node.prerequisites.filter (fun p => decide (p ∉ unlockable)))) fid
          (node.prerequisites.filter (fun p =>
            decide (p ∉ node.prerequisites.filter (fun q => decide (q ∉ unlockable))))))
          fid bp) bp fid) fid bp, true) : NodeTable × Bool).2 = true)
      exact absurd (h2.symm.trans h) (by decide)

theorem aggOne_ids (rootId : Nat) (t : NodeTable) (fid : Nat) :
    tableIds (aggOne rootId t fid) = tableIds t := by
  rcases aggOne_cases rootId t fid with ⟨-, heq⟩ | ⟨-, heq⟩ | ⟨node, hne, hl⟩
  · rw [heq]
  · rw [heq]
  · rw [aggOne_eq_stages rootId t fid node hne hl]
    rw [tableIds_updateNode, tableIds_addChildM, tableIds_setPrereqs,
      tableIds_eraseChildAll]

theorem aggOne_prereqs_frame (rootId : Nat) (t : NodeTable) (fid : Nat) :
    ∀ x, x ≠ fid → prereqsOf (aggOne rootId t fid) x = prereqsOf t x := by
  rcases aggOne_cases rootId t fid with ⟨-, heq⟩ | ⟨-, heq⟩ | ⟨node, hne, hl⟩
  · rw [heq]
    exact fun x _ => rfl
  · rw [heq]
    exact fun x _ => rfl
  · rw [aggOne_eq_stages rootId t fid node hne hl]
    intro x hx
    rw [prereqsOf_updateNode_keepp _ fid x (fun n => { n with depth := 1 })
      (fun n => rfl), prereqsOf_addChildM,
      prereqsOf_setPrereqs_ne _ _ _ _ hx, prereqsOf_eraseChildAll]

theorem aggOne_prereqs_self (rootId : Nat) (t : NodeTable) (fid : Nat) (node : TreeNode)
    (hne : fid ≠ rootId) (hl : lookupNode t fid = some node) :
    prereqsOf (aggOne rootId t fid) fid = [rootId] := by
  rcases aggOne_cases rootId t fid with ⟨hfr, -⟩ | ⟨hl0, -⟩ | ⟨node2, hne2, hl2⟩
  · exact absurd hfr hne
  · rw [hl0] at hl
    exact absurd hl (by simp)
  · rw [aggOne_eq_stages rootId t fid node2 hne2 hl2]
    obtain ⟨n1, hn1l⟩ :
        ∃ n1, lookupNode (eraseChildAll t fid node2.prerequisites) fid = some n1 := by
      have hm : fid ∈ tableIds (eraseChildAll t fid node2.prerequisites) := by
        rw [tableIds_eraseChildAll]
        exact (mem_tableIds_iff_lookup t fid).mpr (by rw [hl2]; rfl)
      have hs := (mem_tableIds_iff_lookup _ fid).mp hm
      rcases hlk : lookupNode (eraseChildAll t fid node2.prerequisites) fid with _ | n1
      · rw [hlk] at hs
        exact absurd hs (by simp)
      · exact ⟨n1, rfl⟩
    rw [prereqsOf_updateNode_keepp _ fid fid (fun n => { n with depth := 1 })
      (fun n => rfl), prereqsOf_addChildM,
      prereqsOf_setPrereqs_self _ fid _ n1 hn1l]

theorem foldl_aggOne_frame (rootId : Nat) :
    ∀ (l : List Nat) (t : NodeTable), l.Nodup →
      (∀ fid ∈ l, fid ≠ rootId ∧ fid ∈ tableIds t) →
      tableIds (l.foldl (aggOne rootId) t) = tableIds t ∧
      (∀ s, s ∉ l → prereqsOf (l.foldl (aggOne rootId) t) s = prereqsOf t s) ∧
      (∀ fid ∈ l, prereqsOf (l.foldl (aggOne rootId) t) fid = [rootId]) := by
  intro l
  induction l with
  | nil =>
    refine fun t _ _ => ⟨rfl, fun s _ => rfl, ?_⟩
    intro fid h
    exact absurd h (List.not_mem_nil fid)
  | cons fid rest ih =>
    intro t hnodup hall
    rw [List.foldl_cons]
    have hfid := hall fid (List.mem_cons_self fid rest)
    obtain ⟨node, hlk⟩ : ∃ node, lookupNode t fid = some node := by
      have hs := (mem_tableIds_iff_lookup t fid).mp hfid.2
      rcases hl : lookupNode t fid with _ | node
      · rw [hl] at hs
        exact absurd hs (by simp)
      · exact ⟨node, rfl⟩
    have hids1 := aggOne_ids rootId t fid
    obtain ⟨hN, hR⟩ := List.nodup_cons.mp hnodup
    obtain ⟨hi, hf, hs⟩ := ih (aggOne rootId t fid) hR (fun g hg =>
      ⟨(hall g (List.mem_cons_of_mem fid hg)).1,
       by rw [hids1]; exact (hall g (List.mem_cons_of_mem fid hg)).2⟩)
    refine ⟨hi.trans hids1, ?_, ?_⟩
    · intro s hsmem
      rw [hf s (fun h => hsmem (List.mem_cons_of_mem fid h)),
        aggOne_prereqs_frame rootId t fid s
          (fun h => hsmem (h ▸ List.mem_cons_self fid rest))]
    · intro g hg
      rcases List.mem_cons.mp hg with h | h
      · subst h
        rw [hf g hN]
        exact aggOne_prereqs_self rootId t g node hfid.1 hlk
      · exact hs g h

theorem derivable_transfer (t0 t1 : NodeTable) (rootId : Nat)
    (hnd0 : (tableIds t0).Nodup) (hnd1 : (tableIds t1).Nodup)
    (hids : tableIds t1 = tableIds t0)
    (hframe : ∀ s, Derivable t0 rootId s → prereqsOf t1 s = prereqsOf t0 s) :
    ∀ x, Derivable t0 rootId x → Derivable t1 rootId x := by
  intro x hd
  induction hd with
  | root => exact Derivable.root
  | step fid n hmem hne hall ih =>
    have hd0 : Derivable t0 rootId fid := Derivable.step fid n hmem hne hall
    have hpr1 : prereqsOf t1 fid = prereqsOf t0 fid := hframe fid hd0
    have hfid0 : fid ∈ tableIds t0 := List.mem_map.mpr ⟨(fid, n), hmem, rfl⟩
    obtain ⟨n1, h1l⟩ : ∃ n1, lookupNode t1 fid = some n1 := by
      have hm : fid ∈ tableIds t1 := by
        rw [hids]
        exact hfid0
      have hsm := (mem_tableIds_iff_lookup t1 fid).mp hm
      rcases hl : lookupNode t1 fid with _ | n1
      · rw [hl] at hsm
        exact absurd hsm (by simp)
      · exact ⟨n1, rfl⟩
    have e1 : prereqsOf t1 fid = n1.prerequisites := by
      unfold prereqsOf
      rw [h1l]
    have e0 : prereqsOf t0 fid = n.prerequisites := by
      unfold prereqsOf
      rw [mem_lookupNode t0 fid n hnd0 hmem]
    have hn1pr : n1.prerequisites = n.prerequisites := by
      rw [← e1, ← e0]
      exact hpr1
    refine Derivable.step fid n1 (lookupNode_mem t1 fid n1 h1l) ?_ ?_
    · rw [hn1pr]
      exact hne
    · rw [hn1pr]
      intro p hp
      exact ih p hp

theorem aggFold_reaches (rootId : Nat) (t : NodeTable) (hnd : (tableIds t).Nodup) :
    ∀ fid ∈ tableIds (((tableIds t).filter
        (fun f => decide (f ∉ simulateUnlocks t rootId))).foldl (aggOne rootId) t),
      fid ∈ simulateUnlocks (((tableIds t).filter
        (fun f => decide (f ∉ simulateUnlocks t rootId))).foldl (aggOne rootId) t)
        rootId := by
  intro fid hfid
  have hrootS := root_mem_simulateUnlocks t rootId
  have hUnodup : ((tableIds t).filter
      (fun f => decide (f ∉ simulateUnlocks t rootId))).Nodup := hnd.filter _
  have hUprops : ∀ g ∈ (tableIds t).filter
      (fun f => decide (f ∉ simulateUnlocks t rootId)),
      g ≠ rootId ∧ g ∈ tableIds t := by
    intro g hg
    obtain ⟨hg1, hg2⟩ := List.mem_filter.mp hg
    have hg3 : g ∉ simulateUnlocks t rootId := of_decide_eq_true hg2
    exact ⟨fun h => hg3 (h ▸ hrootS), hg1⟩
  obtain ⟨hids, hframe, hself⟩ := foldl_aggOne_frame rootId _ t hUnodup hUprops
  rw [hids] at hfid
  by_cases hS : fid ∈ simulateUnlocks t rootId
  · have hd0 := simulateUnlocks_sound t rootId fid hS
    have hnd1 : (tableIds (((tableIds t).filter
        (fun f => decide (f ∉ simulateUnlocks t rootId))).foldl (aggOne rootId) t)).Nodup := by
      rw [hids]
      exact hnd
    have htrans := derivable_transfer t _ rootId hnd hnd1 hids (fun s hds => by
      refine hframe s ?_
      intro hsU
      have hs2 := of_decide_eq_true (List.mem_filter.mp hsU).2
      exact hs2 (simulateUnlocks_complete t rootId s hds)) fid hd0
    exact simulateUnlocks_complete _ rootId fid htrans
  · have hUmem : fid ∈ (tableIds t).filter
        (fun f => decide (f ∉ simulateUnlocks t rootId)) :=
      List.mem_filter.mpr ⟨hfid, decide_eq_true hS⟩
    have hpr := hself fid hUmem
    obtain ⟨n1, hn1l⟩ : ∃ n1, lookupNode (((tableIds t).filter
        (fun f => decide (f ∉ simulateUnlocks t rootId))).foldl (aggOne rootId) t) fid =
          some n1 := by
      have hm : fid ∈ tableIds (((tableIds t).filter
          (fun f => decide (f ∉ simulateUnlocks t rootId))).foldl (aggOne rootId) t) := by
        rw [hids]
        exact hfid
      have hsm := (mem_tableIds_iff_lookup _ fid).mp hm
      rcases hl : lookupNode (((tableIds t).filter
          (fun f => decide (f ∉ simulateUnlocks t rootId))).foldl (aggOne rootId) t) fid
          with _ | n1
      · rw [hl] at hsm
        exact absurd hsm (by simp)
      · exact ⟨n1, rfl⟩
    have hn1pr : n1.prerequisites = [rootId] := by
      have he : prereqsOf (((tableIds t).filter
          (fun f => decide (f ∉ simulateUnlocks t rootId))).foldl (aggOne rootId) t) fid =
            n1.prerequisites := by
        unfold prereqsOf
        rw [hn1l]
      rw [he] at hpr
      exact hpr
    have hder : Derivable (((tableIds t).filter
        (fun f => decide (f ∉ simulateUnlocks t rootId))).foldl (aggOne rootId) t)
          rootId fid := by
      refine Derivable.step fid n1 (lookupNode_mem _ fid n1 hn1l) ?_ ?_
      · rw [hn1pr]
        simp
      · rw [hn1pr]
        intro p hp
        rw [List.mem_singleton] at hp
        rw [hp]
        exact Derivable.root
    exact simulateUnlocks_complete _ rootId fid hder

theorem repairLoop_reaches (scanOrd : List Nat → List Nat) (maxC rootId : Nat) :
    ∀ (k : Nat) (t : NodeTable), (tableIds t).Nodup →
      (repairLoop scanOrd maxC rootId k t).2 ≠ RepairStatus.exhausted →
      ∀ fid ∈ tableIds (repairLoop scanOrd maxC rootId k t).1,
        fid ∈ simulateUnlocks (repairLoop scanOrd maxC rootId k t).1 rootId := by
  intro k
  induction k with
  | zero => exact fun t _ h => absurd rfl h
  | succ k ih =>
    intro t hnd hstat
    rw [repairLoop] at hstat ⊢
    dsimp only at hstat ⊢
    by_cases hemp : (tableIds t).filter
        (fun fid => decide (fid ∉ simulateUnlocks t rootId)) = []
    · rw [if_pos hemp]
      intro fid hfid
      by_contra hns
      have hmem : fid ∈ (tableIds t).filter
          (fun fid => decide (fid ∉ simulateUnlocks t rootId)) :=
        List.mem_filter.mpr ⟨hfid, decide_eq_true hns⟩
      rw [hemp] at hmem
      exact absurd hmem (List.not_mem_nil fid)
    · rw [if_neg hemp] at hstat ⊢
      by_cases hflag : (((tableIds t).filter
          (fun fid => decide (fid ∉ simulateUnlocks t rootId))).foldl
          (fixOne scanOrd maxC (simulateUnlocks t rootId)) (t, false)).2 = true
      · rw [if_pos hflag] at hstat ⊢
        refine ih _ ?_ hstat
        rw [foldl_fixOne_ids]
        exact hnd
      · rw [if_neg hflag] at hstat ⊢
        have hres := foldl_fixOne_noprogress scanOrd maxC (simulateUnlocks t rootId)
          ((tableIds t).filter (fun fid => decide (fid ∉ simulateUnlocks t rootId)))
          (t, false) (Bool.not_eq_true _ ▸ hflag)
        rw [hres]
        exact aggFold_reaches rootId t hnd

/-- Claim C1 (amended): 100% reachability is the outcome of
`_ensure_all_reachable` whenever the repair does not exhaust its 10-pass
budget — if the run ends in the all-reachable check or in the aggressive
attach-to-root fallback, every node id of the resulting table is contained in
the unlock fixed point computed by `_simulate_unlocks` from the root. The
counterexample shows the remaining exhausted case can end with unreachable
nodes, so the unconditional claim fails. -/
theorem claim_c1_repair_reachability (scanOrd : List Nat → List Nat)
    (maxC : Nat) (t : NodeTable) (rootId : Nat)
    (hnd : (tableIds t).Nodup)
    (hstat : (ensureAllReachable scanOrd maxC t rootId).2 ≠ RepairStatus.exhausted) :
    ∀ fid ∈ tableIds (ensureAllReachable scanOrd maxC t rootId).1,
      fid ∈ simulateUnlocks (ensureAllReachable scanOrd maxC t rootId).1 rootId :=
  repairLoop_reaches scanOrd maxC rootId 10 t hnd hstat

theorem claim_c1_repair_reachability_witness :
    ((tableIds c5Table).Nodup ∧
      (ensureAllReachable id 2 c5Table 0).2 ≠ RepairStatus.exhausted) ∧
    (∀ fid ∈ tableIds (ensureAllReachable id 2 c5Table 0).1,
      fid ∈ simulateUnlocks (ensureAllReachable id 2 c5Table 0).1 0) :=
  ⟨⟨by decide, by decide⟩,
    claim_c1_repair_reachability id 2 c5Table 0 (by decide) (by decide)⟩

/-- The candidate test of the best-parent scan: not the node being fixed,
present in the table, and with spare child capacity. -/
def scanCand (t : NodeTable) (maxC fid x : Nat) : Bool :=
  decide (x ≠ fid) && (match lookupNode t x with
    | some n => decide (n.children.length < maxC)
    | none => false)

/-- The depth key the best-parent scan minimises. -/
def scanDepth (t : NodeTable) (x : Nat) : Int :=
  match lookupNode t x with
  | some n => n.depth
  | none => 0

/-- Scan-state invariant: the running best, if set, is a candidate that is
either the unique minimum or strictly deeper than it. -/
def ScanInv (t : NodeTable) (maxC fid m : Nat) : Option Nat → Prop
  | none => True
  | some b => scanCand t maxC fid b = true ∧
      (b = m ∨ scanDepth t m < scanDepth t b)

theorem scanCand_spec (t : NodeTable) (maxC fid x : Nat) :
    scanCand t maxC fid x = true ↔
      x ≠ fid ∧ ∃ n, lookupNode t x = some n ∧ n.children.length < maxC := by
  unfold scanCand
  rcases hl : lookupNode t x with _ | n
  · simp
  · constructor
    · intro h
      obtain ⟨h1, h2⟩ := Bool.and_eq_true_iff.mp h
      exact ⟨of_decide_eq_true h1, n, rfl, of_decide_eq_true h2⟩
    · intro ⟨h1, n2, hn2, h2⟩
      injection hn2 with hn2
      subst hn2
      exact Bool.and_eq_true_iff.mpr ⟨decide_eq_true h1, decide_eq_true h2⟩

theorem scanStep_some_m (t : NodeTable) (maxC fid m uid : Nat)
    (hcand : scanCand t maxC fid m = true)
    (hprop : scanCand t maxC fid uid = true →
      uid = m ∨ scanDepth t m < scanDepth t uid) :
    scanBestStep t maxC fid (some m) uid = some m := by
  unfold scanBestStep
  by_cases h1 : uid = fid
  · rw [if_pos h1]
  · rw [if_neg h1]
    rcases hl : lookupNode t uid with _ | cand
    · rfl
    · dsimp only
      by_cases h2 : cand.children.length < maxC
      · rw [if_pos h2]
        have hcu : scanCand t maxC fid uid = true :=
          (scanCand_spec t maxC fid uid).mpr ⟨h1, cand, hl, h2⟩
        obtain ⟨-, mn, hmn, -⟩ := (scanCand_spec t maxC fid m).mp hcand
        rw [hmn]
        dsimp only
        by_cases h3 : cand.depth < mn.depth
        · rw [if_pos h3]
          rcases hprop hcu with h4 | h4
          · rw [h4]
          · exfalso
            have e1 : scanDepth t m = mn.depth := by
              unfold scanDepth
              rw [hmn]
            have e2 : scanDepth t uid = cand.depth := by
              unfold scanDepth
              rw [hl]
            rw [e1, e2] at h4
            omega
        · rw [if_neg h3]
      · rw [if_neg h2]

theorem scanStep_inv (t : NodeTable) (maxC fid m uid : Nat)
    (hprop : scanCand t maxC fid uid = true →
      uid = m ∨ scanDepth t m < scanDepth t uid)
    (best : Option Nat) (hinv : ScanInv t maxC fid m best) :
    ScanInv t maxC fid m (scanBestStep t maxC fid best uid) := by
  unfold scanBestStep
  by_cases h1 : uid = fid
  · rw [if_pos h1]
    exact hinv
  · rw [if_neg h1]
    rcases hl : lookupNode t uid with _ | cand
    · exact hinv
    · dsimp only
      by_cases h2 : cand.children.length < maxC
      · rw [if_pos h2]
        have hcu : scanCand t maxC fid uid = true :=
          (scanCand_spec t maxC fid uid).mpr ⟨h1, cand, hl, h2⟩
        rcases best with _ | b
        · exact ⟨hcu, hprop hcu⟩
        · obtain ⟨hbc, hbm⟩ := hinv
          obtain ⟨-, bn, hbn, -⟩ := (scanCand_spec t maxC fid b).mp hbc
          dsimp only
          rw [hbn]
          dsimp only
          by_cases h3 : cand.depth < bn.depth
          · rw [if_pos h3]
            exact ⟨hcu, hprop hcu⟩
          · rw [if_neg h3]
            exact ⟨hbc, hbm⟩
      · rw [if_neg h2]
        exact hinv

theorem scanStep_at_m (t : NodeTable) (maxC fid m : Nat)
    (hcand : scanCand t maxC fid m = true)
    (best : Option Nat) (hinv : ScanInv t maxC fid m best) :
    scanBestStep t maxC fid best m = some m := by
  rcases best with _ | b
  · obtain ⟨h1, mn, hmn, h2⟩ := (scanCand_spec t maxC fid m).mp hcand
    unfold scanBestStep
    rw [if_neg h1, hmn]
    dsimp only
    rw [if_pos h2]
  · obtain ⟨hbc, hbm⟩ := hinv
    rcases hbm with hbm | hbm
    · subst hbm
      exact scanStep_some_m t maxC fid b b hcand (fun _ => Or.inl rfl)
    · obtain ⟨h1, mn, hmn, h2⟩ := (scanCand_spec t maxC fid m).mp hcand
      obtain ⟨-, bn, hbn, -⟩ := (scanCand_spec t maxC fid b).mp hbc
      unfold scanBestStep
      rw [if_neg h1, hmn]
      dsimp only
      rw [if_pos h2, hbn]
      dsimp only
      have e1 : scanDepth t m = mn.depth := by
        unfold scanDepth
        rw [hmn]
      have e2 : scanDepth t b = bn.depth := by
        unfold scanDepth
        rw [hbn]
      rw [e1, e2] at hbm
      rw [if_pos hbm]

theorem scanFold_keep_m (t : NodeTable) (maxC fid m : Nat)
    (hcand : scanCand t maxC fid m = true) :
    ∀ (l : List Nat), (∀ uid ∈ l, scanCand t maxC fid uid = true →
        uid = m ∨ scanDepth t m < scanDepth t uid) →
      l.foldl (scanBestStep t maxC fid) (some m) = some m := by
  intro l
  induction l with
  | nil => exact fun _ => rfl
  | cons uid rest ih =>
    intro hprop
    rw [List.foldl_cons, scanStep_some_m t maxC fid m uid hcand
      (hprop uid (List.mem_cons_self uid rest))]
    exact ih (fun v hv => hprop v (List.mem_cons_of_mem uid hv))

theorem scanFold_hits_m (t : NodeTable) (maxC fid m : Nat)
    (hcand : scanCand t maxC fid m = true) :
    ∀ (l : List Nat) (best : Option Nat), m ∈ l →
      (∀ uid ∈ l, scanCand t maxC fid uid = true →
        uid = m ∨ scanDepth t m < scanDepth t uid) →
      ScanInv t maxC fid m best →
      l.foldl (scanBestStep t maxC fid) best = some m := by
  intro l
  induction l with
  | nil =>
    intro best hm
    exact absurd hm (List.not_mem_nil m)
  | cons uid rest ih =>
    intro best hm hprop hinv
    rw [List.foldl_cons]
    by_cases hum : uid = m
    · subst hum
      rw [scanStep_at_m t maxC fid uid hcand best hinv]
      exact scanFold_keep_m t maxC fid uid hcand rest
        (fun v hv => hprop v (List.mem_cons_of_mem uid hv))
    · have hm2 : m ∈ rest := by
        rcases List.mem_cons.mp hm with h | h
        · exact absurd h.symm hum
        · exact h
      exact ih _ hm2 (fun v hv => hprop v (List.mem_cons_of_mem uid hv))
        (scanStep_inv t maxC fid m uid (hprop uid (List.mem_cons_self uid rest))
          best hinv)

theorem scanBest_unique_min (t : NodeTable) (maxC fid m : Nat) (ord : List Nat)
    (hm : m ∈ ord) (hcand : scanCand t maxC fid m = true)
    (huniq : ∀ x ∈ ord, scanCand t maxC fid x = true → x ≠ m →
      scanDepth t m < scanDepth t x) :
    scanBest t maxC fid ord = some m := by
  unfold scanBest
  apply scanFold_hits_m t maxC fid m hcand ord none hm _ trivial
  intro uid hu hcu
  by_cases h : uid = m
  · exact Or.inl h
  · exact Or.inr (huniq uid hu hcu h)

/-- Claim C5 (amended): with the RNG modelled as a pure seeded stream, the one
remaining source of cross-process nondeterminism is the iteration order of the
Python `set` scanned by `_ensure_all_reachable`'s best-parent search (see the
counterexample, where two orders of the same set give different tables). That
residue vanishes exactly when the choice is forced: if the scanned set has a
unique spare-capacity candidate of minimal depth, any two enumerations of the
same set make the scan return that candidate, so the repair step is
order-independent. -/
theorem claim_c5_scan_order_determinism (t : NodeTable) (maxC fid m : Nat)
    (ord1 ord2 : List Nat) (hperm : ord1.Perm ord2)
    (hm : m ∈ ord1) (hcand : scanCand t maxC fid m = true)
    (huniq : ∀ x ∈ ord1, scanCand t maxC fid x = true → x ≠ m →
      scanDepth t m < scanDepth t x) :
    scanBest t maxC fid ord1 = some m ∧ scanBest t maxC fid ord2 = some m := by
  refine ⟨scanBest_unique_min t maxC fid m ord1 hm hcand huniq,
    scanBest_unique_min t maxC fid m ord2 (hperm.mem_iff.mp hm) hcand ?_⟩
  intro x hx
  exact huniq x (hperm.mem_iff.mpr hx)

theorem claim_c5_scan_order_determinism_witness :
    (([0, 1] : List Nat).Perm [1, 0] ∧ 1 ∈ ([0, 1] : List Nat) ∧
      scanCand c5Table 2 3 1 = true ∧
      (∀ x ∈ ([0, 1] : List Nat), scanCand c5Table 2 3 x = true → x ≠ 1 →
        scanDepth c5Table 1 < scanDepth c5Table x)) ∧
    (scanBest c5Table 2 3 [0, 1] = some 1 ∧ scanBest c5Table 2 3 [1, 0] = some 1) :=
  ⟨⟨by decide, by decide, by decide, by decide⟩,
    claim_c5_scan_order_determinism c5Table 2 3 1 [0, 1] [1, 0]
      (by decide) (by decide) (by decide) (by decide)⟩
